import Mathlib

/-!
Verification of the release-flow schedule-computation engine
(src/lib/gantt-calculator.ts and src/lib/date-utils.ts).

Modelling conventions:
* Calendar dates are integers (whole days).  A date d with d % 7 = 0 is a
  Sunday and d % 7 = 6 is a Saturday, matching JavaScript getDay up to the
  choice of epoch.  ISO date strings compare lexicographically exactly like
  their chronological order, so integer comparison is a faithful rendering
  of the string comparisons in the source.
* Hours are rationals (the source uses JavaScript numbers only through
  comparisons, minimum, subtraction and addition, all order-preserving).
* The unbounded while-loops of the source (nextWorkingDay, the Kahn loop)
  are rendered with explicitly sufficient fuel, and the sufficiency is
  proved, so the fueled functions agree with the loops on every input.
-/

namespace ReleaseFlow

/-- date-utils.ts isWeekend: Sunday (day 0) or Saturday (day 6). -/
def isWeekend (d : Int) : Bool :=
  d % 7 == 0 || d % 7 == 6

/-- date-utils.ts isHoliday: the calendar date appears in customHolidays. -/
def isHoliday (d : Int) (customHolidays : List Int) : Bool :=
  customHolidays.contains d

/-- date-utils.ts isWorkingDay. -/
def isWorkingDay (d : Int) (customHolidays : List Int) : Bool :=
  !isWeekend d && !isHoliday d customHolidays

/-- Fueled version of the while-loop in gantt-calculator.ts nextWorkingDay:
advance one day at a time until a working day is found. -/
def nextWorkingDayAux (H : List Int) : Nat → Int → Int
  | 0, d => d
  | n + 1, d => if isWorkingDay d H then d else nextWorkingDayAux H n (d + 1)

/-- An upper bound on how many days the nextWorkingDay loop can run:
one day past the largest holiday (and past d), plus a full week. -/
def nwdFuel (H : List Int) (d : Int) : Nat :=
  (H.foldr max d + 8 - d).toNat

/-- gantt-calculator.ts nextWorkingDay: the first working day at or
after d (the source first normalizes to midnight, which the whole-day
model makes implicit). -/
def nextWorkingDay (d : Int) (H : List Int) : Int :=
  nextWorkingDayAux H (nwdFuel H d) d

/-- date-utils.ts addWorkingDays: advance by exactly n working days,
skipping non-working days; n = 0 returns the input unchanged. -/
def addWorkingDays (d : Int) (n : Nat) (H : List Int) : Int :=
  match n with
  | 0 => d
  | n + 1 => addWorkingDays (nextWorkingDay (d + 1) H) n H

theorem foldr_max_le_self (H : List Int) (d : Int) : d ≤ H.foldr max d := by
  induction H with
  | nil => exact le_refl d
  | cons h t ih => exact le_trans ih (le_max_right h _)

theorem foldr_max_mem (H : List Int) (d : Int) :
    ∀ x ∈ H, x ≤ H.foldr max d := by
  induction H with
  | nil => intro x hx; cases hx
  | cons h t ih =>
    intro x hx
    rcases List.mem_cons.mp hx with rfl | hx
    · exact le_max_left x _
    · exact le_trans (ih x hx) (le_max_right h _)

theorem exists_workingDay_lt_fuel (H : List Int) (d : Int) :
    ∃ k : Nat, k < nwdFuel H d ∧ isWorkingDay (d + k) H = true := by
  set M := H.foldr max d with hM
  have hdM : d ≤ M := foldr_max_le_self H d
  -- choose the offset that lands on residue 1 mod 7 (a Monday) just past M
  have h7 : (0:Int) < 7 := by norm_num
  set j := (1 - (M + 1) % 7) % 7 with hj
  have hj0 : 0 ≤ j := Int.emod_nonneg _ (by norm_num)
  have hj7 : j < 7 := Int.emod_lt_of_pos _ h7
  set e := M + 1 + j with he
  have heMod : e % 7 = 1 := by omega
  have heM : M < e := by omega
  have heH : isHoliday e H = false := by
    unfold isHoliday
    by_cases hc : e ∈ H
    · exact absurd (foldr_max_mem H d e hc) (by omega)
    · simp [hc]
  have heW : isWorkingDay e H = true := by
    unfold isWorkingDay isWeekend
    simp [heH, heMod]
  refine ⟨(e - d).toNat, ?_, ?_⟩
  · unfold nwdFuel
    omega
  · have : d + ((e - d).toNat : Int) = e := by omega
    rw [this]; exact heW

theorem nextWorkingDayAux_spec (H : List Int) :
    ∀ (fuel : Nat) (d : Int),
      (∃ k : Nat, k < fuel ∧ isWorkingDay (d + k) H = true) →
      isWorkingDay (nextWorkingDayAux H fuel d) H = true ∧
      d ≤ nextWorkingDayAux H fuel d ∧
      ∀ e : Int, d ≤ e → e < nextWorkingDayAux H fuel d →
        isWorkingDay e H = false := by
  intro fuel
  induction fuel with
  | zero => intro d ⟨k, hk, _⟩; omega
  | succ n ih =>
    intro d ⟨k, hk, hw⟩
    unfold nextWorkingDayAux
    by_cases h : isWorkingDay d H = true
    · rw [if_pos h]
      exact ⟨h, le_refl d, fun e h1 h2 => absurd h1 (by omega)⟩
    · have hne : isWorkingDay d H = false := by
        cases hv : isWorkingDay d H
        · rfl
        · exact absurd hv h
      simp only [hne, if_false, Bool.false_eq_true]
      have hk0 : k ≠ 0 := by
        intro h0; rw [h0] at hw; simp at hw; rw [hw] at hne; cases hne
      obtain ⟨m, rfl⟩ := Nat.exists_eq_succ_of_ne_zero hk0
      have hex : ∃ k : Nat, k < n ∧ isWorkingDay (d + 1 + k) H = true := by
        refine ⟨m, by omega, ?_⟩
        have : d + 1 + (m : Int) = d + (m + 1 : Nat) := by push_cast; ring
        rw [this]; exact hw
      obtain ⟨w1, w2, w3⟩ := ih (d + 1) hex
      refine ⟨w1, by omega, ?_⟩
      intro e h1 h2
      rcases eq_or_lt_of_le h1 with rfl | hlt
      · exact hne
      · exact w3 e (by omega) h2

theorem nextWorkingDay_isWorking (d : Int) (H : List Int) :
    isWorkingDay (nextWorkingDay d H) H = true :=
  (nextWorkingDayAux_spec H (nwdFuel H d) d (exists_workingDay_lt_fuel H d)).1

theorem le_nextWorkingDay (d : Int) (H : List Int) :
    d ≤ nextWorkingDay d H :=
  (nextWorkingDayAux_spec H (nwdFuel H d) d (exists_workingDay_lt_fuel H d)).2.1

theorem nextWorkingDay_min (d : Int) (H : List Int) :
    ∀ e : Int, d ≤ e → e < nextWorkingDay d H → isWorkingDay e H = false :=
  (nextWorkingDayAux_spec H (nwdFuel H d) d (exists_workingDay_lt_fuel H d)).2.2

theorem nextWorkingDay_eq_self (d : Int) (H : List Int)
    (h : isWorkingDay d H = true) : nextWorkingDay d H = d := by
  by_contra hne
  have hlt : d < nextWorkingDay d H :=
    lt_of_le_of_ne (le_nextWorkingDay d H) (Ne.symm hne)
  have := nextWorkingDay_min d H d (le_refl d) hlt
  rw [h] at this; cases this

/-- nextWorkingDay is the least working day at or after d: uniqueness. -/
theorem nextWorkingDay_le_of_working (d e : Int) (H : List Int)
    (hde : d ≤ e) (he : isWorkingDay e H = true) : nextWorkingDay d H ≤ e := by
  by_contra hlt
  have := nextWorkingDay_min d H e hde (by omega)
  rw [he] at this; cases this

theorem le_addWorkingDays (d : Int) (n : Nat) (H : List Int) :
    d ≤ addWorkingDays d n H := by
  induction n generalizing d with
  | zero => exact le_refl d
  | succ m ih =>
    unfold addWorkingDays
    have h1 : d + 1 ≤ nextWorkingDay (d + 1) H := le_nextWorkingDay _ H
    have h2 := ih (nextWorkingDay (d + 1) H)
    omega

theorem lt_addWorkingDays (d : Int) (n : Nat) (H : List Int) (hn : 0 < n) :
    d < addWorkingDays d n H := by
  cases n with
  | zero => omega
  | succ m =>
    unfold addWorkingDays
    have h1 : d + 1 ≤ nextWorkingDay (d + 1) H := le_nextWorkingDay _ H
    have h2 := le_addWorkingDays (nextWorkingDay (d + 1) H) m H
    omega

/-!
## Kernel-computable rational arithmetic

Mathlib's `Rat.add`, `Rat.sub` and division are `@[irreducible]`, which
stops `decide` from evaluating concrete schedules.  The engine therefore
uses the wrappers below, each proved equal to the standard operation, so
that abstract reasoning can still use ordinary rational algebra.
-/

/-- Rational addition, computable by the kernel; equals `a + b`. -/
def qAdd (a b : ℚ) : ℚ := mkRat (a.num * b.den + b.num * a.den) (a.den * b.den)

/-- Rational subtraction, computable by the kernel; equals `a - b`. -/
def qSub (a b : ℚ) : ℚ := mkRat (a.num * b.den - b.num * a.den) (a.den * b.den)

/-- JavaScript Math.min on two rationals. -/
def qMin (a b : ℚ) : ℚ := if a ≤ b then a else b

/-- Math.ceil(q / 8), the whole-day duration estimate of the source. -/
def ceilDiv8 (q : ℚ) : Int := -((-q.num) / (8 * (q.den : Int)))

theorem qAdd_eq (a b : ℚ) : qAdd a b = a + b := by
  unfold qAdd
  rw [Rat.mkRat_eq_div]
  conv_rhs => rw [← Rat.num_div_den a, ← Rat.num_div_den b]
  push_cast
  field_simp

theorem qSub_eq (a b : ℚ) : qSub a b = a - b := by
  unfold qSub
  rw [Rat.mkRat_eq_div]
  conv_rhs => rw [← Rat.num_div_den a, ← Rat.num_div_den b]
  push_cast
  field_simp
  ring

theorem qMin_eq (a b : ℚ) : qMin a b = min a b := by
  unfold qMin
  rw [min_def]

theorem ceilDiv8_eq (q : ℚ) : ceilDiv8 q = ⌈q / 8⌉ := by
  have hden : ((q.den : ℚ)) ≠ 0 := by positivity
  have h2 : q / 8 = -(((-q.num : ℤ) : ℚ) / ((8 * q.den : ℕ) : ℚ)) := by
    conv_lhs => rw [← Rat.num_div_den q]
    push_cast
    field_simp
    left; ring
  unfold ceilDiv8
  rw [h2, Int.ceil_neg, Rat.floor_intCast_div_natCast]
  push_cast
  ring

/-!
## Data model (types.ts), restricted to the fields the engine reads

`Task.actualStartDate`, `Task.actualEndDate`, `Task.calculatedEndDate` and
the purely cosmetic fields of `Release` (`id`, `name`, `description`,
`targetEndDate`, `calculatedEndDate`, `createdAt`, `updatedAt`) are never
read by gantt-calculator.ts and are omitted.  `Task.calculatedStartDate`
IS read (line 169 of gantt-calculator.ts) and is kept.
-/

inductive TaskStatus where
  | pending
  | inProgress
  | completed
  | blocked
deriving DecidableEq, Repr

structure CapacityPeriod where
  id : String
  startDate : Int
  endDate : Int
  hoursPerDay : ℚ
deriving DecidableEq, Repr

structure Employee where
  id : String
  name : String
  position : String
  capacityPeriods : List CapacityPeriod
deriving DecidableEq, Repr

structure Task where
  id : String
  name : String
  estimatedHours : ℚ
  assignedEmployeeId : Option String
  blockerTaskIds : List String
  priority : Int
  status : TaskStatus
  calculatedStartDate : Option Int
deriving DecidableEq, Repr

structure Release where
  startDate : Int
  customHolidays : List Int
  employees : List Employee
  tasks : List Task
deriving DecidableEq, Repr

/-- gantt-calculator.ts EmployeeCapacity. -/
structure EmployeeCapacity where
  employeeId : String
  date : Int
  hoursAvailable : ℚ
  hoursAllocated : ℚ
deriving DecidableEq, Repr

/-- types.ts UnscheduledReason, including the "unknown" value emitted by
the defensive branch at gantt-calculator.ts line 211. -/
inductive UnscheduledReason where
  | cycle
  | external_blocker
  | no_capacity
  | unknown
deriving DecidableEq, Repr

/-- The value calculateTaskSchedule returns: the source always returns
either both dates or an unscheduledReason (verified against every return
statement of the function). -/
inductive SchedResult where
  | ok (startDate endDate : Int)
  | fail (reason : UnscheduledReason)
deriving DecidableEq, Repr

/-- Gantt output record (types.ts GanttTask as populated by the engine). -/
structure GanttTask where
  id : String
  name : String
  estimatedHours : ℚ
  startDate : Option Int
  endDate : Option Int
  progress : Nat
  dependencies : List String
  assignedEmployee : Option String
  color : Option String
  unscheduledReason : Option UnscheduledReason
deriving DecidableEq, Repr

structure EmployeeColor where
  id : String
  name : String
  color : String
deriving DecidableEq, Repr

structure GanttData where
  tasks : List GanttTask
  employees : List EmployeeColor
  releaseDate : Option Int
deriving DecidableEq, Repr

/-!
## Association lists standing in for the JavaScript Maps

JavaScript `Map.set` overwrites an existing key and otherwise appends;
`Map.get` returns the value stored for the key.
-/

def getAssoc {α : Type} (m : List (String × α)) (k : String) : Option α :=
  (m.find? (fun p => p.1 == k)).map (fun p => p.2)

def setAssoc {α : Type} (m : List (String × α)) (k : String) (v : α) :
    List (String × α) :=
  if m.any (fun p => p.1 == k) then
    m.map (fun p => if p.1 == k then (k, v) else p)
  else m ++ [(k, v)]

theorem getAssoc_setAssoc_self {α : Type} (m : List (String × α)) (k : String)
    (v : α) : getAssoc (setAssoc m k v) k = some v := by
  unfold getAssoc setAssoc
  by_cases h : m.any (fun p => p.1 == k) = true
  · rw [if_pos h]
    induction m with
    | nil => cases h
    | cons p t ih =>
      simp only [List.any_cons, Bool.or_eq_true] at h
      by_cases hp : p.1 == k
      · simp [List.find?, hp]
      · have hp' : (p.1 == k) = false := by
          cases hv : (p.1 == k)
          · rfl
          · exact absurd hv hp
        rcases h with h | h
        · exact absurd h hp
        · simp only [List.map_cons, if_neg hp]
          rw [List.find?]
          simp only [hp']
          exact ih h
  · rw [if_neg h]
    rw [List.find?_append]
    have hnone : m.find? (fun p => p.1 == k) = none := by
      rw [List.find?_eq_none]
      intro p hp
      intro hpk
      exact h (List.any_of_mem hp hpk)
    rw [hnone]
    simp [List.find?]

theorem getAssoc_setAssoc_ne {α : Type} (m : List (String × α)) (k k' : String)
    (v : α) (hne : k' ≠ k) : getAssoc (setAssoc m k v) k' = getAssoc m k' := by
  unfold getAssoc setAssoc
  have hbe : (k == k') = false := by
    simp only [beq_eq_false_iff_ne]; exact fun h => hne h.symm
  by_cases h : m.any (fun p => p.1 == k) = true
  · rw [if_pos h]
    clear h
    induction m with
    | nil => rfl
    | cons p t ih =>
      simp only [List.map_cons]
      by_cases hp : p.1 == k
      · rw [if_pos hp, List.find?, List.find?]
        have hp' : (p.1 == k') = false := by
          have hpk : p.1 = k := beq_iff_eq.mp hp
          rw [hpk]; exact hbe
        simp only [hbe, hp']
        exact ih
      · rw [if_neg hp, List.find?, List.find?]
        by_cases hq : p.1 == k'
        · simp only [hq]
        · have hq' : (p.1 == k') = false := by
            cases hv : (p.1 == k')
            · rfl
            · exact absurd hv hq
          simp only [hq']
          exact ih
  · rw [if_neg h]
    rw [List.find?_append]
    have : List.find? (fun p => p.1 == k') [(k, v)] = none := by
      simp [List.find?, hbe]
    rw [this]
    cases List.find? (fun p => p.1 == k') m <;> rfl

/-!
## Capacity builder (gantt-calculator.ts lines 289-332)
-/

/-- The covering test of getEmployeeHoursForDate: the source compares ISO
date strings, whose lexicographic order is chronological order. -/
def coversDate (p : CapacityPeriod) (d : Int) : Bool :=
  decide (p.startDate ≤ d) && decide (d ≤ p.endDate)

/-- gantt-calculator.ts getEmployeeHoursForDate: hoursPerDay of the first
capacity period (in list order) covering the date, 0 if none does. -/
def getEmployeeHoursForDate (e : Employee) (d : Int) : ℚ :=
  match e.capacityPeriods.find? (fun p => coversDate p d) with
  | some p => p.hoursPerDay
  | none => 0

/-- The while-loop of calculateEmployeeCapacities: one EmployeeCapacity
entry per working day, walking n consecutive days from d. -/
def capacityRange (e : Employee) (H : List Int) : Int → Nat → List EmployeeCapacity
  | _, 0 => []
  | d, n + 1 =>
    (if isWorkingDay d H then
      [{ employeeId := e.id, date := d,
         hoursAvailable := getEmployeeHoursForDate e d, hoursAllocated := 0 }]
     else []) ++ capacityRange e H (d + 1) n

/-- The capacity horizon: the source iterates from the release start date
through 12 calendar months later inclusive, i.e. 366 days in a non-leap
year (367 when a Feb 29 intervenes).  The whole-day model fixes the
non-leap count; no claim depends on the exact length. -/
def horizonDays : Nat := 366

/-- gantt-calculator.ts calculateEmployeeCapacities. -/
def calculateEmployeeCapacities (employees : List Employee)
    (projectStartDate : Int) (H : List Int) :
    List (String × List EmployeeCapacity) :=
  employees.foldl
    (fun m e => setAssoc m e.id (capacityRange e H projectStartDate horizonDays))
    []

/-!
## Presentation helpers (progress, names, colors)
-/

def getTaskProgress : TaskStatus → Nat
  | .completed => 100
  | .inProgress => 50
  | .blocked => 0
  | .pending => 0

def getEmployeeName (employeeId : String) (employees : List Employee) : String :=
  match employees.find? (fun e => e.id == employeeId) with
  | some e => e.name
  | none => "Unknown"

def employeeColorPalette : List String :=
  ["#0891b2", "#f59e0b", "#10b981", "#8b5cf6",
   "#f97316", "#06b6d4", "#84cc16", "#ec4899"]

/-- colors[index % colors.length] for a non-negative index. -/
def getEmployeeColor (index : Nat) : String :=
  (employeeColorPalette.getD (index % 8) "")

/-- gantt-calculator.ts getTaskColor.  When an assigned employee id is not
found, findIndex yields -1 and colors[-1] is undefined, rendered none. -/
def getTaskColor (employeeId : Option String) (employees : List Employee) :
    Option String :=
  match employeeId with
  | none => some "#6b7280"
  | some eid =>
    match employees.findIdx? (fun e => e.id == eid) with
    | some i => some (getEmployeeColor i)
    | none => none

/-!
## Scheduler core (gantt-calculator.ts calculateTaskSchedule)
-/

/-- tasksMap: `new Map(tasks.map(t => [t.id, t]))`; for duplicate ids the
later entry wins, hence find? on the reversed list. -/
def taskById (tasks : List Task) (k : String) : Option Task :=
  tasks.reverse.find? (fun t => t.id == k)

/-- The day-by-day allocation loop (lines 260-277): walks the capacity
entries while hours remain, consuming min(remaining, available) on each
day with positive headroom.  Returns the updated entries, the remaining
hours, the first day consumed (foundStart) and the last day consumed. -/
def allocate : List EmployeeCapacity → ℚ →
    List EmployeeCapacity × ℚ × Option Int × Option Int
  | [], r => ([], r, none, none)
  | c :: cs, r =>
    if 0 < r then
      if 0 < qSub c.hoursAvailable c.hoursAllocated then
        let give := qMin r (qSub c.hoursAvailable c.hoursAllocated)
        let rest := allocate cs (qSub r give)
        ({ c with hoursAllocated := qAdd c.hoursAllocated give } :: rest.1,
         rest.2.1, some c.date, some ((rest.2.2.2).getD c.date))
      else
        let rest := allocate cs r
        (c :: rest.1, rest.2.1, rest.2.2.1, rest.2.2.2)
    else (c :: cs, r, none, none)

/-- The blocker dispatch chain of lines 200-213, applied to the schedule
obtained for one blocker id (from the map or from recursion).  The source
can in principle reach a defensive "unknown" branch when a blocker of the
release has neither a schedule nor a failure; calculateTaskSchedule always
returns one of the two (see SchedResult), which claim C10 makes precise. -/
def blockerOutcome (tasks : List Task) (b : String) (bs : Option (Int × Int)) :
    Except UnscheduledReason Int :=
  match bs with
  | some se => .ok se.2
  | none =>
    if (taskById tasks b).isSome then .error .unknown
    else .error .external_blocker

/-- max-accumulation of latestBlockerEndTime (lines 200-204). -/
def someMax (latest : Option Int) (e : Int) : Option Int :=
  match latest with
  | none => some e
  | some l => some (max l e)

/-- The type of the recursive scheduling call threaded through the
blocker-resolution loop. -/
abbrev CalcF :=
  Task → List (String × (Int × Int)) → List (String × List EmployeeCapacity) →
  List String → Option (SchedResult × List (String × (Int × Int)) ×
    List (String × List EmployeeCapacity))

/-- The for-loop over task.blockerTaskIds (lines 174-214): look the blocker
up in the schedule map, recursively schedule it when it is an unresolved
in-release task (propagating failures, recording successes in the map),
and accumulate the latest blocker end date. -/
def resolveBlockers (calcF : CalcF) (tasks : List Task) :
    List String → Option Int → List (String × (Int × Int)) →
    List (String × List EmployeeCapacity) → List String →
    Option (Except UnscheduledReason (Option Int) ×
      List (String × (Int × Int)) × List (String × List EmployeeCapacity))
  | [], latest, m, caps, _ => some (.ok latest, m, caps)
  | b :: rest, latest, m, caps, visited =>
    match getAssoc m b, taskById tasks b with
    | none, some bt =>
      match calcF bt m caps visited with
      | none => none
      | some (.fail r, m', caps') => some (.error r, m', caps')
      | some (.ok s e, m', caps') =>
        match blockerOutcome tasks b (some (s, e)) with
        | .ok cand =>
          resolveBlockers calcF tasks rest (someMax latest cand)
            (setAssoc m' b (s, e)) caps' visited
        | .error r => some (.error r, setAssoc m' b (s, e), caps')
    | some se, _ =>
      match blockerOutcome tasks b (some se) with
      | .ok cand => resolveBlockers calcF tasks rest (someMax latest cand) m caps visited
      | .error r => some (.error r, m, caps)
    | none, none =>
      match blockerOutcome tasks b none with
      | .ok cand => resolveBlockers calcF tasks rest (someMax latest cand) m caps visited
      | .error r => some (.error r, m, caps)

/-- gantt-calculator.ts calculateTaskSchedule.  The source recursion is
bounded because the visited set grows strictly at each level; the fuel
makes that bound explicit, and calcFuel_sufficient below proves the
top-level fuel never runs out, so the none case is dead code. -/
def calcTaskSchedule : Nat → Int → List Int → List Task → CalcF
  | 0, _, _, _, _, _, _, _ => none
  | fuel + 1, relStart, H, tasks, task, m, caps, visited =>
    if task.id ∈ visited then some (.fail .cycle, m, caps)
    else
      let visited' := task.id :: visited
      let base := nextWorkingDay (task.calculatedStartDate.getD relStart) H
      match resolveBlockers (calcTaskSchedule fuel relStart H tasks) tasks
          task.blockerTaskIds none m caps visited' with
      | none => none
      | some (.error r, m', caps') => some (.fail r, m', caps')
      | some (.ok latest, m', caps') =>
        let earliest :=
          match latest with
          | none => base
          | some l => nextWorkingDay (l + 1) H
        match task.assignedEmployeeId with
        | none =>
          let rawEnd := addWorkingDays earliest (ceilDiv8 task.estimatedHours).toNat H
          some (.ok earliest (nextWorkingDay rawEnd H), m', caps')
        | some empId =>
          let entries := (getAssoc caps' empId).getD []
          if entries.isEmpty then some (.fail .no_capacity, m', caps')
          else
            match (match entries.findIdx? (fun en => en.date == earliest) with
                   | some i => some i
                   | none => entries.findIdx? (fun en => decide (earliest < en.date))) with
            | none => some (.fail .no_capacity, m', caps')
            | some idx =>
              let res := allocate (entries.drop idx) task.estimatedHours
              let caps'' := setAssoc caps' empId (entries.take idx ++ res.1)
              if res.2.1 ≤ 0 then
                match res.2.2.2 with
                | some lastD =>
                  some (.ok ((res.2.2.1).getD earliest) lastD, m', caps'')
                | none => some (.fail .no_capacity, m', caps'')
              else some (.fail .no_capacity, m', caps'')

/-!
## Dependency-and-priority ordering (lines 18-72)
-/

def updFun {β : Type} (f : String → β) (k : String) (v : β) : String → β :=
  fun x => if x = k then v else f x

/-- One blocker edge of the graph build (lines 29-35): add the edge
blocker → t.id and bump t's in-degree, unless the blocker id is absent
from the release or the edge already exists. -/
def buildEdge (tasks : List Task) (t : Task)
    (st : (String → List String) × (String → Nat)) (b : String) :
    (String → List String) × (String → Nat) :=
  if (taskById tasks b).isSome then
    if (st.1 b).contains t.id then st
    else (updFun st.1 b (st.1 b ++ [t.id]),
          updFun st.2 t.id (st.2 t.id + 1))
  else st

/-- All blocker edges of one task. -/
def buildTask (tasks : List Task)
    (st : (String → List String) × (String → Nat)) (t : Task) :
    (String → List String) × (String → Nat) :=
  t.blockerTaskIds.foldl (buildEdge tasks t) st

/-- The graph/in-degree build loop: one out-edge set per blocker that
exists among the release's tasks, deduplicated, with matching in-degree
counts. -/
def buildGraph (tasks : List Task) : (String → List String) × (String → Nat) :=
  tasks.foldl (buildTask tasks) (fun _ => [], fun _ => 0)

/-- Stable ascending insertion by priority: JavaScript sort with the
comparator (a, b) => a.priority - b.priority is stable, and any stable
ascending sort computes the same list. -/
def insertByPriority (t : Task) : List Task → List Task
  | [] => [t]
  | u :: us => if u.priority < t.priority then u :: insertByPriority t us else t :: u :: us

def sortByPriority (l : List Task) : List Task := l.foldr insertByPriority []

/-- One out-edge decrement of the Kahn loop (lines 55-60): set the
in-degree of mid to (get || 1) - 1, i.e. saturating decrement, and enqueue
mid's task when the new value is zero. -/
def kahnDecrement (tasks : List Task) (st : (String → Nat) × List Task)
    (mid : String) : (String → Nat) × List Task :=
  let newVal := st.1 mid - 1
  let d := updFun st.1 mid newVal
  if newVal = 0 then
    match taskById tasks mid with
    | some mt => (d, st.2 ++ [mt])
    | none => (d, st.2)
  else (d, st.2)

/-- One while-iteration body plus the loop, fueled.  Returns the ordered
list and whatever remains of the zero queue when fuel runs out (always
empty in runs with sufficient fuel; see kahnLoop_completes). -/
def kahnLoop (g : String → List String) (tasks : List Task) :
    Nat → (String → Nat) → List Task → List Task → List Task × List Task
  | 0, _, zero, ordered => (ordered, zero)
  | fuel + 1, inDeg, zero, ordered =>
    match zero with
    | [] => (ordered, [])
    | node :: rest =>
      let step := (g node.id).foldl (kahnDecrement tasks) (inDeg, rest)
      kahnLoop g tasks fuel step.1 (sortByPriority step.2) (ordered ++ [node])

/-- Fuel for the Kahn loop.  With well-formed (duplicate-free) task ids
the loop does at most tasks.length iterations (proved below); duplicate
ids can re-enqueue tasks, still boundedly, and this fuel dominates. -/
def kahnFuel (tasks : List Task) : Nat :=
  (tasks.length + 2) ^ (tasks.length + 2)

/-- gantt-calculator.ts orderTasksByDependenciesAndPriority. -/
def orderTasksByDependenciesAndPriority (tasks : List Task) : List Task :=
  let gd := buildGraph tasks
  let zero0 := sortByPriority (tasks.filter (fun t => gd.2 t.id = 0))
  let ordered := (kahnLoop gd.1 tasks (kahnFuel tasks) gd.2 zero0 []).1
  if ordered.length ≠ tasks.length then
    ordered ++ sortByPriority (tasks.filter (fun t => !(ordered.contains t)))
  else ordered

/-!
## Top-level pass (calculateGanttData, lines 74-146)
-/

/-- The record pushed for one task given its schedule result. -/
def mkGanttTask (task : Task) (employees : List Employee) (r : SchedResult) :
    GanttTask :=
  { id := task.id
    name := task.name
    estimatedHours := task.estimatedHours
    startDate := match r with | .ok s _ => some s | .fail _ => none
    endDate := match r with | .ok _ e => some e | .fail _ => none
    progress := getTaskProgress task.status
    dependencies := task.blockerTaskIds
    assignedEmployee := task.assignedEmployeeId.map (fun eid => getEmployeeName eid employees)
    color := getTaskColor task.assignedEmployeeId employees
    unscheduledReason := match r with | .ok _ _ => none | .fail reason => some reason }

/-- The for-loop over the ordered tasks: schedule each with a fresh
visited set, emit its record, and register successes in the schedule map.
A fuel-exhausted call (never reached with the top-level fuel, see
calcFuel_sufficient) contributes a record with no dates and no reason. -/
def ganttLoop (fuel : Nat) (relStart : Int) (H : List Int)
    (tasks : List Task) (employees : List Employee) :
    List Task → List (String × (Int × Int)) →
    List (String × List EmployeeCapacity) →
    List GanttTask × List (String × (Int × Int)) ×
      List (String × List EmployeeCapacity)
  | [], m, caps => ([], m, caps)
  | t :: rest, m, caps =>
    match calcTaskSchedule fuel relStart H tasks t m caps [] with
    | none =>
      let tail := ganttLoop fuel relStart H tasks employees rest m caps
      ({ mkGanttTask t employees (.fail .cycle) with
         startDate := none, endDate := none, unscheduledReason := none } ::
        tail.1, tail.2)
    | some (r, m', caps') =>
      let m'' := match r with | .ok s e => setAssoc m' t.id (s, e) | .fail _ => m'
      let tail := ganttLoop fuel relStart H tasks employees rest m'' caps'
      (mkGanttTask t employees r :: tail.1, tail.2)

/-- Maximum end-date time over the records (Math.max over getTime;
only consulted when every record carries an end date). -/
def maxEndDate (l : List GanttTask) : Int :=
  match l.filterMap (fun t => t.endDate) with
  | [] => 0
  | x :: xs => xs.foldl max x

/-- Lines 128-132: projectEndDate is the maximum end time, but only when
the record list is non-empty and no record is missing a date. -/
def releaseDateOf (ganttTasks : List GanttTask) : Option Int :=
  if ganttTasks.length > 0 &&
      !(ganttTasks.any (fun t => t.startDate.isNone || t.endDate.isNone)) then
    some (maxEndDate ganttTasks)
  else none

/-- gantt-calculator.ts calculateGanttData. -/
def calculateGanttData (release : Release) : GanttData :=
  let sortedTasks := orderTasksByDependenciesAndPriority release.tasks
  let caps := calculateEmployeeCapacities release.employees release.startDate
    release.customHolidays
  let loopOut := ganttLoop (release.tasks.length + 1) release.startDate
    release.customHolidays release.tasks release.employees sortedTasks [] caps
  let ganttTasks := loopOut.1
  { tasks := ganttTasks
    employees := release.employees.enum.map
      (fun p => { id := p.2.id, name := p.2.name, color := getEmployeeColor p.1 })
    releaseDate := releaseDateOf ganttTasks }

/-!
## Capacity-builder lemmas
-/

theorem mem_capacityRange (e : Employee) (H : List Int) (d : Int) (n : Nat)
    (c : EmployeeCapacity) :
    c ∈ capacityRange e H d n ↔
      (isWorkingDay c.date H = true ∧ d ≤ c.date ∧ c.date < d + n ∧
       c = { employeeId := e.id, date := c.date,
             hoursAvailable := getEmployeeHoursForDate e c.date,
             hoursAllocated := 0 }) := by
  induction n generalizing d with
  | zero =>
    unfold capacityRange
    simp only [List.not_mem_nil, false_iff]
    intro ⟨_, h1, h2, _⟩
    omega
  | succ m ih =>
    unfold capacityRange
    rw [List.mem_append, ih (d + 1)]
    constructor
    · rintro (hmem | ⟨hw, h1, h2, he⟩)
      · by_cases hwd : isWorkingDay d H = true
        · rw [if_pos hwd] at hmem
          simp only [List.mem_singleton] at hmem
          subst hmem
          dsimp only
          exact ⟨hwd, by omega, by omega, rfl⟩
        · rw [if_neg hwd] at hmem
          cases hmem
      · exact ⟨hw, by omega, by omega, he⟩
    · rintro ⟨hw, h1, h2, he⟩
      by_cases hc : c.date = d
      · left
        rw [← hc] at *
        rw [if_pos hw]
        simp only [List.mem_singleton]
        exact he
      · right
        exact ⟨hw, by omega, by omega, he⟩

theorem capacityRange_sorted (e : Employee) (H : List Int) (d : Int) (n : Nat) :
    List.Pairwise (fun a b => a.date < b.date) (capacityRange e H d n) := by
  induction n generalizing d with
  | zero => exact List.Pairwise.nil
  | succ m ih =>
    unfold capacityRange
    by_cases hwd : isWorkingDay d H = true
    · rw [if_pos hwd]
      rw [List.singleton_append, List.pairwise_cons]
      refine ⟨?_, ih (d + 1)⟩
      intro c hc
      have := (mem_capacityRange e H (d + 1) m c).mp hc
      simp only
      omega
    · rw [if_neg hwd, List.nil_append]
      exact ih (d + 1)

theorem getEmployeeHoursForDate_spec (e : Employee) (d : Int) :
    (∃ l₁ p l₂, e.capacityPeriods = l₁ ++ p :: l₂ ∧ coversDate p d = true ∧
      (∀ q ∈ l₁, coversDate q d = false) ∧
      getEmployeeHoursForDate e d = p.hoursPerDay) ∨
    ((∀ p ∈ e.capacityPeriods, coversDate p d = false) ∧
      getEmployeeHoursForDate e d = 0) := by
  unfold getEmployeeHoursForDate
  cases hf : e.capacityPeriods.find? (fun p => coversDate p d) with
  | none =>
    right
    rw [List.find?_eq_none] at hf
    refine ⟨?_, rfl⟩
    intro p hp
    have := hf p hp
    cases hv : coversDate p d
    · rfl
    · exact absurd hv this
  | some p =>
    left
    rw [List.find?_eq_some] at hf
    obtain ⟨hcov, l₁, l₂, heq, hprev⟩ := hf
    refine ⟨l₁, p, l₂, heq, hcov, ?_, rfl⟩
    intro q hq
    have := hprev q hq
    simpa using this

theorem eq_of_mem_pairwise_dates {l : List EmployeeCapacity}
    (hp : List.Pairwise (fun a b => a.date < b.date) l) {a b : EmployeeCapacity}
    (ha : a ∈ l) (hb : b ∈ l) (hd : a.date = b.date) : a = b := by
  induction l with
  | nil => cases ha
  | cons x t ih =>
    rw [List.pairwise_cons] at hp
    rcases List.mem_cons.mp ha with rfl | ha' <;> rcases List.mem_cons.mp hb with rfl | hb'
    · rfl
    · have := hp.1 b hb'; omega
    · have := hp.1 a ha'; omega
    · exact ih hp.2 ha' hb'

theorem calculateEmployeeCapacities_getAssoc (employees : List Employee)
    (start : Int) (H : List Int) (eid : String) :
    getAssoc (calculateEmployeeCapacities employees start H) eid =
      (employees.reverse.find? (fun e => e.id == eid)).map
        (fun e => capacityRange e H start horizonDays) := by
  unfold calculateEmployeeCapacities
  induction employees using List.reverseRecOn with
  | nil => rfl
  | append_singleton l e ih =>
    rw [List.foldl_append, List.foldl_cons, List.foldl_nil, List.reverse_append]
    simp only [List.reverse_singleton, List.singleton_append, List.find?]
    by_cases he : e.id == eid
    · have : eid = e.id := (beq_iff_eq.mp he).symm
      subst this
      rw [getAssoc_setAssoc_self]
      simp only [he]
      rfl
    · have hne : eid ≠ e.id := by
        intro hq; rw [hq] at he; simp at he
      rw [getAssoc_setAssoc_ne _ _ _ _ hne]
      cases hv : (e.id == eid)
      · exact ih
      · exact absurd hv he

/-- Claim C6: for every employee and every working day in the capacity
horizon, the capacity builder stores exactly one entry for that day, whose
hoursAvailable is the hoursPerDay of the first capacity period (in list
order) covering the date, and 0 when no period covers it.  The find?
hypothesis says e is the employee record that wins the id slot of the
JavaScript Map (always e itself when employee ids are unique). -/
theorem capacity_builder_first_period_hours (employees : List Employee)
    (e : Employee) (start : Int) (H : List Int) (d : Int)
    (hfind : employees.reverse.find? (fun x => x.id == e.id) = some e)
    (h1 : start ≤ d) (h2 : d < start + (horizonDays : Int))
    (hw : isWorkingDay d H = true) :
    ∃ caps, getAssoc (calculateEmployeeCapacities employees start H) e.id =
        some caps ∧
      ∃ c ∈ caps, c.date = d ∧ c.hoursAllocated = 0 ∧
        (∀ c' ∈ caps, c'.date = d → c' = c) ∧
        ((∃ l₁ p l₂, e.capacityPeriods = l₁ ++ p :: l₂ ∧ coversDate p d = true ∧
            (∀ q ∈ l₁, coversDate q d = false) ∧ c.hoursAvailable = p.hoursPerDay) ∨
         ((∀ p ∈ e.capacityPeriods, coversDate p d = false) ∧
            c.hoursAvailable = 0)) := by
  refine ⟨capacityRange e H start horizonDays, ?_, ?_⟩
  · rw [calculateEmployeeCapacities_getAssoc, hfind]
    rfl
  · set c : EmployeeCapacity :=
      { employeeId := e.id, date := d,
        hoursAvailable := getEmployeeHoursForDate e d, hoursAllocated := 0 }
      with hc
    have hmem : c ∈ capacityRange e H start horizonDays := by
      rw [mem_capacityRange]
      exact ⟨hw, h1, by exact_mod_cast h2, rfl⟩
    refine ⟨c, hmem, rfl, rfl, ?_, ?_⟩
    · intro c' hc' hdc
      exact eq_of_mem_pairwise_dates (capacityRange_sorted e H start horizonDays)
        hc' hmem (by rw [hdc])
    · have := getEmployeeHoursForDate_spec e d
      rcases this with ⟨l₁, p, l₂, heq, hcov, hprev, hval⟩ | ⟨hnone, hval⟩
      · exact Or.inl ⟨l₁, p, l₂, heq, hcov, hprev, hval⟩
      · exact Or.inr ⟨hnone, hval⟩

/-- Witness for capacity_builder_first_period_hours at a concrete input:
one employee with one 8-hour period, release start on a Monday. -/
theorem capacity_builder_first_period_hours_witness :
    ∃ caps,
      getAssoc
        (calculateEmployeeCapacities
          [{ id := "e", name := "E", position := "dev",
             capacityPeriods :=
               [{ id := "p", startDate := 0, endDate := 1000, hoursPerDay := 8 }] }]
          1 []) "e" = some caps ∧
      ∃ c ∈ caps, c.date = 2 ∧ c.hoursAllocated = 0 ∧
        (∀ c' ∈ caps, c'.date = 2 → c' = c) ∧
        ((∃ l₁ p l₂,
            ([{ id := "p", startDate := 0, endDate := 1000, hoursPerDay := 8 }] :
              List CapacityPeriod) = l₁ ++ p :: l₂ ∧ coversDate p 2 = true ∧
            (∀ q ∈ l₁, coversDate q 2 = false) ∧ c.hoursAvailable = p.hoursPerDay) ∨
         ((∀ p ∈ ([{ id := "p", startDate := 0, endDate := 1000, hoursPerDay := 8 }] :
              List CapacityPeriod), coversDate p 2 = false) ∧
            c.hoursAvailable = 0)) :=
  capacity_builder_first_period_hours
    [{ id := "e", name := "E", position := "dev",
       capacityPeriods :=
         [{ id := "p", startDate := 0, endDate := 1000, hoursPerDay := 8 }] }]
    { id := "e", name := "E", position := "dev",
      capacityPeriods :=
        [{ id := "p", startDate := 0, endDate := 1000, hoursPerDay := 8 }] }
    1 [] 2 (by decide) (by decide) (by decide) (by decide)

/-!
## Shape of the top-level loop and the releaseDate field
-/

theorem ganttLoop_map_id (fuel : Nat) (relStart : Int) (H : List Int)
    (tasks : List Task) (employees : List Employee) (input : List Task)
    (m : List (String × (Int × Int))) (caps : List (String × List EmployeeCapacity)) :
    (ganttLoop fuel relStart H tasks employees input m caps).1.map
        (fun t => t.id) = input.map (fun t => t.id) := by
  induction input generalizing m caps with
  | nil => rfl
  | cons t rest ih =>
    unfold ganttLoop
    cases hc : calcTaskSchedule fuel relStart H tasks t m caps [] with
    | none =>
      simp only [List.map_cons, List.cons.injEq]
      exact ⟨rfl, ih m caps⟩
    | some r =>
      obtain ⟨res, m', caps'⟩ := r
      cases res with
      | ok s e =>
        simp only [List.map_cons, List.cons.injEq]
        exact ⟨rfl, ih (setAssoc m' t.id (s, e)) caps'⟩
      | fail reason =>
        simp only [List.map_cons, List.cons.injEq]
        exact ⟨rfl, ih m' caps'⟩

theorem ganttLoop_length (fuel : Nat) (relStart : Int) (H : List Int)
    (tasks : List Task) (employees : List Employee) (input : List Task)
    (m : List (String × (Int × Int))) (caps : List (String × List EmployeeCapacity)) :
    (ganttLoop fuel relStart H tasks employees input m caps).1.length =
      input.length := by
  have := ganttLoop_map_id fuel relStart H tasks employees input m caps
  have h1 := congrArg List.length this
  simpa using h1

theorem insertByPriority_perm (t : Task) (l : List Task) :
    List.Perm (insertByPriority t l) (t :: l) := by
  induction l with
  | nil => exact List.Perm.refl _
  | cons u us ih =>
    unfold insertByPriority
    by_cases h : u.priority < t.priority
    · rw [if_pos h]
      exact List.Perm.trans (List.Perm.cons u ih) (List.Perm.swap t u us)
    · rw [if_neg h]

theorem sortByPriority_perm (l : List Task) : List.Perm (sortByPriority l) l := by
  induction l with
  | nil => exact List.Perm.refl _
  | cons t us ih =>
    unfold sortByPriority
    rw [List.foldr_cons]
    exact List.Perm.trans (insertByPriority_perm t _) (List.Perm.cons t ih)

theorem sortByPriority_eq_nil (l : List Task) :
    sortByPriority l = [] ↔ l = [] := by
  constructor
  · intro h
    have hp := sortByPriority_perm l
    rw [h] at hp
    exact hp.symm.eq_nil
  · intro h; rw [h]; rfl

theorem orderTasks_eq_nil (tasks : List Task) :
    orderTasksByDependenciesAndPriority tasks = [] ↔ tasks = [] := by
  constructor
  · intro h
    by_contra hts
    obtain ⟨a, l, rfl⟩ : ∃ a l, tasks = a :: l := by
      cases tasks with
      | nil => exact absurd rfl hts
      | cons a l => exact ⟨a, l, rfl⟩
    unfold orderTasksByDependenciesAndPriority at h
    by_cases hlen :
        (kahnLoop (buildGraph (a :: l)).1 (a :: l) (kahnFuel (a :: l))
          (buildGraph (a :: l)).2
          (sortByPriority ((a :: l).filter
            (fun t => (buildGraph (a :: l)).2 t.id = 0))) []).1.length ≠
          (a :: l).length
    · rw [if_pos hlen] at h
      rcases List.append_eq_nil.mp h with ⟨h1, h2⟩
      rw [h1] at h2
      rw [sortByPriority_eq_nil] at h2
      have ha : a ∈ List.filter
          (fun t => !(List.contains ([] : List Task) t)) (a :: l) := by
        rw [List.mem_filter]
        exact ⟨List.mem_cons_self a l, by rfl⟩
      rw [h2] at ha
      cases ha
    · rw [if_neg hlen] at h
      rw [Ne, not_not] at hlen
      rw [h] at hlen
      simp at hlen
  · intro h
    subst h
    rfl

theorem le_foldl_max (xs : List Int) (a : Int) : a ≤ xs.foldl max a := by
  induction xs generalizing a with
  | nil => exact le_refl a
  | cons x t ih => exact le_trans (le_max_left a x) (ih (max a x))

theorem mem_le_foldl_max (xs : List Int) (a : Int) :
    ∀ x ∈ xs, x ≤ xs.foldl max a := by
  induction xs generalizing a with
  | nil => intro x hx; cases hx
  | cons y t ih =>
    intro x hx
    rcases List.mem_cons.mp hx with rfl | hx'
    · exact le_trans (le_max_right a x) (le_foldl_max t _)
    · exact ih (max a y) x hx'

theorem foldl_max_mem (xs : List Int) (a : Int) :
    xs.foldl max a = a ∨ xs.foldl max a ∈ xs := by
  induction xs generalizing a with
  | nil => exact Or.inl rfl
  | cons y t ih =>
    rcases ih (max a y) with h | h
    · rw [List.foldl_cons, h]
      rcases le_or_lt a y with hay | hay
      · right; rw [max_eq_right hay]; exact List.mem_cons_self y t
      · left; rw [max_eq_left (le_of_lt hay)]
    · right
      rw [List.foldl_cons]
      exact List.mem_cons_of_mem y h

theorem releaseDateOf_isSome (L : List GanttTask) :
    (releaseDateOf L).isSome = true ↔
      (L ≠ [] ∧ ∀ t ∈ L, t.startDate.isSome = true ∧ t.endDate.isSome = true) := by
  unfold releaseDateOf
  by_cases hc : (L.length > 0 &&
      !(L.any (fun t => t.startDate.isNone || t.endDate.isNone))) = true
  · rw [if_pos hc]
    simp only [Option.isSome_some, true_iff]
    rw [Bool.and_eq_true, Bool.not_eq_true'] at hc
    obtain ⟨hlen, hany⟩ := hc
    constructor
    · intro hnil
      rw [hnil] at hlen
      simp at hlen
    · intro t ht
      have hthis := List.any_eq_false.mp hany t ht
      simp only [Bool.or_eq_true, Option.isNone_iff_eq_none, not_or] at hthis
      exact ⟨Option.isSome_iff_ne_none.mpr hthis.1,
        Option.isSome_iff_ne_none.mpr hthis.2⟩
  · rw [if_neg hc]
    simp only [Option.isSome_none, Bool.false_eq_true, false_iff]
    intro ⟨hnil, hall⟩
    apply hc
    rw [Bool.and_eq_true]
    constructor
    · cases L with
      | nil => exact absurd rfl hnil
      | cons a l => simp
    · rw [Bool.not_eq_true']
      rw [List.any_eq_false]
      intro t ht
      obtain ⟨h1, h2⟩ := hall t ht
      simp only [Bool.or_eq_true, Option.isNone_iff_eq_none, not_or]
      exact ⟨Option.isSome_iff_ne_none.mp h1, Option.isSome_iff_ne_none.mp h2⟩

theorem releaseDateOf_max (L : List GanttTask) (d : Int)
    (h : releaseDateOf L = some d) :
    (∃ t ∈ L, t.endDate = some d) ∧
    (∀ t ∈ L, ∀ e, t.endDate = some e → e ≤ d) := by
  have hsome : (releaseDateOf L).isSome = true := by rw [h]; rfl
  have hd : d = maxEndDate L := by
    unfold releaseDateOf at h
    by_cases hc : (L.length > 0 &&
        !(L.any (fun t => t.startDate.isNone || t.endDate.isNone))) = true
    · rw [if_pos hc] at h
      exact (Option.some.injEq _ _ ▸ h).symm
    · rw [if_neg hc] at h
      cases h
  subst hd
  unfold maxEndDate
  cases hfm : L.filterMap (fun t => t.endDate) with
  | nil =>
    obtain ⟨hnil, hall⟩ := (releaseDateOf_isSome L).mp hsome
    exfalso
    cases L with
    | nil => exact hnil rfl
    | cons a l =>
      obtain ⟨_, h2⟩ := hall a (List.mem_cons_self a l)
      rw [Option.isSome_iff_exists] at h2
      obtain ⟨e, he⟩ := h2
      have : e ∈ (a :: l).filterMap (fun t => t.endDate) :=
        List.mem_filterMap.mpr ⟨a, List.mem_cons_self a l, he⟩
      rw [hfm] at this
      cases this
  | cons x xs =>
    constructor
    · have hmem : xs.foldl max x ∈ x :: xs := by
        rcases foldl_max_mem xs x with h | h
        · rw [h]; exact List.mem_cons_self x xs
        · exact List.mem_cons_of_mem x h
      rw [← hfm] at hmem
      obtain ⟨t, ht, hte⟩ := List.mem_filterMap.mp hmem
      exact ⟨t, ht, hte⟩
    · intro t ht e hte
      have : e ∈ L.filterMap (fun u => u.endDate) :=
        List.mem_filterMap.mpr ⟨t, ht, hte⟩
      rw [hfm] at this
      rcases List.mem_cons.mp this with rfl | hxs
      · exact le_foldl_max xs e
      · exact mem_le_foldl_max xs x e hxs

/-- Counterexample to claim C1 as stated: in the release with no tasks,
every task (vacuously) resolved successfully, yet releaseDate is absent,
because the source additionally requires ganttTasks.length > 0. -/
theorem release_date_iff_counterexample :
    (∀ t ∈ (calculateGanttData
        { startDate := 1, customHolidays := [], employees := [],
          tasks := [] }).tasks,
      t.startDate.isSome = true ∧ t.endDate.isSome = true) ∧
    (calculateGanttData
        { startDate := 1, customHolidays := [], employees := [],
          tasks := [] }).releaseDate = none := by
  decide

/-- Claim C1, amended: releaseDate is present iff the release has at
least one task and every task resolved successfully, and when present it
equals the maximum resolved end date across all tasks. -/
theorem release_date_iff_max (r : Release) :
    (((calculateGanttData r).releaseDate).isSome = true ↔
      (r.tasks ≠ [] ∧ ∀ t ∈ (calculateGanttData r).tasks,
        t.startDate.isSome = true ∧ t.endDate.isSome = true)) ∧
    (∀ d, (calculateGanttData r).releaseDate = some d →
      (∃ t ∈ (calculateGanttData r).tasks, t.endDate = some d) ∧
      (∀ t ∈ (calculateGanttData r).tasks, ∀ e, t.endDate = some e → e ≤ d)) := by
  have hrel : (calculateGanttData r).releaseDate =
      releaseDateOf ((calculateGanttData r).tasks) := rfl
  constructor
  · rw [hrel, releaseDateOf_isSome]
    have hne : (calculateGanttData r).tasks = [] ↔ r.tasks = [] := by
      have hlen : ((calculateGanttData r).tasks).length =
          (orderTasksByDependenciesAndPriority r.tasks).length :=
        ganttLoop_length _ _ _ _ _ _ _ _
      constructor
      · intro h
        rw [← orderTasks_eq_nil]
        rw [h] at hlen
        exact List.eq_nil_of_length_eq_zero hlen.symm
      · intro h
        have : orderTasksByDependenciesAndPriority r.tasks = [] :=
          (orderTasks_eq_nil r.tasks).mpr h
        rw [this] at hlen
        exact List.eq_nil_of_length_eq_zero hlen
    simp only [Ne, hne]
  · intro d hd
    rw [hrel] at hd
    exact releaseDateOf_max _ d hd

/-- Witness for release_date_iff_max: a one-task release whose releaseDate
is day 3, realized by that task's end date. -/
theorem release_date_iff_max_witness :
    ∃ t ∈ (calculateGanttData
        { startDate := 1, customHolidays := [], employees := [],
          tasks := [{ id := "t", name := "t", estimatedHours := 16,
                      assignedEmployeeId := none, blockerTaskIds := [],
                      priority := 1, status := .pending,
                      calculatedStartDate := none }] }).tasks,
      t.endDate = some 3 :=
  ((release_date_iff_max
    { startDate := 1, customHolidays := [], employees := [],
      tasks := [{ id := "t", name := "t", estimatedHours := 16,
                  assignedEmployeeId := none, blockerTaskIds := [],
                  priority := 1, status := .pending,
                  calculatedStartDate := none }] }).2 3 (by decide)).1

/-!
## Concrete counterexample releases

Fixtures used by the counterexample theorems; all tasks unassigned so
that no 366-day capacity table has to be evaluated by the kernel.
-/

/-- A task with no assignee and no precomputed start date. -/
def plainTask (i : String) (hours : ℚ) (blockers : List String) (prio : Int) :
    Task :=
  { id := i, name := i, estimatedHours := hours, assignedEmployeeId := none,
    blockerTaskIds := blockers, priority := prio, status := .pending,
    calculatedStartDate := none }

/-- Mutual cycle whose first member also lists a dangling blocker id
first: a lists [zz, b], b lists [a]. -/
def cycleWithExternalRelease : Release :=
  { startDate := 1, customHolidays := [], employees := [],
    tasks := [plainTask "a" 8 ["zz", "b"] 1, plainTask "b" 8 ["a"] 2] }

/-- A mutual cycle a/b plus a task t listing the cycle member first and a
dangling id second: t lists [a, zz]. -/
def externalAfterCycleRelease : Release :=
  { startDate := 1, customHolidays := [], employees := [],
    tasks := [plainTask "a" 8 ["b"] 1, plainTask "b" 8 ["a"] 2,
              plainTask "t" 8 ["a", "zz"] 3] }

/-- A single task whose only blocker id matches no task of the release. -/
def singleExternalRelease : Release :=
  { startDate := 1, customHolidays := [], employees := [],
    tasks := [plainTask "t" 8 ["zz"] 1] }

/-- A single no-blocker task carrying a stale calculatedStartDate of day 8
in a release starting on day 1 (both Mondays). -/
def staleCalculatedStartRelease : Release :=
  { startDate := 1, customHolidays := [], employees := [],
    tasks := [{ plainTask "t" 8 [] 1 with calculatedStartDate := some 8 }] }

/-- Counterexample to claim C3 as stated: tasks a and b list each other as
blockers (a.blockerTaskIds = [zz, b], b.blockerTaskIds = [a]), yet neither
resolves to "cycle": a hits its dangling blocker zz first and reports
external_blocker, and b inherits that reason through propagation. -/
theorem cycle_pair_counterexample :
    (calculateGanttData cycleWithExternalRelease).tasks.map
        (fun t => (t.id, t.unscheduledReason)) =
      [("a", some UnscheduledReason.external_blocker),
       ("b", some UnscheduledReason.external_blocker)] ∧
    UnscheduledReason.external_blocker ≠ UnscheduledReason.cycle := by
  decide

/-- Counterexample to claim C8 as stated: task t lists the dangling id zz
(no such task exists), yet its reason is "cycle", because its other
blocker a (a member of a cycle) is examined first and its failure is
propagated unchanged. -/
theorem external_blocker_counterexample :
    (calculateGanttData externalAfterCycleRelease).tasks.map
        (fun t => (t.id, t.unscheduledReason)) =
      [("a", some UnscheduledReason.cycle),
       ("b", some UnscheduledReason.cycle),
       ("t", some UnscheduledReason.cycle)] ∧
    UnscheduledReason.cycle ≠ UnscheduledReason.external_blocker := by
  decide

/-- Counterexample to claim C4 as stated: a no-blocker task whose stale
calculatedStartDate is day 8 starts on day 8, not on the release start
date (day 1, a Monday, already a working day), because line 169 reads
task.calculatedStartDate || releaseStartDate. -/
theorem earliest_start_counterexample :
    (calculateGanttData staleCalculatedStartRelease).tasks.map
        (fun t => t.startDate) = [some 8] ∧
    nextWorkingDay 1 [] = 1 ∧ (8 : Int) ≠ 1 := by
  decide

theorem addWorkingDays_isWorking (d : Int) (n : Nat) (H : List Int)
    (hn : 0 < n) : isWorkingDay (addWorkingDays d n H) H = true := by
  induction n generalizing d with
  | zero => omega
  | succ m ih =>
    unfold addWorkingDays
    cases m with
    | zero => exact nextWorkingDay_isWorking (d + 1) H
    | succ k => exact ih (nextWorkingDay (d + 1) H) (Nat.succ_pos k)

/-- Claim C7: a release starting on a Monday with no holidays and exactly
one unassigned, blocker-free 16-hour task schedules it from that Monday
for ceil(16/8) = 2 working days via addWorkingDays (ending Wednesday). -/
theorem monday_sixteen_hours_two_working_days (start : Int)
    (tid tname : String) (prio : Int) (st : TaskStatus)
    (employees : List Employee) (hstart : start % 7 = 1) :
    ∃ rec, (calculateGanttData
        { startDate := start, customHolidays := [], employees := employees,
          tasks := [{ id := tid, name := tname, estimatedHours := 16,
                      assignedEmployeeId := none, blockerTaskIds := [],
                      priority := prio, status := st,
                      calculatedStartDate := none }] }).tasks = [rec] ∧
      rec.startDate = some start ∧
      rec.endDate = some (addWorkingDays start 2 []) ∧
      rec.unscheduledReason = none := by
  have hw : isWorkingDay start [] = true := by
    unfold isWorkingDay isWeekend isHoliday
    have h0 : (start % 7 == 0) = false := by
      rw [beq_eq_false_iff_ne]; omega
    have h6 : (start % 7 == 6) = false := by
      rw [beq_eq_false_iff_ne]; omega
    rw [h0, h6]
    rfl
  have hnwd : nextWorkingDay start [] = start := nextWorkingDay_eq_self _ _ hw
  have hw2 : isWorkingDay (addWorkingDays start 2 []) [] = true :=
    addWorkingDays_isWorking start 2 [] (by omega)
  have hnwd2 : nextWorkingDay (addWorkingDays start 2 []) [] =
      addWorkingDays start 2 [] := nextWorkingDay_eq_self _ _ hw2
  refine ⟨_, rfl, ?_, ?_, rfl⟩
  · show some (nextWorkingDay start []) = some start
    rw [hnwd]
  · show some (nextWorkingDay
      (addWorkingDays (nextWorkingDay start [])
        (ceilDiv8 16).toNat []) []) = some (addWorkingDays start 2 [])
    rw [hnwd]
    have hceil : (ceilDiv8 16).toNat = 2 := by decide
    rw [hceil, hnwd2]

/-- Witness for monday_sixteen_hours_two_working_days at day 1. -/
theorem monday_sixteen_hours_two_working_days_witness :
    (1 : Int) % 7 = 1 ∧
    ∃ rec, (calculateGanttData
        { startDate := 1, customHolidays := [], employees := [],
          tasks := [{ id := "t", name := "t", estimatedHours := 16,
                      assignedEmployeeId := none, blockerTaskIds := [],
                      priority := 1, status := .pending,
                      calculatedStartDate := none }] }).tasks = [rec] ∧
      rec.startDate = some 1 ∧
      rec.endDate = some (addWorkingDays 1 2 []) ∧
      rec.unscheduledReason = none :=
  ⟨by decide,
   monday_sixteen_hours_two_working_days 1 "t" "t" 1 .pending [] (by decide)⟩

/-!
## The defensive "unknown" branch and fuel adequacy
-/

theorem taskById_mem (tasks : List Task) (k : String) (t : Task)
    (h : taskById tasks k = some t) : t ∈ tasks ∧ t.id = k := by
  unfold taskById at h
  constructor
  · have := List.mem_of_find?_eq_some h
    exact List.mem_reverse.mp this
  · have := List.find?_some h
    exact beq_iff_eq.mp this

theorem resolveBlockers_no_unknown (calcF : CalcF) (tasks : List Task)
    (hF : ∀ t m caps v m' c',
      calcF t m caps v ≠ some (.fail .unknown, m', c')) :
    ∀ (bs : List String) (latest : Option Int) m caps v m' c',
      resolveBlockers calcF tasks bs latest m caps v ≠
        some (.error .unknown, m', c') := by
  intro bs
  induction bs with
  | nil =>
    intro latest m caps v m' c' h
    unfold resolveBlockers at h
    cases h
  | cons b rest ih =>
    intro latest m caps v m' c' h
    unfold resolveBlockers at h
    cases hm : getAssoc m b with
    | some se =>
      rw [hm] at h
      dsimp only at h
      exact ih _ _ _ _ _ _ h
    | none =>
      rw [hm] at h
      cases htid : taskById tasks b with
      | some bt =>
        rw [htid] at h
        dsimp only at h
        cases hcf : calcF bt m caps v with
        | none => rw [hcf] at h; cases h
        | some out =>
          obtain ⟨res, m2, c2⟩ := out
          rw [hcf] at h
          cases res with
          | fail r =>
            dsimp only at h
            rw [Option.some.injEq] at h
            obtain ⟨h1, _⟩ := Prod.mk.injEq .. ▸ h
            cases h1
            exact hF bt m caps v m2 c2 hcf
          | ok s e =>
            simp only [blockerOutcome] at h
            exact ih _ _ _ _ _ _ h
      | none =>
        rw [htid] at h
        dsimp only [blockerOutcome, htid] at h
        simp only [blockerOutcome, htid, Option.isSome_none, Bool.false_eq_true,
          if_false] at h
        cases h

theorem calc_no_unknown :
    ∀ (fuel : Nat) (relStart : Int) (H : List Int) (tasks : List Task)
      (task : Task) m caps v m' c',
      calcTaskSchedule fuel relStart H tasks task m caps v ≠
        some (.fail .unknown, m', c') := by
  intro fuel
  induction fuel with
  | zero =>
    intro relStart H tasks task m caps v m' c' h
    cases h
  | succ n ih =>
    intro relStart H tasks task m caps v m' c' h
    unfold calcTaskSchedule at h
    by_cases hv : task.id ∈ v
    · rw [if_pos hv] at h
      cases h
    · rw [if_neg hv] at h
      dsimp only at h
      cases hr : resolveBlockers (calcTaskSchedule n relStart H tasks) tasks
          task.blockerTaskIds none m caps (task.id :: v) with
      | none => rw [hr] at h; cases h
      | some out =>
        obtain ⟨res, m2, c2⟩ := out
        rw [hr] at h
        cases res with
        | error r =>
          dsimp only at h
          simp only [Option.some.injEq, Prod.mk.injEq,
            SchedResult.fail.injEq] at h
          cases h.1
          exact resolveBlockers_no_unknown _ tasks
            (fun t m caps v m' c' => ih relStart H tasks t m caps v m' c')
            task.blockerTaskIds none m caps (task.id :: v) m2 c2 hr
        | ok latest =>
          dsimp only at h
          cases hass : task.assignedEmployeeId with
          | none =>
            rw [hass] at h
            dsimp only at h
            rw [Option.some.injEq] at h
            exact SchedResult.noConfusion (congrArg Prod.fst h)
          | some empId =>
            rw [hass] at h
            dsimp only at h
            split at h
            · rw [Option.some.injEq] at h
              have := congrArg Prod.fst h
              simp only [SchedResult.fail.injEq] at this
              cases this
            · split at h
              · rw [Option.some.injEq] at h
                have := congrArg Prod.fst h
                simp only [SchedResult.fail.injEq] at this
                cases this
              · split at h
                · split at h
                  · rw [Option.some.injEq] at h
                    exact SchedResult.noConfusion (congrArg Prod.fst h)
                  · rw [Option.some.injEq] at h
                    have := congrArg Prod.fst h
                    simp only [SchedResult.fail.injEq] at this
                    cases this
                · rw [Option.some.injEq] at h
                  have := congrArg Prod.fst h
                  simp only [SchedResult.fail.injEq] at this
                  cases this

/-- The distinct task ids of a release. -/
def taskIdsF (tasks : List Task) : Finset String :=
  (tasks.map (fun t => t.id)).toFinset

theorem resolveBlockers_isSome (calcF : CalcF) (tasks : List Task)
    (v : List String)
    (hF : ∀ bt m caps, bt ∈ tasks → (calcF bt m caps v).isSome = true) :
    ∀ (bs : List String) (latest : Option Int) m caps,
      (resolveBlockers calcF tasks bs latest m caps v).isSome = true := by
  intro bs
  induction bs with
  | nil => intro latest m caps; rfl
  | cons b rest ih =>
    intro latest m caps
    unfold resolveBlockers
    cases hm : getAssoc m b with
    | some se =>
      dsimp only
      exact ih _ _ _
    | none =>
      cases htid : taskById tasks b with
      | some bt =>
        dsimp only
        have hbt := taskById_mem tasks b bt htid
        have := hF bt m caps hbt.1
        cases hcf : calcF bt m caps v with
        | none => rw [hcf] at this; cases this
        | some out =>
          obtain ⟨res, m2, c2⟩ := out
          cases res with
          | fail r => rfl
          | ok s e =>
            dsimp only [blockerOutcome]
            exact ih _ _ _
      | none =>
        dsimp only [blockerOutcome]
        rw [htid]
        rfl

theorem calc_isSome (fuel : Nat) (relStart : Int) (H : List Int)
    (tasks : List Task) :
    ∀ (task : Task) m caps (v : List String),
      task.id ∈ taskIdsF tasks →
      (taskIdsF tasks \ v.toFinset).card < fuel →
      (calcTaskSchedule fuel relStart H tasks task m caps v).isSome = true := by
  induction fuel with
  | zero =>
    intro task m caps v _ hcard
    omega
  | succ n ih =>
    intro task m caps v hid hcard
    unfold calcTaskSchedule
    by_cases hv : task.id ∈ v
    · rw [if_pos hv]; rfl
    · rw [if_neg hv]
      simp only []
      have hidv : task.id ∈ taskIdsF tasks \ v.toFinset := by
        rw [Finset.mem_sdiff]
        exact ⟨hid, fun hc => hv (List.mem_toFinset.mp hc)⟩
      have hcard' : (taskIdsF tasks \ (task.id :: v).toFinset).card < n := by
        have hins : (task.id :: v).toFinset = insert task.id v.toFinset :=
          List.toFinset_cons
        rw [hins, Finset.sdiff_insert]
        have hpos : 0 < (taskIdsF tasks \ v.toFinset).card :=
          Finset.card_pos.mpr ⟨task.id, hidv⟩
        have := Finset.card_erase_of_mem hidv
        omega
      have hres := resolveBlockers_isSome (calcTaskSchedule n relStart H tasks)
        tasks (task.id :: v)
        (fun bt m' caps' hbt =>
          ih bt m' caps' (task.id :: v)
            (List.mem_toFinset.mpr (List.mem_map.mpr ⟨bt, hbt, rfl⟩)) hcard')
        task.blockerTaskIds none m caps
      cases hr : resolveBlockers (calcTaskSchedule n relStart H tasks) tasks
          task.blockerTaskIds none m caps (task.id :: v) with
      | none => rw [hr] at hres; cases hres
      | some out =>
        obtain ⟨res, m2, c2⟩ := out
        cases res with
        | error r => rfl
        | ok latest =>
          dsimp only
          cases task.assignedEmployeeId with
          | none => rfl
          | some empId =>
            dsimp only
            split
            · rfl
            · split
              · rfl
              · split
                · split
                  · rfl
                  · rfl
                · rfl

theorem sortByPriority_mem (l : List Task) (t : Task) :
    t ∈ sortByPriority l ↔ t ∈ l :=
  (sortByPriority_perm l).mem_iff

theorem kahnStep_subset (tasks : List Task) (outs : List String)
    (st : (String → Nat) × List Task)
    (hst : ∀ t ∈ st.2, t ∈ tasks) :
    ∀ t ∈ (outs.foldl (kahnDecrement tasks) st).2, t ∈ tasks := by
  induction outs generalizing st with
  | nil => exact hst
  | cons mid rest ih =>
    rw [List.foldl_cons]
    apply ih
    unfold kahnDecrement
    dsimp only
    by_cases hz : st.1 mid - 1 = 0
    · rw [if_pos hz]
      cases htid : taskById tasks mid with
      | some mt =>
        intro t ht
        rcases List.mem_append.mp ht with h | h
        · exact hst t h
        · rw [List.mem_singleton] at h
          subst h
          exact (taskById_mem tasks mid t htid).1
      | none => exact hst
    · rw [if_neg hz]
      exact hst

theorem kahnLoop_subset (g : String → List String) (tasks : List Task) :
    ∀ (fuel : Nat) (inDeg : String → Nat) (zero ordered : List Task),
      (∀ t ∈ zero, t ∈ tasks) → (∀ t ∈ ordered, t ∈ tasks) →
      ∀ t ∈ (kahnLoop g tasks fuel inDeg zero ordered).1, t ∈ tasks := by
  intro fuel
  induction fuel with
  | zero => intro inDeg zero ordered hz ho t ht; exact ho t ht
  | succ n ih =>
    intro inDeg zero ordered hz ho t ht
    unfold kahnLoop at ht
    cases zero with
    | nil => exact ho t ht
    | cons node rest =>
      refine ih _ _ _ ?_ ?_ t ht
      · intro u hu
        rw [sortByPriority_mem] at hu
        refine kahnStep_subset tasks (g node.id) (inDeg, rest) ?_ u hu
        intro w hw
        exact hz w (List.mem_cons_of_mem node hw)
      · intro u hu
        rcases List.mem_append.mp hu with h | h
        · exact ho u h
        · rw [List.mem_singleton] at h
          rw [h]
          exact hz node (List.mem_cons_self node rest)

theorem orderTasks_subset (tasks : List Task) :
    ∀ t ∈ orderTasksByDependenciesAndPriority tasks, t ∈ tasks := by
  intro t ht
  unfold orderTasksByDependenciesAndPriority at ht
  have hordered : ∀ u ∈ (kahnLoop (buildGraph tasks).1 tasks (kahnFuel tasks)
      (buildGraph tasks).2
      (sortByPriority (tasks.filter
        (fun t => (buildGraph tasks).2 t.id = 0))) []).1, u ∈ tasks := by
    apply kahnLoop_subset
    · intro u hu
      rw [sortByPriority_mem] at hu
      exact List.mem_of_mem_filter hu
    · intro u hu
      cases hu
  by_cases hlen : (kahnLoop (buildGraph tasks).1 tasks (kahnFuel tasks)
      (buildGraph tasks).2
      (sortByPriority (tasks.filter
        (fun t => (buildGraph tasks).2 t.id = 0))) []).1.length ≠ tasks.length
  · rw [if_pos hlen] at ht
    rcases List.mem_append.mp ht with h | h
    · exact hordered t h
    · rw [sortByPriority_mem] at h
      exact List.mem_of_mem_filter h
  · rw [if_neg hlen] at ht
    exact hordered t ht

/-- Claim C10: every record either carries both dates (and no reason) or
carries a reason among cycle, external_blocker and no_capacity: the
defensive "unknown" branch of the blocker loop is unreachable, because
calculateTaskSchedule always returns either both dates or a reason, and
the top-level fuel never runs out (calc_isSome). -/
theorem unscheduled_reason_taxonomy (r : Release) :
    ∀ rec ∈ (calculateGanttData r).tasks,
      (rec.startDate.isSome = true ∧ rec.endDate.isSome = true ∧
        rec.unscheduledReason = none) ∨
      (∃ x, rec.unscheduledReason = some x ∧
        (x = UnscheduledReason.cycle ∨ x = UnscheduledReason.external_blocker ∨
         x = UnscheduledReason.no_capacity)) := by
  have hmain : ∀ (input : List Task) m caps,
      (∀ t ∈ input, t ∈ r.tasks) →
      ∀ rec ∈ (ganttLoop (r.tasks.length + 1) r.startDate r.customHolidays
          r.tasks r.employees input m caps).1,
        (rec.startDate.isSome = true ∧ rec.endDate.isSome = true ∧
          rec.unscheduledReason = none) ∨
        (∃ x, rec.unscheduledReason = some x ∧
          (x = UnscheduledReason.cycle ∨ x = UnscheduledReason.external_blocker ∨
           x = UnscheduledReason.no_capacity)) := by
    intro input
    induction input with
    | nil => intro m caps _ rec hrec; cases hrec
    | cons t rest ih =>
      intro m caps hsub rec hrec
      have hisSome : (calcTaskSchedule (r.tasks.length + 1) r.startDate
          r.customHolidays r.tasks t m caps []).isSome = true := by
        apply calc_isSome
        · exact List.mem_toFinset.mpr
            (List.mem_map.mpr ⟨t, hsub t (List.mem_cons_self t rest), rfl⟩)
        · have h1 : (taskIdsF r.tasks \ ([] : List String).toFinset).card ≤
              r.tasks.length := by
            have h2 : (taskIdsF r.tasks).card ≤ r.tasks.length := by
              unfold taskIdsF
              calc (r.tasks.map (fun t => t.id)).toFinset.card
                  ≤ (r.tasks.map (fun t => t.id)).length :=
                    List.toFinset_card_le _
                _ = r.tasks.length := List.length_map _ _
            calc (taskIdsF r.tasks \ ([] : List String).toFinset).card
                ≤ (taskIdsF r.tasks).card := Finset.card_le_card
                  (Finset.sdiff_subset)
              _ ≤ r.tasks.length := h2
          omega
      unfold ganttLoop at hrec
      cases hc : calcTaskSchedule (r.tasks.length + 1) r.startDate
          r.customHolidays r.tasks t m caps [] with
      | none => rw [hc] at hisSome; cases hisSome
      | some out =>
        obtain ⟨res, m', caps'⟩ := out
        rw [hc] at hrec
        dsimp only at hrec
        cases res with
        | ok s e =>
          rcases List.mem_cons.mp hrec with rfl | hrest
          · left
            exact ⟨rfl, rfl, rfl⟩
          · exact ih _ _ (fun u hu => hsub u (List.mem_cons_of_mem t hu))
              rec hrest
        | fail reason =>
          rcases List.mem_cons.mp hrec with rfl | hrest
          · right
            refine ⟨reason, rfl, ?_⟩
            cases reason with
            | cycle => exact Or.inl rfl
            | external_blocker => exact Or.inr (Or.inl rfl)
            | no_capacity => exact Or.inr (Or.inr rfl)
            | unknown => exact absurd hc (calc_no_unknown _ _ _ _ _ _ _ _ _ _)
          · exact ih _ _ (fun u hu => hsub u (List.mem_cons_of_mem t hu))
              rec hrest
  intro rec hrec
  exact hmain (orderTasksByDependenciesAndPriority r.tasks) []
    (calculateEmployeeCapacities r.employees r.startDate r.customHolidays)
    (orderTasks_subset r.tasks) rec hrec

/-- A plain two-task mutual cycle, each listing only the other. -/
def cyclePairRelease : Release :=
  { startDate := 1, customHolidays := [], employees := [],
    tasks := [plainTask "a" 8 ["b"] 1, plainTask "b" 8 ["a"] 2] }

/-- Witness for unscheduled_reason_taxonomy at the plain cycle pair. -/
theorem unscheduled_reason_taxonomy_witness :
    ((mkGanttTask (plainTask "a" 8 ["b"] 1) []
        (SchedResult.fail UnscheduledReason.cycle)).startDate.isSome = true ∧
      (mkGanttTask (plainTask "a" 8 ["b"] 1) []
        (SchedResult.fail UnscheduledReason.cycle)).endDate.isSome = true ∧
      (mkGanttTask (plainTask "a" 8 ["b"] 1) []
        (SchedResult.fail UnscheduledReason.cycle)).unscheduledReason = none) ∨
    (∃ x, (mkGanttTask (plainTask "a" 8 ["b"] 1) []
        (SchedResult.fail UnscheduledReason.cycle)).unscheduledReason = some x ∧
      (x = UnscheduledReason.cycle ∨ x = UnscheduledReason.external_blocker ∨
       x = UnscheduledReason.no_capacity)) :=
  unscheduled_reason_taxonomy cyclePairRelease
    (mkGanttTask (plainTask "a" 8 ["b"] 1) []
      (SchedResult.fail UnscheduledReason.cycle)) (by decide)

/-!
## Characterization of the dependency-graph build
-/

theorem taskById_isSome_iff (tasks : List Task) (b : String) :
    (taskById tasks b).isSome = true ↔ b ∈ taskIdsF tasks := by
  constructor
  · intro h
    rw [Option.isSome_iff_exists] at h
    obtain ⟨t, ht⟩ := h
    obtain ⟨hmem, hid⟩ := taskById_mem tasks b t ht
    exact List.mem_toFinset.mpr (List.mem_map.mpr ⟨t, hmem, hid⟩)
  · intro h
    obtain ⟨t, hmem, hid⟩ := List.mem_map.mp (List.mem_toFinset.mp h)
    unfold taskById
    rw [List.find?_isSome]
    exact ⟨t, List.mem_reverse.mpr hmem, beq_iff_eq.mpr hid⟩

theorem buildEdge_graph_mono (tasks : List Task) (t : Task)
    (st : (String → List String) × (String → Nat)) (b b' : String)
    (x : String) (h : x ∈ st.1 b') : x ∈ (buildEdge tasks t st b).1 b' := by
  unfold buildEdge
  by_cases h1 : (taskById tasks b).isSome = true
  · rw [if_pos h1]
    by_cases h2 : (st.1 b).contains t.id = true
    · rw [if_pos h2]; exact h
    · rw [if_neg h2]
      dsimp only
      unfold updFun
      by_cases h3 : b' = b
      · rw [if_pos h3]
        rw [h3] at h
        exact List.mem_append.mpr (Or.inl h)
      · rw [if_neg h3]; exact h
  · rw [if_neg h1]; exact h

theorem buildTask_graph_mono (tasks : List Task) (t : Task)
    (st : (String → List String) × (String → Nat)) (b' x : String)
    (h : x ∈ st.1 b') : x ∈ (buildTask tasks st t).1 b' := by
  unfold buildTask
  revert st
  induction t.blockerTaskIds with
  | nil => intro st h; exact h
  | cons b bs ih =>
    intro st h
    rw [List.foldl_cons]
    exact ih _ (buildEdge_graph_mono tasks t st b b' x h)

theorem buildEdge_graph_sound (tasks : List Task) (t : Task)
    (st : (String → List String) × (String → Nat)) (b b' : String)
    (x : String) (h : x ∈ (buildEdge tasks t st b).1 b') :
    x ∈ st.1 b' ∨ (x = t.id ∧ b' = b ∧ (taskById tasks b).isSome = true) := by
  unfold buildEdge at h
  by_cases h1 : (taskById tasks b).isSome = true
  · rw [if_pos h1] at h
    by_cases h2 : (st.1 b).contains t.id = true
    · rw [if_pos h2] at h; exact Or.inl h
    · rw [if_neg h2] at h
      dsimp only at h
      unfold updFun at h
      by_cases h3 : b' = b
      · rw [if_pos h3] at h
        rcases List.mem_append.mp h with h4 | h4
        · rw [h3]; exact Or.inl h4
        · rw [List.mem_singleton] at h4
          exact Or.inr ⟨h4, h3, h1⟩
      · rw [if_neg h3] at h; exact Or.inl h
  · rw [if_neg h1] at h; exact Or.inl h

theorem buildTask_graph_sound (tasks : List Task) (t : Task)
    (st : (String → List String) × (String → Nat)) (b' x : String)
    (h : x ∈ (buildTask tasks st t).1 b') :
    x ∈ st.1 b' ∨ (x = t.id ∧ b' ∈ t.blockerTaskIds ∧
      (taskById tasks b').isSome = true) := by
  unfold buildTask at h
  revert st
  induction t.blockerTaskIds with
  | nil => intro st h; exact Or.inl h
  | cons b bs ih =>
    intro st h
    rw [List.foldl_cons] at h
    rcases ih _ h with h2 | h2
    · rcases buildEdge_graph_sound tasks t st b b' x h2 with h3 | ⟨h3, h4, h5⟩
      · exact Or.inl h3
      · exact Or.inr ⟨h3, by rw [h4]; exact List.mem_cons_self b bs, by rw [h4]; exact h5⟩
    · exact Or.inr ⟨h2.1, List.mem_cons_of_mem b h2.2.1, h2.2.2⟩

theorem buildGraph_sound (tasks : List Task) (b x : String)
    (h : x ∈ (buildGraph tasks).1 b) :
    ∃ t ∈ tasks, x = t.id ∧ b ∈ t.blockerTaskIds ∧
      (taskById tasks b).isSome = true := by
  unfold buildGraph at h
  have main : ∀ (l : List Task) (st : (String → List String) × (String → Nat)),
      x ∈ (l.foldl (buildTask tasks) st).1 b →
      x ∈ st.1 b ∨ ∃ t ∈ l, x = t.id ∧ b ∈ t.blockerTaskIds ∧
        (taskById tasks b).isSome = true := by
    intro l
    induction l with
    | nil => intro st h; exact Or.inl h
    | cons u us ih =>
      intro st h
      rw [List.foldl_cons] at h
      rcases ih _ h with h2 | ⟨t, ht, h3⟩
      · rcases buildTask_graph_sound tasks u st b x h2 with h3 | ⟨h3, h4, h5⟩
        · exact Or.inl h3
        · exact Or.inr ⟨u, List.mem_cons_self u us, h3, h4, h5⟩
      · exact Or.inr ⟨t, List.mem_cons_of_mem u ht, h3⟩
  rcases main tasks _ h with h2 | h2
  · cases h2
  · exact h2

theorem buildEdge_graph_complete (tasks : List Task) (t : Task)
    (st : (String → List String) × (String → Nat)) (b : String)
    (hb : (taskById tasks b).isSome = true) :
    t.id ∈ (buildEdge tasks t st b).1 b := by
  unfold buildEdge
  rw [if_pos hb]
  by_cases h2 : (st.1 b).contains t.id = true
  · rw [if_pos h2]
    exact List.mem_of_elem_eq_true h2
  · rw [if_neg h2]
    dsimp only
    unfold updFun
    rw [if_pos rfl]
    exact List.mem_append.mpr (Or.inr (List.mem_singleton.mpr rfl))

theorem foldl_buildEdge_mono (tasks : List Task) (t : Task) :
    ∀ (bs : List String) (st : (String → List String) × (String → Nat))
      (b' x : String), x ∈ st.1 b' →
      x ∈ (bs.foldl (buildEdge tasks t) st).1 b' := by
  intro bs
  induction bs with
  | nil => intro st b' x h; exact h
  | cons b0 rest ih =>
    intro st b' x h
    rw [List.foldl_cons]
    exact ih _ b' x (buildEdge_graph_mono tasks t st b0 b' x h)

theorem foldl_buildEdge_complete (tasks : List Task) (t : Task) :
    ∀ (bs : List String) (st : (String → List String) × (String → Nat))
      (b : String), b ∈ bs → (taskById tasks b).isSome = true →
      t.id ∈ (bs.foldl (buildEdge tasks t) st).1 b := by
  intro bs
  induction bs with
  | nil => intro st b h _; cases h
  | cons b0 rest ih =>
    intro st b hmem hsome
    rw [List.foldl_cons]
    rcases List.mem_cons.mp hmem with rfl | hrest
    · exact foldl_buildEdge_mono tasks t rest _ b t.id
        (buildEdge_graph_complete tasks t st b hsome)
    · exact ih _ b hrest hsome

theorem buildTask_graph_complete (tasks : List Task) (t : Task)
    (st : (String → List String) × (String → Nat)) (b : String)
    (hb : b ∈ t.blockerTaskIds) (hsome : (taskById tasks b).isSome = true) :
    t.id ∈ (buildTask tasks st t).1 b :=
  foldl_buildEdge_complete tasks t t.blockerTaskIds st b hb hsome

theorem buildGraph_complete (tasks : List Task) (t : Task) (b : String)
    (ht : t ∈ tasks) (hb : b ∈ t.blockerTaskIds)
    (hsome : (taskById tasks b).isSome = true) :
    t.id ∈ (buildGraph tasks).1 b := by
  unfold buildGraph
  have main : ∀ (l : List Task) (st : (String → List String) × (String → Nat)),
      t ∈ l → t.id ∈ (l.foldl (buildTask tasks) st).1 b := by
    intro l
    induction l with
    | nil => intro st h; cases h
    | cons u us ih =>
      intro st h
      rw [List.foldl_cons]
      rcases List.mem_cons.mp h with rfl | hus
      · have h1 := buildTask_graph_complete tasks t st b hb hsome
        have main2 : ∀ (ws : List Task)
            (st' : (String → List String) × (String → Nat)),
            t.id ∈ st'.1 b → t.id ∈ (ws.foldl (buildTask tasks) st').1 b := by
          intro ws
          induction ws with
          | nil => intro st' h1; exact h1
          | cons w rest ih2 =>
            intro st' h1
            rw [List.foldl_cons]
            exact ih2 _ (buildTask_graph_mono tasks w st' b t.id h1)
        exact main2 us _ h1
      · exact ih _ hus
  exact main tasks _ ht

/-- The ids of a task list, in order. -/
def idsOf (l : List Task) : List String := l.map (fun t => t.id)

/-- In-degree of x counting only in-neighbours outside `done`. -/
def cnt (tasks : List Task) (g : String → List String) (done : Finset String)
    (x : String) : Nat :=
  ((taskIdsF tasks).filter (fun b => x ∈ g b ∧ b ∉ done)).card

/-- The in-degree map always counts the current graph's edges. -/
def degMatches (tasks : List Task)
    (st : (String → List String) × (String → Nat)) : Prop :=
  ∀ x, st.2 x = ((taskIdsF tasks).filter (fun b => x ∈ st.1 b)).card

theorem buildEdge_invariant (tasks : List Task) (t : Task)
    (st : (String → List String) × (String → Nat)) (b : String)
    (hnd : ∀ b', (st.1 b').Nodup) (hdm : degMatches tasks st) :
    (∀ b', ((buildEdge tasks t st b).1 b').Nodup) ∧
      degMatches tasks (buildEdge tasks t st b) := by
  unfold buildEdge
  by_cases h1 : (taskById tasks b).isSome = true
  · rw [if_pos h1]
    by_cases h2 : (st.1 b).contains t.id = true
    · rw [if_pos h2]; exact ⟨hnd, hdm⟩
    · rw [if_neg h2]
      have hb_not_mem : t.id ∉ st.1 b := by
        intro hc
        exact h2 (List.elem_eq_true_of_mem hc)
      have hbF : b ∈ taskIdsF tasks := (taskById_isSome_iff tasks b).mp h1
      constructor
      · intro b'
        dsimp only
        unfold updFun
        by_cases h3 : b' = b
        · rw [if_pos h3]
          rw [List.nodup_append]
          exact ⟨hnd b, List.nodup_singleton _,
            fun x hx hy => hb_not_mem (List.mem_singleton.mp hy ▸ hx)⟩
        · rw [if_neg h3]; exact hnd b'
      · intro x
        dsimp only
        unfold updFun
        by_cases hx : x = t.id
        · rw [if_pos hx, hx, hdm t.id]
          have hset : (taskIdsF tasks).filter
                (fun b' => t.id ∈ (if b' = b then st.1 b ++ [t.id]
                  else st.1 b')) =
              insert b ((taskIdsF tasks).filter (fun b' => t.id ∈ st.1 b')) := by
            ext b'
            simp only [Finset.mem_filter, Finset.mem_insert]
            by_cases h3 : b' = b
            · subst h3
              rw [if_pos rfl]
              constructor
              · intro _; exact Or.inl rfl
              · intro _
                refine ⟨hbF, ?_⟩
                exact List.mem_append.mpr (Or.inr (List.mem_singleton.mpr rfl))
            · rw [if_neg h3]
              constructor
              · intro ⟨ha, hb2⟩; exact Or.inr ⟨ha, hb2⟩
              · intro hor
                rcases hor with h4 | h4
                · exact absurd h4 h3
                · exact h4
          rw [hset, Finset.card_insert_of_not_mem]
          rw [Finset.mem_filter]
          intro ⟨_, hc⟩
          exact hb_not_mem hc
        · rw [if_neg hx, hdm x]
          have hset2 : (taskIdsF tasks).filter
                (fun b' => x ∈ (if b' = b then st.1 b ++ [t.id]
                  else st.1 b')) =
              (taskIdsF tasks).filter (fun b' => x ∈ st.1 b') := by
            ext b'
            simp only [Finset.mem_filter]
            by_cases h3 : b' = b
            · subst h3
              rw [if_pos rfl]
              constructor
              · intro ⟨ha, h4⟩
                rcases List.mem_append.mp h4 with h5 | h5
                · exact ⟨ha, h5⟩
                · exact absurd (List.mem_singleton.mp h5) hx
              · intro ⟨ha, h4⟩
                exact ⟨ha, List.mem_append.mpr (Or.inl h4)⟩
            · rw [if_neg h3]
          rw [hset2]
  · rw [if_neg h1]; exact ⟨hnd, hdm⟩

theorem buildGraph_invariant (tasks : List Task) :
    (∀ b, ((buildGraph tasks).1 b).Nodup) ∧ degMatches tasks (buildGraph tasks) := by
  unfold buildGraph
  have base : (∀ b, ((fun _ => [], fun _ => 0) :
        (String → List String) × (String → Nat)).1 b |>.Nodup) ∧
      degMatches tasks (fun _ => [], fun _ => 0) := by
    constructor
    · intro b; exact List.nodup_nil
    · intro x
      dsimp only
      symm
      rw [Finset.card_eq_zero, Finset.filter_eq_empty_iff]
      intro b _
      exact List.not_mem_nil x
  have step : ∀ (l : List Task)
      (st : (String → List String) × (String → Nat)),
      ((∀ b, (st.1 b).Nodup) ∧ degMatches tasks st) →
      (∀ b, ((l.foldl (buildTask tasks) st).1 b).Nodup) ∧
        degMatches tasks (l.foldl (buildTask tasks) st) := by
    intro l
    induction l with
    | nil => intro st h; exact h
    | cons u us ih =>
      intro st h
      rw [List.foldl_cons]
      apply ih
      unfold buildTask
      have inner : ∀ (bs : List String)
          (st' : (String → List String) × (String → Nat)),
          ((∀ b, (st'.1 b).Nodup) ∧ degMatches tasks st') →
          (∀ b, ((bs.foldl (buildEdge tasks u) st').1 b).Nodup) ∧
            degMatches tasks (bs.foldl (buildEdge tasks u) st') := by
        intro bs
        induction bs with
        | nil => intro st' h'; exact h'
        | cons b0 rest ih2 =>
          intro st' h'
          rw [List.foldl_cons]
          exact ih2 _ (buildEdge_invariant tasks u st' b0 h'.1 h'.2)
      exact inner u.blockerTaskIds st h
  exact step tasks _ base

theorem nodup_append_snoc {α : Type} (l1 l2 : List α) (a : α)
    (h : (l1 ++ l2).Nodup) (h1 : a ∉ l1) (h2 : a ∉ l2) :
    (l1 ++ (l2 ++ [a])).Nodup := by
  have heq : l1 ++ (l2 ++ [a]) = (l1 ++ l2) ++ [a] :=
    (List.append_assoc l1 l2 [a]).symm
  rw [heq]
  have hperm : List.Perm ((l1 ++ l2) ++ [a]) (a :: (l1 ++ l2)) :=
    List.perm_append_singleton a (l1 ++ l2)
  rw [hperm.nodup_iff]
  rw [List.nodup_cons]
  refine ⟨?_, h⟩
  intro hc
  rcases List.mem_append.mp hc with h3 | h3
  · exact h1 h3
  · exact h2 h3

theorem idsOf_append (l1 l2 : List Task) :
    idsOf (l1 ++ l2) = idsOf l1 ++ idsOf l2 := List.map_append _ l1 l2

theorem mem_idsOf (l : List Task) (x : String) :
    x ∈ idsOf l ↔ ∃ t ∈ l, t.id = x := by
  unfold idsOf
  rw [List.mem_map]

theorem mem_taskIdsF (tasks : List Task) (x : String) :
    x ∈ taskIdsF tasks ↔ x ∈ idsOf tasks := by
  unfold taskIdsF idsOf
  exact List.mem_toFinset

/-- Effect of the decrement fold of one Kahn iteration.  `oids` is the
list of already-ordered ids including the node being processed; `todo` is
the not-yet-processed suffix of that node's out-edges. -/
theorem kahnFold_spec (tasks : List Task) (g : String → List String)
    (oids : List String) :
    ∀ (todo : List String) (st : (String → Nat) × List Task),
      todo.Nodup →
      (∀ x ∈ todo, x ∈ idsOf tasks) →
      (∀ x ∈ todo, x ∉ oids) →
      (∀ x, x ∈ taskIdsF tasks → st.1 x = cnt tasks g oids.toFinset x +
        (if x ∈ todo then 1 else 0)) →
      (oids ++ idsOf st.2).Nodup →
      (∀ u ∈ st.2, u ∈ tasks) →
      (∀ u ∈ st.2, u.id ∉ todo) →
      (∀ u ∈ st.2, ∀ b, b ∈ taskIdsF tasks → u.id ∈ g b → b ∈ oids) →
      (∀ x, x ∈ taskIdsF tasks → x ∉ todo →
        cnt tasks g oids.toFinset x = 0 → x ∈ oids ++ idsOf st.2) →
      (∀ x, x ∈ taskIdsF tasks →
        (todo.foldl (kahnDecrement tasks) st).1 x =
          cnt tasks g oids.toFinset x) ∧
      (oids ++ idsOf (todo.foldl (kahnDecrement tasks) st).2).Nodup ∧
      (∀ u ∈ (todo.foldl (kahnDecrement tasks) st).2, u ∈ tasks) ∧
      (∀ u ∈ (todo.foldl (kahnDecrement tasks) st).2,
        ∀ b, b ∈ taskIdsF tasks → u.id ∈ g b → b ∈ oids) ∧
      (∀ x, x ∈ taskIdsF tasks → cnt tasks g oids.toFinset x = 0 →
        x ∈ oids ++ idsOf (todo.foldl (kahnDecrement tasks) st).2) := by
  intro todo
  induction todo with
  | nil =>
    intro st _ _ _ hF1 hnd hmem _ hF6 hF4
    refine ⟨?_, hnd, hmem, hF6, ?_⟩
    · intro x hx
      have := hF1 x hx
      simp only [List.not_mem_nil, if_false] at this
      simpa using this
    · intro x hx hc
      exact hF4 x hx (List.not_mem_nil x) hc
  | cons mid todo' ih =>
    intro st hnd_todo hids h_oids hF1 hnd hmem hnotodo hF6 hF4
    rw [List.foldl_cons]
    have hmid_ids : mid ∈ idsOf tasks := hids mid (List.mem_cons_self mid todo')
    have hmidF : mid ∈ taskIdsF tasks := (mem_taskIdsF tasks mid).mpr hmid_ids
    have hmid_not_todo' : mid ∉ todo' := (List.nodup_cons.mp hnd_todo).1
    have hnd_todo' : todo'.Nodup := (List.nodup_cons.mp hnd_todo).2
    have hstmid : st.1 mid = cnt tasks g oids.toFinset mid + 1 := by
      have := hF1 mid hmidF
      rw [if_pos (List.mem_cons_self mid todo')] at this
      exact this
    have hdec1 : (kahnDecrement tasks st mid).1 =
        updFun st.1 mid (st.1 mid - 1) := by
      unfold kahnDecrement
      dsimp only
      by_cases hz : st.1 mid - 1 = 0
      · rw [if_pos hz]
        cases taskById tasks mid <;> rfl
      · rw [if_neg hz]
    have hF1' : ∀ x, x ∈ taskIdsF tasks →
        (kahnDecrement tasks st mid).1 x = cnt tasks g oids.toFinset x +
          (if x ∈ todo' then 1 else 0) := by
      intro x hx
      rw [hdec1]
      unfold updFun
      by_cases hxm : x = mid
      · rw [if_pos hxm, hxm, hstmid]
        rw [if_neg hmid_not_todo']
        omega
      · rw [if_neg hxm]
        have := hF1 x hx
        have hiff : (x ∈ mid :: todo') ↔ (x ∈ todo') := by
          rw [List.mem_cons]
          constructor
          · intro h; rcases h with h | h
            · exact absurd h hxm
            · exact h
          · exact Or.inr
        by_cases hxt : x ∈ todo'
        · rw [if_pos hxt]
          rw [if_pos (hiff.mpr hxt)] at this
          exact this
        · rw [if_neg hxt]
          rw [if_neg (fun hc => hxt (hiff.mp hc))] at this
          exact this
    by_cases hz : st.1 mid - 1 = 0
    · -- mid's count reached zero: a task is enqueued
      have hcnt0 : cnt tasks g oids.toFinset mid = 0 := by omega
      have hsome : (taskById tasks mid).isSome = true :=
        (taskById_isSome_iff tasks mid).mpr hmidF
      cases htid : taskById tasks mid with
      | none => rw [htid] at hsome; cases hsome
      | some mt =>
        obtain ⟨hmt_mem, hmt_id⟩ := taskById_mem tasks mid mt htid
        have hdec : kahnDecrement tasks st mid =
            (updFun st.1 mid (st.1 mid - 1), st.2 ++ [mt]) := by
          unfold kahnDecrement
          dsimp only
          rw [if_pos hz, htid]
        rw [hdec]
        have hmid_not_zacc : mid ∉ idsOf st.2 := by
          intro hc
          obtain ⟨u, hu, huid⟩ := (mem_idsOf st.2 mid).mp hc
          exact hnotodo u hu (huid ▸ List.mem_cons_self mid todo')
        have hmid_not_oids : mid ∉ oids :=
          h_oids mid (List.mem_cons_self mid todo')
        have hin_nbrs : ∀ b, b ∈ taskIdsF tasks → mid ∈ g b → b ∈ oids := by
          intro b hb hgb
          by_contra hbo
          have : b ∈ (taskIdsF tasks).filter
              (fun b' => mid ∈ g b' ∧ b' ∉ oids.toFinset) := by
            rw [Finset.mem_filter]
            exact ⟨hb, hgb, fun hc => hbo (List.mem_toFinset.mp hc)⟩
          unfold cnt at hcnt0
          rw [Finset.card_eq_zero] at hcnt0
          rw [hcnt0] at this
          cases this
        refine ih (updFun st.1 mid (st.1 mid - 1), st.2 ++ [mt]) hnd_todo'
          (fun x hx => hids x (List.mem_cons_of_mem mid hx))
          (fun x hx => h_oids x (List.mem_cons_of_mem mid hx))
          (fun x hx => by
            have := hF1' x hx
            rw [hdec] at this
            exact this)
          ?_ ?_ ?_ ?_ ?_
        · rw [idsOf_append]
          have : idsOf [mt] = [mid] := by
            unfold idsOf
            rw [List.map_singleton, hmt_id]
          rw [this]
          exact nodup_append_snoc oids (idsOf st.2) mid hnd hmid_not_oids
            hmid_not_zacc
        · intro u hu
          rcases List.mem_append.mp hu with h | h
          · exact hmem u h
          · rw [List.mem_singleton] at h
            rw [h]
            exact hmt_mem
        · intro u hu
          rcases List.mem_append.mp hu with h | h
          · exact fun hc => hnotodo u h (List.mem_cons_of_mem mid hc)
          · rw [List.mem_singleton] at h
            rw [h, hmt_id]
            exact hmid_not_todo'
        · intro u hu b hb hgb
          rcases List.mem_append.mp hu with h | h
          · exact hF6 u h b hb hgb
          · rw [List.mem_singleton] at h
            rw [h, hmt_id] at hgb
            exact hin_nbrs b hb hgb
        · intro x hx hxtodo' hcx
          by_cases hxm : x = mid
          · rw [hxm]
            refine List.mem_append.mpr (Or.inr ?_)
            rw [idsOf_append]
            refine List.mem_append.mpr (Or.inr ?_)
            unfold idsOf
            rw [List.map_singleton, hmt_id]
            exact List.mem_singleton.mpr rfl
          · have hxtodo : x ∉ mid :: todo' := by
              rw [List.mem_cons]
              intro h; rcases h with h | h
              · exact hxm h
              · exact hxtodo' h
            have := hF4 x hx hxtodo hcx
            rcases List.mem_append.mp this with h | h
            · exact List.mem_append.mpr (Or.inl h)
            · refine List.mem_append.mpr (Or.inr ?_)
              rw [idsOf_append]
              exact List.mem_append.mpr (Or.inl h)
    · -- mid still has unprocessed in-neighbours: no push
      have hdec : kahnDecrement tasks st mid =
          (updFun st.1 mid (st.1 mid - 1), st.2) := by
        unfold kahnDecrement
        dsimp only
        rw [if_neg hz]
      rw [hdec]
      refine ih (updFun st.1 mid (st.1 mid - 1), st.2) hnd_todo'
        (fun x hx => hids x (List.mem_cons_of_mem mid hx))
        (fun x hx => h_oids x (List.mem_cons_of_mem mid hx))
        (fun x hx => by
          have := hF1' x hx
          rw [hdec] at this
          exact this)
        hnd hmem
        (fun u hu hc => hnotodo u hu (List.mem_cons_of_mem mid hc))
        hF6 ?_
      intro x hx hxtodo' hcx
      by_cases hxm : x = mid
      · exfalso
        rw [hxm] at hcx
        omega
      · have hxtodo : x ∉ mid :: todo' := by
          rw [List.mem_cons]
          intro h; rcases h with h | h
          · exact hxm h
          · exact hxtodo' h
        exact hF4 x hx hxtodo hcx

theorem cnt_insert (tasks : List Task) (g : String → List String)
    (s : Finset String) (nid x : String) (hnid : nid ∈ taskIdsF tasks)
    (hns : nid ∉ s) :
    cnt tasks g s x = cnt tasks g (insert nid s) x +
      (if x ∈ g nid then 1 else 0) := by
  unfold cnt
  by_cases hx : x ∈ g nid
  · rw [if_pos hx]
    have hset : (taskIdsF tasks).filter (fun b => x ∈ g b ∧ b ∉ s) =
        insert nid ((taskIdsF tasks).filter
          (fun b => x ∈ g b ∧ b ∉ insert nid s)) := by
      ext b
      simp only [Finset.mem_filter, Finset.mem_insert]
      constructor
      · intro ⟨hb, hgb, hbs⟩
        by_cases hbn : b = nid
        · exact Or.inl hbn
        · exact Or.inr ⟨hb, hgb, fun hc => by
            rcases hc with h | h
            · exact hbn h
            · exact hbs h⟩
      · intro h
        rcases h with rfl | ⟨hb, hgb, hbs⟩
        · exact ⟨hnid, hx, hns⟩
        · exact ⟨hb, hgb, fun hc => hbs (Or.inr hc)⟩
    rw [hset, Finset.card_insert_of_not_mem]
    rw [Finset.mem_filter]
    intro ⟨_, _, hc⟩
    exact hc (Finset.mem_insert_self nid s)
  · rw [if_neg hx, Nat.add_zero]
    congr 1
    ext b
    simp only [Finset.mem_filter]
    constructor
    · intro ⟨hb, hgb, hbs⟩
      refine ⟨hb, hgb, ?_⟩
      intro hc
      rcases Finset.mem_insert.mp hc with h | h
      · rw [h] at hgb; exact hx hgb
      · exact hbs h
    · intro ⟨hb, hgb, hbs⟩
      refine ⟨hb, hgb, ?_⟩
      intro hc
      exact hbs (Finset.mem_insert.mpr (Or.inr hc))

theorem snoc_eq_append_cons {α : Type} (l : List α) (a : α) (o1 : List α)
    (u : α) (o2 : List α) (h : l ++ [a] = o1 ++ u :: o2) :
    (o1 = l ∧ u = a ∧ o2 = []) ∨
    (∃ o2', o2 = o2' ++ [a] ∧ l = o1 ++ u :: o2') := by
  induction o2 using List.reverseRecOn with
  | nil =>
    left
    have h2 : l ++ [a] = o1 ++ [u] := h
    have hlen : l.length = o1.length := by
      have := congrArg List.length h2
      simp only [List.length_append, List.length_singleton] at this
      omega
    obtain ⟨h3, h4⟩ := List.append_inj h2 hlen
    exact ⟨h3.symm, (List.singleton_injective h4).symm, rfl⟩
  | append_singleton o2' b _ =>
    right
    have h2 : l ++ [a] = (o1 ++ u :: o2') ++ [b] := by
      rw [h]
      simp [List.append_assoc]
    have hlen : l.length = (o1 ++ u :: o2').length := by
      have := congrArg List.length h2
      simp only [List.length_append, List.length_singleton,
        List.length_cons] at this ⊢
      omega
    obtain ⟨h3, h4⟩ := List.append_inj h2 hlen
    have hba : b = a := List.singleton_injective h4.symm
    exact ⟨o2', by rw [hba], h3⟩

theorem length_le_of_nodup_subset (tasks l : List Task)
    (hnd : (idsOf l).Nodup) (hsub : ∀ t ∈ l, t ∈ tasks) :
    l.length ≤ tasks.length := by
  have h1 : l.length = (idsOf l).length := (List.length_map l _).symm
  have h2 : (idsOf l).length = (idsOf l).toFinset.card :=
    (List.toFinset_card_of_nodup hnd).symm
  have h3 : (idsOf l).toFinset ⊆ taskIdsF tasks := by
    intro x hx
    rw [List.mem_toFinset] at hx
    obtain ⟨t, ht, hid⟩ := (mem_idsOf l x).mp hx
    rw [mem_taskIdsF, mem_idsOf]
    exact ⟨t, hsub t ht, hid⟩
  have h4 : (idsOf l).toFinset.card ≤ (taskIdsF tasks).card :=
    Finset.card_le_card h3
  have h5 : (taskIdsF tasks).card ≤ tasks.length := by
    unfold taskIdsF
    calc (tasks.map (fun t => t.id)).toFinset.card
        ≤ (tasks.map (fun t => t.id)).length := List.toFinset_card_le _
      _ = tasks.length := List.length_map _ _
  omega

theorem idsOf_take_subset (l : List Task) (i : Nat) (b : String)
    (h : b ∈ idsOf (l.take i)) : b ∈ idsOf l := by
  obtain ⟨t, ht, hid⟩ := (mem_idsOf _ b).mp h
  exact (mem_idsOf l b).mpr ⟨t, List.take_subset i l ht, hid⟩

/-- Master invariant lemma for the Kahn loop.  The in-degree map always
counts the in-neighbours not yet ordered; zero-queue members have all
in-neighbours ordered; the ordered prefix respects the edges positionally;
any id whose count is zero is already enqueued or ordered. -/
theorem kahnLoop_spec (tasks : List Task) (g : String → List String)
    (hsound : ∀ b x, x ∈ g b → x ∈ idsOf tasks)
    (hgnodup : ∀ b, (g b).Nodup) :
    ∀ (fuel : Nat) (inDeg : String → Nat) (zero ordered : List Task),
      (idsOf (ordered ++ zero)).Nodup →
      (∀ t ∈ ordered ++ zero, t ∈ tasks) →
      (∀ x, x ∈ taskIdsF tasks →
        inDeg x = cnt tasks g (idsOf ordered).toFinset x) →
      (∀ u ∈ zero, ∀ b, b ∈ taskIdsF tasks → u.id ∈ g b →
        b ∈ idsOf ordered) →
      (∀ o1 u o2, ordered = o1 ++ u :: o2 → ∀ b, b ∈ taskIdsF tasks →
        u.id ∈ g b → b ∈ idsOf o1) →
      (∀ x, x ∈ taskIdsF tasks →
        cnt tasks g (idsOf ordered).toFinset x = 0 →
        x ∈ idsOf (ordered ++ zero)) →
      (∃ suff, (kahnLoop g tasks fuel inDeg zero ordered).1 =
        ordered ++ suff) ∧
      (idsOf ((kahnLoop g tasks fuel inDeg zero ordered).1 ++
        (kahnLoop g tasks fuel inDeg zero ordered).2)).Nodup ∧
      (∀ t ∈ (kahnLoop g tasks fuel inDeg zero ordered).1 ++
        (kahnLoop g tasks fuel inDeg zero ordered).2, t ∈ tasks) ∧
      (∀ o1 u o2, (kahnLoop g tasks fuel inDeg zero ordered).1 =
        o1 ++ u :: o2 → ∀ b, b ∈ taskIdsF tasks → u.id ∈ g b →
        b ∈ idsOf o1) ∧
      (tasks.length + 1 ≤ fuel + ordered.length →
        (kahnLoop g tasks fuel inDeg zero ordered).2 = []) ∧
      (∀ x, x ∈ taskIdsF tasks →
        cnt tasks g
          (idsOf (kahnLoop g tasks fuel inDeg zero ordered).1).toFinset x = 0 →
        x ∈ idsOf ((kahnLoop g tasks fuel inDeg zero ordered).1 ++
          (kahnLoop g tasks fuel inDeg zero ordered).2)) := by
  intro fuel
  induction fuel with
  | zero =>
    intro inDeg zero ordered hI1 hI2 hI3 hI4 hI5 hI6
    unfold kahnLoop
    refine ⟨⟨[], (List.append_nil ordered).symm⟩, hI1, hI2, ?_, ?_, hI6⟩
    · intro o1 u o2 heq b hb hub
      exact hI5 o1 u o2 heq b hb hub
    · intro hfuel
      exfalso
      have hsub : ∀ t ∈ ordered, t ∈ tasks := by
        intro t ht
        exact hI2 t (List.mem_append.mpr (Or.inl ht))
      have hnd : (idsOf ordered).Nodup := by
        rw [idsOf_append] at hI1
        exact (List.nodup_append.mp hI1).1
      have := length_le_of_nodup_subset tasks ordered hnd hsub
      omega
  | succ n ih =>
    intro inDeg zero ordered hI1 hI2 hI3 hI4 hI5 hI6
    cases zero with
    | nil =>
      unfold kahnLoop
      refine ⟨⟨[], (List.append_nil ordered).symm⟩, hI1, hI2, ?_, ?_, hI6⟩
      · intro o1 u o2 heq b hb hub
        exact hI5 o1 u o2 heq b hb hub
      · intro _; rfl
    | cons node rest =>
      -- facts about the current iteration
      have hnode_tasks : node ∈ tasks :=
        hI2 node (List.mem_append.mpr (Or.inr (List.mem_cons_self node rest)))
      have hnodeF : node.id ∈ taskIdsF tasks := by
        rw [mem_taskIdsF, mem_idsOf]
        exact ⟨node, hnode_tasks, rfl⟩
      have hidsdecomp : idsOf (ordered ++ node :: rest) =
          idsOf ordered ++ node.id :: idsOf rest := by
        rw [idsOf_append]
        rfl
      have hnode_not_ordered : node.id ∉ idsOf ordered := by
        rw [hidsdecomp] at hI1
        rw [List.nodup_append] at hI1
        intro hc
        exact hI1.2.2 hc (List.mem_cons_self _ _)
      -- out-edge targets are never already-ordered ids nor node itself
      have houts_fresh : ∀ x ∈ g node.id, x ∉ idsOf ordered ++ [node.id] := by
        intro x hx hc
        rcases List.mem_append.mp hc with h | h
        · -- x is an ordered id: its in-neighbours incl node would be ordered
          obtain ⟨u, hu, huid⟩ := (mem_idsOf ordered x).mp h
          obtain ⟨o1, o2, ho⟩ := List.append_of_mem hu
          have h5 := hI5 o1 u o2 ho node.id hnodeF (by rw [huid]; exact hx)
          obtain ⟨t, ht, htid⟩ := (mem_idsOf o1 node.id).mp h5
          refine hnode_not_ordered ((mem_idsOf ordered node.id).mpr
            ⟨t, ?_, htid⟩)
          rw [ho]
          exact List.mem_append.mpr (Or.inl ht)
        · -- x = node.id: node in zero has its in-neighbours ordered
          rw [List.mem_singleton] at h
          rw [h] at hx
          have := hI4 node (List.mem_cons_self node rest) node.id hnodeF hx
          exact hnode_not_ordered this
      have hrest_not_outs : ∀ u ∈ rest, u.id ∉ g node.id := by
        intro u hu hc
        exact hnode_not_ordered
          (hI4 u (List.mem_cons_of_mem node hu) node.id hnodeF hc)
      have hoidsF : (idsOf ordered ++ [node.id]).toFinset =
          insert node.id (idsOf ordered).toFinset := by
        rw [List.toFinset_append]
        have h1 : ([node.id] : List String).toFinset = {node.id} := rfl
        rw [h1, Finset.union_comm, ← Finset.insert_eq]
      have hnode_not_orderedF : node.id ∉ (idsOf ordered).toFinset := by
        rw [List.mem_toFinset]
        exact hnode_not_ordered
      have hF1init : ∀ x, x ∈ taskIdsF tasks →
          inDeg x = cnt tasks g (idsOf ordered ++ [node.id]).toFinset x +
            (if x ∈ g node.id then 1 else 0) := by
        intro x hx
        rw [hI3 x hx, hoidsF]
        exact cnt_insert tasks g (idsOf ordered).toFinset node.id x hnodeF
          hnode_not_orderedF
      have hzacc_nodup : ((idsOf ordered ++ [node.id]) ++ idsOf rest).Nodup := by
        rw [List.append_assoc, List.singleton_append]
        rw [hidsdecomp] at hI1
        exact hI1
      have hfold := kahnFold_spec tasks g (idsOf ordered ++ [node.id])
        (g node.id) (inDeg, rest) (hgnodup node.id)
        (fun x hx => hsound node.id x hx)
        houts_fresh hF1init hzacc_nodup
        (fun u hu => hI2 u (List.mem_append.mpr
          (Or.inr (List.mem_cons_of_mem node hu))))
        hrest_not_outs
        (fun u hu b hb hgb => List.mem_append.mpr
          (Or.inl (hI4 u (List.mem_cons_of_mem node hu) b hb hgb)))
        (by
          intro x hx hxouts hcx
          have hcnt_old : cnt tasks g (idsOf ordered).toFinset x = 0 := by
            have := cnt_insert tasks g (idsOf ordered).toFinset node.id x
              hnodeF hnode_not_orderedF
            rw [← hoidsF] at this
            rw [this, hcx, if_neg hxouts]
          have hx6 := hI6 x hx hcnt_old
          rw [hidsdecomp] at hx6
          rw [List.append_assoc, List.singleton_append]
          exact hx6)
      obtain ⟨hP1, hP2, hP3, hP6, hP4⟩ := hfold
      set fold := (g node.id).foldl (kahnDecrement tasks) (inDeg, rest)
        with hfold_def
      -- the recursive call
      have heq : kahnLoop g tasks (n + 1) inDeg (node :: rest) ordered =
          kahnLoop g tasks n fold.1 (sortByPriority fold.2)
            (ordered ++ [node]) := by
        rfl
      have hids_ordered' : idsOf (ordered ++ [node]) =
          idsOf ordered ++ [node.id] := by
        rw [idsOf_append]
        rfl
      have hsort_perm : List.Perm (idsOf (sortByPriority fold.2))
          (idsOf fold.2) := (sortByPriority_perm fold.2).map _
      have hih := ih fold.1 (sortByPriority fold.2) (ordered ++ [node])
        (by
          rw [idsOf_append, hids_ordered']
          have hperm : List.Perm
              ((idsOf ordered ++ [node.id]) ++ idsOf (sortByPriority fold.2))
              ((idsOf ordered ++ [node.id]) ++ idsOf fold.2) :=
            List.Perm.append_left _ hsort_perm
          exact hperm.nodup_iff.mpr hP2)
        (by
          intro t ht
          rcases List.mem_append.mp ht with h | h
          · rcases List.mem_append.mp h with h2 | h2
            · exact hI2 t (List.mem_append.mpr (Or.inl h2))
            · rw [List.mem_singleton] at h2
              rw [h2]; exact hnode_tasks
          · exact hP3 t ((sortByPriority_perm fold.2).mem_iff.mp h))
        (by
          intro x hx
          rw [hids_ordered']
          exact hP1 x hx)
        (by
          intro u hu b hb hgb
          rw [hids_ordered']
          exact hP6 u ((sortByPriority_perm fold.2).mem_iff.mp hu) b hb hgb)
        (by
          intro o1 u o2 hdecomp b hb hub
          rcases snoc_eq_append_cons ordered node o1 u o2 hdecomp with
            ⟨ho1, hu, _⟩ | ⟨o2', _, hord⟩
          · rw [ho1]
            rw [hu] at hub
            exact hI4 node (List.mem_cons_self node rest) b hb hub
          · exact hI5 o1 u o2' hord b hb hub)
        (by
          intro x hx hcx
          rw [hids_ordered'] at hcx
          have := hP4 x hx hcx
          rw [idsOf_append, hids_ordered']
          rcases List.mem_append.mp this with h | h
          · exact List.mem_append.mpr (Or.inl h)
          · exact List.mem_append.mpr
              (Or.inr (hsort_perm.mem_iff.mpr h)))
      rw [heq]
      obtain ⟨⟨suff, hsuff⟩, hQ2, hQ3, hQ4, hQ5, hQ6⟩ := hih
      refine ⟨⟨[node] ++ suff, ?_⟩, hQ2, hQ3, hQ4, ?_, hQ6⟩
      · rw [hsuff, List.append_assoc]
      · intro hfuel
        apply hQ5
        rw [List.length_append, List.length_singleton]
        omega

theorem id_inj_of_nodup (tasks : List Task) (hnd : (idsOf tasks).Nodup)
    {t u : Task} (ht : t ∈ tasks) (hu : u ∈ tasks) (h : t.id = u.id) :
    t = u :=
  List.inj_on_of_nodup_map hnd ht hu h

/-- Summary of orderTasksByDependenciesAndPriority for duplicate-free task
ids: the output splits into the Kahn-ordered prefix O and the appended
remainder R; it is a permutation of the input; O respects every in-release
blocker edge positionally; and every R task has an in-release blocker
whose task is also in R. -/
theorem orderTasks_spec (tasks : List Task) (hnodup : (idsOf tasks).Nodup) :
    ∃ O R, orderTasksByDependenciesAndPriority tasks = O ++ R ∧
      List.Perm (O ++ R) tasks ∧
      (idsOf (O ++ R)).Nodup ∧
      (∀ o1 u o2, O = o1 ++ u :: o2 → ∀ b, b ∈ u.blockerTaskIds →
        b ∈ idsOf tasks → b ∈ idsOf o1) ∧
      (∀ u ∈ R, ∃ w ∈ R, w.id ∈ u.blockerTaskIds) ∧
      (∀ u ∈ R, u.id ∉ idsOf O) := by
  have hg := buildGraph_invariant tasks
  set g := (buildGraph tasks).1 with hgdef
  set deg0 := (buildGraph tasks).2 with hdegdef
  have hsound : ∀ b x, x ∈ g b → x ∈ idsOf tasks := by
    intro b x hx
    obtain ⟨t, ht, hid, _, _⟩ := buildGraph_sound tasks b x hx
    exact (mem_idsOf tasks x).mpr ⟨t, ht, hid.symm⟩
  set zero0 := sortByPriority (tasks.filter (fun t => deg0 t.id = 0))
    with hzero0
  have hzero0_perm : List.Perm zero0
      (tasks.filter (fun t => deg0 t.id = 0)) := sortByPriority_perm _
  have hzero0_sub : ∀ u ∈ zero0, u ∈ tasks := by
    intro u hu
    exact List.mem_of_mem_filter (hzero0_perm.mem_iff.mp hu)
  have hzero0_deg : ∀ u ∈ zero0, deg0 u.id = 0 := by
    intro u hu
    have := List.of_mem_filter (hzero0_perm.mem_iff.mp hu)
    exact of_decide_eq_true this
  have hI1 : (idsOf (([] : List Task) ++ zero0)).Nodup := by
    rw [List.nil_append]
    have hsl : (tasks.filter (fun t => deg0 t.id = 0)).Sublist tasks :=
      List.filter_sublist tasks
    have hslids : (idsOf (tasks.filter (fun t => deg0 t.id = 0))).Sublist
        (idsOf tasks) := hsl.map _
    have hnd2 := hslids.nodup hnodup
    unfold idsOf at hnd2 ⊢
    exact ((hzero0_perm.map (fun t => t.id)).nodup_iff).mpr hnd2
  have hdeg_cnt : ∀ x, deg0 x = cnt tasks g (∅ : Finset String) x := by
    intro x
    have h2 := hg.2 x
    unfold cnt
    rw [hdegdef, h2, hgdef]
    congr 1
    ext b
    simp only [Finset.mem_filter, Finset.not_mem_empty, not_false_iff,
      and_true]
  have hI3 : ∀ x, x ∈ taskIdsF tasks →
      deg0 x = cnt tasks g (idsOf ([] : List Task)).toFinset x := by
    intro x _
    have : (idsOf ([] : List Task)).toFinset = (∅ : Finset String) := rfl
    rw [this]
    exact hdeg_cnt x
  have hI4 : ∀ u ∈ zero0, ∀ b, b ∈ taskIdsF tasks → u.id ∈ g b →
      b ∈ idsOf ([] : List Task) := by
    intro u hu b hb hgb
    exfalso
    have h0 := hzero0_deg u hu
    rw [hdeg_cnt u.id] at h0
    unfold cnt at h0
    rw [Finset.card_eq_zero] at h0
    have : b ∈ (taskIdsF tasks).filter
        (fun b' => u.id ∈ g b' ∧ b' ∉ (∅ : Finset String)) := by
      rw [Finset.mem_filter]
      exact ⟨hb, hgb, Finset.not_mem_empty b⟩
    rw [h0] at this
    cases this
  have hI6 : ∀ x, x ∈ taskIdsF tasks →
      cnt tasks g (idsOf ([] : List Task)).toFinset x = 0 →
      x ∈ idsOf (([] : List Task) ++ zero0) := by
    intro x hx hcx
    rw [List.nil_append]
    obtain ⟨u, hu, huid⟩ := (mem_idsOf tasks x).mp ((mem_taskIdsF tasks x).mp hx)
    have hdeg : deg0 u.id = 0 := by
      rw [huid, hI3 x hx]
      exact hcx
    have humem : u ∈ zero0 := by
      rw [hzero0_perm.mem_iff, List.mem_filter]
      exact ⟨hu, decide_eq_true hdeg⟩
    exact (mem_idsOf zero0 x).mpr ⟨u, humem, huid⟩
  have hloop := kahnLoop_spec tasks g hsound hg.1 (kahnFuel tasks) deg0 zero0
    [] hI1
    (fun t ht => by
      rw [List.nil_append] at ht
      exact hzero0_sub t ht)
    hI3 hI4
    (fun o1 u o2 h => absurd h (by
      intro hc
      exact List.not_mem_nil u (hc ▸ List.mem_append.mpr
        (Or.inr (List.mem_cons_self u o2)))))
    hI6
  obtain ⟨⟨suff, hsuff⟩, hQ2, hQ3, hQ4, hQ5, hQ6⟩ := hloop
  set O0 := (kahnLoop g tasks (kahnFuel tasks) deg0 zero0 []).1 with hO0
  set Z := (kahnLoop g tasks (kahnFuel tasks) deg0 zero0 []).2 with hZ
  have hZnil : Z = [] := by
    apply hQ5
    have h1 : tasks.length + 2 ≤ kahnFuel tasks := by
      unfold kahnFuel
      calc tasks.length + 2 ≤ (tasks.length + 2) ^ (tasks.length + 2) :=
        Nat.le_self_pow (by omega) _
      _ = (tasks.length + 2) ^ (tasks.length + 2) := rfl
    simp only [List.length_nil]
    omega
  rw [hZnil, List.append_nil] at hQ2 hQ3 hQ6
  have hO0_nodup_ids : (idsOf O0).Nodup := hQ2
  have hO0_nodup : O0.Nodup := List.Nodup.of_map _ hO0_nodup_ids
  have hO0_sub : ∀ t ∈ O0, t ∈ tasks := hQ3
  have htasks_nodup : tasks.Nodup := List.Nodup.of_map _ hnodup
  -- out-of-O0 tasks have an out-of-O0 in-release blocker
  have hremainder : ∀ u ∈ tasks, u.id ∉ idsOf O0 →
      ∃ w ∈ tasks, w.id ∉ idsOf O0 ∧ w.id ∈ u.blockerTaskIds := by
    intro u hu huid
    have huF : u.id ∈ taskIdsF tasks := by
      rw [mem_taskIdsF, mem_idsOf]
      exact ⟨u, hu, rfl⟩
    have hcnt : cnt tasks g (idsOf O0).toFinset u.id ≠ 0 := by
      intro hc
      exact huid (hQ6 u.id huF hc)
    unfold cnt at hcnt
    rw [← Nat.pos_iff_ne_zero] at hcnt
    obtain ⟨b, hbmem⟩ := Finset.card_pos.mp hcnt
    rw [Finset.mem_filter] at hbmem
    obtain ⟨hbF, hbg, hbnot⟩ := hbmem
    obtain ⟨t, ht, htid, hbt, _⟩ := buildGraph_sound tasks b u.id hbg
    have htu : t = u := id_inj_of_nodup tasks hnodup ht hu htid.symm
    rw [htu] at hbt
    obtain ⟨w, hw, hwid⟩ := (mem_idsOf tasks b).mp ((mem_taskIdsF tasks b).mp hbF)
    refine ⟨w, hw, ?_, by rw [hwid]; exact hbt⟩
    rw [hwid]
    intro hc
    exact hbnot (List.mem_toFinset.mpr hc)
  -- positional edge property restated with blockers
  have hpos : ∀ o1 u o2, O0 = o1 ++ u :: o2 → ∀ b, b ∈ u.blockerTaskIds →
      b ∈ idsOf tasks → b ∈ idsOf o1 := by
    intro o1 u o2 hdecomp b hb hbids
    have hbF : b ∈ taskIdsF tasks := (mem_taskIdsF tasks b).mpr hbids
    have hu_tasks : u ∈ tasks := by
      apply hO0_sub
      rw [hdecomp]
      exact List.mem_append.mpr (Or.inr (List.mem_cons_self u o2))
    have hsome : (taskById tasks b).isSome = true :=
      (taskById_isSome_iff tasks b).mpr hbF
    have hedge : u.id ∈ g b := buildGraph_complete tasks u b hu_tasks hb hsome
    exact hQ4 o1 u o2 hdecomp b hbF hedge
  -- now the two branches of the final if
  have hunfold : orderTasksByDependenciesAndPriority tasks =
      (if O0.length ≠ tasks.length then
        O0 ++ sortByPriority (tasks.filter (fun t => !(O0.contains t)))
      else O0) := rfl
  rw [hunfold]
  by_cases hlen : O0.length ≠ tasks.length
  · rw [if_pos hlen]
    set R := sortByPriority (tasks.filter (fun t => !(O0.contains t)))
      with hR
    have hR_perm : List.Perm R (tasks.filter (fun t => !(O0.contains t))) :=
      sortByPriority_perm _
    have hfilter_mem : ∀ u, u ∈ tasks.filter (fun t => !(O0.contains t)) ↔
        (u ∈ tasks ∧ u ∉ O0) := by
      intro u
      rw [List.mem_filter]
      constructor
      · intro ⟨h1, h2⟩
        refine ⟨h1, ?_⟩
        intro hc
        rw [Bool.not_eq_true'] at h2
        have h3 : O0.contains u = true := List.elem_eq_true_of_mem hc
        rw [h2] at h3
        exact Bool.noConfusion h3
      · intro ⟨h1, h2⟩
        refine ⟨h1, ?_⟩
        rw [Bool.not_eq_true']
        cases hv : O0.contains u
        · rfl
        · exact absurd (List.mem_of_elem_eq_true hv) h2
    have hR_mem : ∀ u, u ∈ R ↔ (u ∈ tasks ∧ u ∉ O0) := by
      intro u
      rw [hR_perm.mem_iff]
      exact hfilter_mem u
    have hid_not_mem : ∀ u ∈ tasks, u ∉ O0 → u.id ∉ idsOf O0 := by
      intro u hu hnotO0 hc
      obtain ⟨t, htO0, htid⟩ := (mem_idsOf O0 u.id).mp hc
      have := id_inj_of_nodup tasks hnodup (hO0_sub t htO0) hu htid
      rw [this] at htO0
      exact hnotO0 htO0
    refine ⟨O0, R, rfl, ?_, ?_, hpos, ?_, ?_⟩
    · -- permutation with tasks
      have h1 : List.Perm (O0 ++ R)
          (O0 ++ tasks.filter (fun t => !(O0.contains t))) :=
        List.Perm.append_left O0 hR_perm
      have hcontains_perm : List.Perm
          (tasks.filter (fun t => O0.contains t)) O0 := by
        apply List.Subperm.antisymm
        · apply List.Nodup.subperm
          · exact (List.filter_sublist tasks).nodup htasks_nodup
          · intro u hu
            have hcu := List.of_mem_filter hu
            exact List.mem_of_elem_eq_true hcu
        · apply List.Nodup.subperm hO0_nodup
          intro u hu
          rw [List.mem_filter]
          exact ⟨hO0_sub u hu, List.elem_eq_true_of_mem hu⟩
      have h2 : List.Perm
          (O0 ++ tasks.filter (fun t => !(O0.contains t))) tasks :=
        (List.Perm.append_right _ hcontains_perm.symm).trans
          (List.filter_append_perm (fun t => O0.contains t) tasks)
      exact h1.trans h2
    · -- nodup ids of the whole output
      have hperm : List.Perm (O0 ++ R) tasks := by
        have h1 : List.Perm (O0 ++ R)
            (O0 ++ tasks.filter (fun t => !(O0.contains t))) :=
          List.Perm.append_left O0 hR_perm
        have hcontains_perm : List.Perm
            (tasks.filter (fun t => O0.contains t)) O0 := by
          apply List.Subperm.antisymm
          · apply List.Nodup.subperm
            · exact (List.filter_sublist tasks).nodup htasks_nodup
            · intro u hu
              have hcu := List.of_mem_filter hu
              exact List.mem_of_elem_eq_true hcu
          · apply List.Nodup.subperm hO0_nodup
            intro u hu
            rw [List.mem_filter]
            exact ⟨hO0_sub u hu, List.elem_eq_true_of_mem hu⟩
        have h3 := List.filter_append_perm (fun t => O0.contains t) tasks
        exact h1.trans ((List.Perm.append_right _ hcontains_perm.symm).trans h3)
      have hn2 : (tasks.map (fun t => t.id)).Nodup := hnodup
      show (List.map (fun t => t.id) (O0 ++ R)).Nodup
      exact ((hperm.map (fun t => t.id)).nodup_iff).mpr hn2
    · -- every remainder task has a remainder in-release blocker
      intro u hu
      obtain ⟨hu_tasks, hu_not⟩ := (hR_mem u).mp hu
      obtain ⟨w, hw_tasks, hw_not, hw_block⟩ :=
        hremainder u hu_tasks (hid_not_mem u hu_tasks hu_not)
      refine ⟨w, ?_, hw_block⟩
      rw [hR_mem w]
      refine ⟨hw_tasks, ?_⟩
      intro hc
      exact hw_not ((mem_idsOf O0 w.id).mpr ⟨w, hc, rfl⟩)
    · -- remainder ids are outside O
      intro u hu
      obtain ⟨hu_tasks, hu_not⟩ := (hR_mem u).mp hu
      exact hid_not_mem u hu_tasks hu_not
  · rw [if_neg hlen]
    rw [Ne, not_not] at hlen
    refine ⟨O0, [], (List.append_nil O0).symm, ?_, ?_, hpos, ?_, ?_⟩
    · rw [List.append_nil]
      apply List.Subperm.perm_of_length_le
      · exact List.Nodup.subperm hO0_nodup hO0_sub
      · omega
    · rw [List.append_nil]
      exact hO0_nodup_ids
    · intro u hu; cases hu
    · intro u hu; cases hu

/-- C5: for every release whose tasks carry distinct ids (tasks have
identity), the scheduler output contains exactly one result record per
input task — the list of output record ids is a permutation of the list
of input task ids — even when the dependency graph contains cycles. -/
theorem scheduler_one_record_per_task (r : Release)
    (hnodup : (idsOf r.tasks).Nodup) :
    List.Perm ((calculateGanttData r).tasks.map (fun g => g.id))
      (idsOf r.tasks) := by
  obtain ⟨O, R, hOR, hperm, _, _, _, _⟩ := orderTasks_spec r.tasks hnodup
  have h1 : (calculateGanttData r).tasks =
      (ganttLoop (r.tasks.length + 1) r.startDate r.customHolidays r.tasks
        r.employees (orderTasksByDependenciesAndPriority r.tasks) []
        (calculateEmployeeCapacities r.employees r.startDate
          r.customHolidays)).1 := rfl
  rw [h1, ganttLoop_map_id, hOR]
  exact hperm.map (fun t => t.id)

/-- Witness: the one-record-per-task theorem at a release containing a
dependency cycle and a dangling blocker id. -/
theorem scheduler_one_record_per_task_witness :
    (idsOf cycleWithExternalRelease.tasks).Nodup ∧
      List.Perm ((calculateGanttData cycleWithExternalRelease).tasks.map
          (fun g => g.id))
        (idsOf cycleWithExternalRelease.tasks) :=
  ⟨by decide, scheduler_one_record_per_task cycleWithExternalRelease (by decide)⟩

theorem taskById_of_mem_nodup (tasks : List Task)
    (hnd : (idsOf tasks).Nodup) {A : Task} (hA : A ∈ tasks) :
    taskById tasks A.id = some A := by
  have h1 : (taskById tasks A.id).isSome = true := by
    rw [taskById_isSome_iff, mem_taskIdsF, mem_idsOf]
    exact ⟨A, hA, rfl⟩
  obtain ⟨t, ht⟩ := Option.isSome_iff_exists.mp h1
  obtain ⟨hmem, hid⟩ := taskById_mem tasks A.id t ht
  rw [ht, id_inj_of_nodup tasks hnd hmem hA hid]

theorem calc_visited (fuel : Nat) (relStart : Int) (H : List Int)
    (tasks : List Task) (t : Task) (m : List (String × (Int × Int)))
    (caps : List (String × List EmployeeCapacity)) (visited : List String)
    (h : t.id ∈ visited) :
    calcTaskSchedule (fuel + 1) relStart H tasks t m caps visited =
      some (.fail .cycle, m, caps) := by
  unfold calcTaskSchedule
  rw [if_pos h]

theorem calc_head_blocker_none (fuel : Nat) (relStart : Int) (H : List Int)
    (tasks : List Task) (t bt : Task) (b : String) (bs : List String)
    (m : List (String × (Int × Int)))
    (caps : List (String × List EmployeeCapacity)) (visited : List String)
    (hv : t.id ∉ visited) (hbl : t.blockerTaskIds = b :: bs)
    (hm : getAssoc m b = none) (hb : taskById tasks b = some bt)
    (hrec : calcTaskSchedule fuel relStart H tasks bt m caps
      (t.id :: visited) = none) :
    calcTaskSchedule (fuel + 1) relStart H tasks t m caps visited = none := by
  unfold calcTaskSchedule
  rw [if_neg hv]
  dsimp only
  rw [hbl]
  unfold resolveBlockers
  rw [hm, hb]
  dsimp only
  rw [hrec]

theorem calc_head_blocker_fail (fuel : Nat) (relStart : Int) (H : List Int)
    (tasks : List Task) (t bt : Task) (b : String) (bs : List String)
    (m m' : List (String × (Int × Int)))
    (caps caps' : List (String × List EmployeeCapacity)) (visited : List String)
    (r : UnscheduledReason)
    (hv : t.id ∉ visited) (hbl : t.blockerTaskIds = b :: bs)
    (hm : getAssoc m b = none) (hb : taskById tasks b = some bt)
    (hrec : calcTaskSchedule fuel relStart H tasks bt m caps
      (t.id :: visited) = some (.fail r, m', caps')) :
    calcTaskSchedule (fuel + 1) relStart H tasks t m caps visited =
      some (.fail r, m', caps') := by
  unfold calcTaskSchedule
  rw [if_neg hv]
  dsimp only
  rw [hbl]
  unfold resolveBlockers
  rw [hm, hb]
  dsimp only
  rw [hrec]

/-- A pair of tasks whose blocker lists each *start* with the other's id
can never be scheduled while neither has a map entry: the recursion
either runs out of fuel or reports a cycle, leaving map and capacities
untouched. -/
theorem calc_mutual_none_or_cycle (relStart : Int) (H : List Int)
    (tasks : List Task) (A B : Task) (restA restB : List String)
    (hA : taskById tasks A.id = some A) (hB : taskById tasks B.id = some B)
    (hAbl : A.blockerTaskIds = B.id :: restA)
    (hBbl : B.blockerTaskIds = A.id :: restB) :
    ∀ (fuel : Nat) (m : List (String × (Int × Int)))
      (caps : List (String × List EmployeeCapacity)) (visited : List String),
      getAssoc m A.id = none → getAssoc m B.id = none →
      ((calcTaskSchedule fuel relStart H tasks A m caps visited = none ∨
        calcTaskSchedule fuel relStart H tasks A m caps visited =
          some (.fail .cycle, m, caps)) ∧
       (calcTaskSchedule fuel relStart H tasks B m caps visited = none ∨
        calcTaskSchedule fuel relStart H tasks B m caps visited =
          some (.fail .cycle, m, caps))) := by
  intro fuel
  induction fuel with
  | zero => intro m caps visited _ _; exact ⟨Or.inl rfl, Or.inl rfl⟩
  | succ fuel ih =>
    intro m caps visited hmA hmB
    constructor
    · by_cases hv : A.id ∈ visited
      · exact Or.inr (calc_visited fuel relStart H tasks A m caps visited hv)
      · rcases (ih m caps (A.id :: visited) hmA hmB).2 with hn | hc
        · exact Or.inl (calc_head_blocker_none fuel relStart H tasks A B B.id
            restA m caps visited hv hAbl hmB hB hn)
        · exact Or.inr (calc_head_blocker_fail fuel relStart H tasks A B B.id
            restA m m caps caps visited .cycle hv hAbl hmB hB hc)
    · by_cases hv : B.id ∈ visited
      · exact Or.inr (calc_visited fuel relStart H tasks B m caps visited hv)
      · rcases (ih m caps (B.id :: visited) hmA hmB).1 with hn | hc
        · exact Or.inl (calc_head_blocker_none fuel relStart H tasks B A A.id
            restB m caps visited hv hBbl hmA hA hn)
        · exact Or.inr (calc_head_blocker_fail fuel relStart H tasks B A A.id
            restB m m caps caps visited .cycle hv hBbl hmA hA hc)

/-- With at least three levels of fuel the mutual pair definitely reports
a cycle (never fuel exhaustion). -/
theorem calc_mutual_cycle (relStart : Int) (H : List Int)
    (tasks : List Task) (A B : Task) (restA restB : List String)
    (hA : taskById tasks A.id = some A) (hB : taskById tasks B.id = some B)
    (hAbl : A.blockerTaskIds = B.id :: restA)
    (hBbl : B.blockerTaskIds = A.id :: restB)
    (f : Nat) (m : List (String × (Int × Int)))
    (caps : List (String × List EmployeeCapacity)) (visited : List String)
    (hmA : getAssoc m A.id = none) (hmB : getAssoc m B.id = none) :
    calcTaskSchedule (f + 3) relStart H tasks A m caps visited =
      some (.fail .cycle, m, caps) := by
  by_cases hv : A.id ∈ visited
  · exact calc_visited (f + 2) relStart H tasks A m caps visited hv
  · have hcB : calcTaskSchedule (f + 2) relStart H tasks B m caps
        (A.id :: visited) = some (.fail .cycle, m, caps) := by
      by_cases hv2 : B.id ∈ A.id :: visited
      · exact calc_visited (f + 1) relStart H tasks B m caps _ hv2
      · have hcA : calcTaskSchedule (f + 1) relStart H tasks A m caps
            (B.id :: A.id :: visited) = some (.fail .cycle, m, caps) :=
          calc_visited f relStart H tasks A m caps _
            (List.mem_cons_of_mem _ (List.mem_cons_self _ _))
        exact calc_head_blocker_fail (f + 1) relStart H tasks B A A.id
          restB m m caps caps (A.id :: visited) .cycle hv2 hBbl hmA hA hcA
    exact calc_head_blocker_fail (f + 2) relStart H tasks A B B.id
      restA m m caps caps visited .cycle hv hAbl hmB hB hcB

/-- The blocker-resolution loop never creates a map entry for either
member of the mutual pair: the only inserted keys are blocker ids whose
recursive scheduling succeeded, which the pair's ids cannot do. -/
theorem resolveBlockers_preserves_pair (tasks : List Task) (A B : Task)
    (hA : taskById tasks A.id = some A) (hB : taskById tasks B.id = some B)
    (calcF : CalcF)
    (hpres : ∀ t m caps visited r m' caps',
      getAssoc m A.id = none → getAssoc m B.id = none →
      calcF t m caps visited = some (r, m', caps') →
      getAssoc m' A.id = none ∧ getAssoc m' B.id = none)
    (hnoA : ∀ m caps visited s e m' caps',
      getAssoc m A.id = none → getAssoc m B.id = none →
      calcF A m caps visited ≠ some (.ok s e, m', caps'))
    (hnoB : ∀ m caps visited s e m' caps',
      getAssoc m A.id = none → getAssoc m B.id = none →
      calcF B m caps visited ≠ some (.ok s e, m', caps')) :
    ∀ (bs : List String) (latest : Option Int)
      (m : List (String × (Int × Int)))
      (caps : List (String × List EmployeeCapacity)) (visited : List String)
      (out : Except UnscheduledReason (Option Int) ×
        List (String × (Int × Int)) × List (String × List EmployeeCapacity)),
      getAssoc m A.id = none → getAssoc m B.id = none →
      resolveBlockers calcF tasks bs latest m caps visited = some out →
      getAssoc out.2.1 A.id = none ∧ getAssoc out.2.1 B.id = none := by
  intro bs
  induction bs with
  | nil =>
    intro latest m caps visited out hmA hmB hout
    unfold resolveBlockers at hout
    rw [Option.some.injEq] at hout
    rw [← hout]
    exact ⟨hmA, hmB⟩
  | cons b bs ih =>
    intro latest m caps visited out hmA hmB hout
    unfold resolveBlockers at hout
    cases hg : getAssoc m b with
    | some se =>
      rw [hg] at hout
      dsimp only at hout
      unfold blockerOutcome at hout
      dsimp only at hout
      exact ih (someMax latest se.2) m caps visited out hmA hmB hout
    | none =>
      rw [hg] at hout
      cases ht : taskById tasks b with
      | none =>
        rw [ht] at hout
        dsimp only at hout
        unfold blockerOutcome at hout
        rw [ht] at hout
        simp only [Option.isSome_none, Bool.false_eq_true, if_false] at hout
        rw [Option.some.injEq] at hout
        rw [← hout]
        exact ⟨hmA, hmB⟩
      | some bt =>
        rw [ht] at hout
        dsimp only at hout
        cases hc : calcF bt m caps visited with
        | none => rw [hc] at hout; cases hout
        | some res =>
          rw [hc] at hout
          obtain ⟨rr, m', caps'⟩ := res
          have hm' := hpres bt m caps visited rr m' caps' hmA hmB hc
          cases rr with
          | fail r =>
            dsimp only at hout
            rw [Option.some.injEq] at hout
            rw [← hout]
            exact hm'
          | ok s e =>
            have hbA : b ≠ A.id := by
              intro hbeq
              rw [hbeq] at ht
              rw [hA, Option.some.injEq] at ht
              rw [← ht] at hc
              exact hnoA m caps visited s e m' caps' hmA hmB hc
            have hbB : b ≠ B.id := by
              intro hbeq
              rw [hbeq] at ht
              rw [hB, Option.some.injEq] at ht
              rw [← ht] at hc
              exact hnoB m caps visited s e m' caps' hmA hmB hc
            have hsetA : getAssoc (setAssoc m' b (s, e)) A.id =
                getAssoc m' A.id :=
              getAssoc_setAssoc_ne m' b A.id (s, e) (fun h => hbA h.symm)
            have hsetB : getAssoc (setAssoc m' b (s, e)) B.id =
                getAssoc m' B.id :=
              getAssoc_setAssoc_ne m' b B.id (s, e) (fun h => hbB h.symm)
            dsimp only at hout
            unfold blockerOutcome at hout
            dsimp only at hout
            refine ih (someMax latest e) (setAssoc m' b (s, e)) caps' visited
              out ?_ ?_ hout
            · rw [hsetA]; exact hm'.1
            · rw [hsetB]; exact hm'.2

/-- Scheduling any task leaves the mutual pair's ids absent from the
schedule map: the recursion only records successes, and neither member
of the pair can succeed. -/
theorem calc_preserves_pair (relStart : Int) (H : List Int)
    (tasks : List Task) (A B : Task) (restA restB : List String)
    (hA : taskById tasks A.id = some A) (hB : taskById tasks B.id = some B)
    (hAbl : A.blockerTaskIds = B.id :: restA)
    (hBbl : B.blockerTaskIds = A.id :: restB) :
    ∀ (fuel : Nat) (t : Task) (m : List (String × (Int × Int)))
      (caps : List (String × List EmployeeCapacity)) (visited : List String)
      (r : SchedResult) (m' : List (String × (Int × Int)))
      (caps' : List (String × List EmployeeCapacity)),
      getAssoc m A.id = none → getAssoc m B.id = none →
      calcTaskSchedule fuel relStart H tasks t m caps visited =
        some (r, m', caps') →
      getAssoc m' A.id = none ∧ getAssoc m' B.id = none := by
  intro fuel
  induction fuel with
  | zero => intro t m caps visited r m' caps' _ _ h; cases h
  | succ fuel ih =>
    intro t m caps visited r m' caps' hmA hmB h
    unfold calcTaskSchedule at h
    by_cases hv : t.id ∈ visited
    · rw [if_pos hv] at h
      simp only [Option.some.injEq, Prod.mk.injEq] at h
      rw [← h.2.1]
      exact ⟨hmA, hmB⟩
    · rw [if_neg hv] at h
      dsimp only at h
      cases hrb : resolveBlockers (calcTaskSchedule fuel relStart H tasks)
          tasks t.blockerTaskIds none m caps (t.id :: visited) with
      | none => rw [hrb] at h; cases h
      | some out =>
        rw [hrb] at h
        have hnoA : ∀ m caps visited s e m' caps',
            getAssoc m A.id = none → getAssoc m B.id = none →
            calcTaskSchedule fuel relStart H tasks A m caps visited ≠
              some (.ok s e, m', caps') := by
          intro m caps visited s e m' caps' hmA' hmB' hcontra
          rcases (calc_mutual_none_or_cycle relStart H tasks A B restA restB
              hA hB hAbl hBbl fuel m caps visited hmA' hmB').1 with hn | hcy
          · rw [hcontra] at hn; cases hn
          · rw [hcontra] at hcy
            simp only [Option.some.injEq, Prod.mk.injEq] at hcy
            cases hcy.1
        have hnoB : ∀ m caps visited s e m' caps',
            getAssoc m A.id = none → getAssoc m B.id = none →
            calcTaskSchedule fuel relStart H tasks B m caps visited ≠
              some (.ok s e, m', caps') := by
          intro m caps visited s e m' caps' hmA' hmB' hcontra
          rcases (calc_mutual_none_or_cycle relStart H tasks A B restA restB
              hA hB hAbl hBbl fuel m caps visited hmA' hmB').2 with hn | hcy
          · rw [hcontra] at hn; cases hn
          · rw [hcontra] at hcy
            simp only [Option.some.injEq, Prod.mk.injEq] at hcy
            cases hcy.1
        have hlacks := resolveBlockers_preserves_pair tasks A B hA hB
          (calcTaskSchedule fuel relStart H tasks) ih hnoA hnoB
          t.blockerTaskIds none m caps (t.id :: visited) out hmA hmB hrb
        obtain ⟨res, m2, caps2⟩ := out
        cases res with
        | error r' =>
          dsimp only at h
          simp only [Option.some.injEq, Prod.mk.injEq] at h
          rw [← h.2.1]
          exact hlacks
        | ok latest =>
          dsimp only at h
          repeat' split at h
          all_goals
            simp only [Option.some.injEq, Prod.mk.injEq] at h
          all_goals rw [← h.2.1]
          all_goals exact hlacks

/-- Through the top-level loop, every record whose id belongs to the
mutual pair is a dateless cycle record, as long as neither id has a map
entry on entry to the loop. -/
theorem ganttLoop_mutual_cycle (relStart : Int) (H : List Int)
    (tasks : List Task) (employees : List Employee) (A B : Task)
    (restA restB : List String) (hnd : (idsOf tasks).Nodup)
    (hA : taskById tasks A.id = some A) (hB : taskById tasks B.id = some B)
    (hAbl : A.blockerTaskIds = B.id :: restA)
    (hBbl : B.blockerTaskIds = A.id :: restB) (f : Nat) :
    ∀ (input : List Task) (m : List (String × (Int × Int)))
      (caps : List (String × List EmployeeCapacity)),
      (∀ t ∈ input, t ∈ tasks) →
      getAssoc m A.id = none → getAssoc m B.id = none →
      ∀ g ∈ (ganttLoop (f + 3) relStart H tasks employees input m caps).1,
        g.id = A.id ∨ g.id = B.id →
        g.startDate = none ∧ g.endDate = none ∧
          g.unscheduledReason = some UnscheduledReason.cycle := by
  have hAmem : A ∈ tasks := (taskById_mem tasks A.id A hA).1
  have hBmem : B ∈ tasks := (taskById_mem tasks B.id B hB).1
  intro input
  induction input with
  | nil =>
    intro m caps _ _ _ g hg
    cases hg
  | cons t rest ih =>
    intro m caps hsub hmA hmB g hg hgid
    have htmem : t ∈ tasks := hsub t (List.mem_cons_self t rest)
    have hrest : ∀ u ∈ rest, u ∈ tasks :=
      fun u hu => hsub u (List.mem_cons_of_mem t hu)
    by_cases htA : t.id = A.id
    · have ht : t = A := id_inj_of_nodup tasks hnd htmem hAmem htA
      rw [ht] at hg
      unfold ganttLoop at hg
      rw [calc_mutual_cycle relStart H tasks A B restA restB hA hB hAbl hBbl
        f m caps [] hmA hmB] at hg
      dsimp only at hg
      rcases List.mem_cons.mp hg with hg1 | hg2
      · rw [hg1]; exact ⟨rfl, rfl, rfl⟩
      · exact ih m caps hrest hmA hmB g hg2 hgid
    · by_cases htB : t.id = B.id
      · have ht : t = B := id_inj_of_nodup tasks hnd htmem hBmem htB
        rw [ht] at hg
        unfold ganttLoop at hg
        have hcycB : calcTaskSchedule (f + 3) relStart H tasks B m caps [] =
            some (.fail .cycle, m, caps) := by
          have := calc_mutual_cycle relStart H tasks B A restB restA hB hA
            hBbl hAbl f m caps [] hmB hmA
          exact this
        rw [hcycB] at hg
        dsimp only at hg
        rcases List.mem_cons.mp hg with hg1 | hg2
        · rw [hg1]; exact ⟨rfl, rfl, rfl⟩
        · exact ih m caps hrest hmA hmB g hg2 hgid
      · unfold ganttLoop at hg
        cases hc : calcTaskSchedule (f + 3) relStart H tasks t m caps [] with
        | none =>
          rw [hc] at hg
          dsimp only at hg
          rcases List.mem_cons.mp hg with hg1 | hg2
          · exfalso
            rcases hgid with hh | hh
            · exact htA (by rw [hg1] at hh; exact hh)
            · exact htB (by rw [hg1] at hh; exact hh)
          · exact ih m caps hrest hmA hmB g hg2 hgid
        | some res3 =>
          rw [hc] at hg
          obtain ⟨res, m', caps'⟩ := res3
          have hm' : getAssoc m' A.id = none ∧ getAssoc m' B.id = none :=
            calc_preserves_pair relStart H tasks A B restA restB hA hB hAbl
              hBbl (f + 3) t m caps [] res m' caps' hmA hmB hc
          cases res with
          | ok s e =>
            dsimp only at hg
            rcases List.mem_cons.mp hg with hg1 | hg2
            · exfalso
              rcases hgid with hh | hh
              · exact htA (by rw [hg1] at hh; exact hh)
              · exact htB (by rw [hg1] at hh; exact hh)
            · refine ih (setAssoc m' t.id (s, e)) caps' hrest ?_ ?_ g hg2 hgid
              · rw [getAssoc_setAssoc_ne m' t.id A.id (s, e)
                  (fun hh => htA hh.symm)]
                exact hm'.1
              · rw [getAssoc_setAssoc_ne m' t.id B.id (s, e)
                  (fun hh => htB hh.symm)]
                exact hm'.2
          | fail r =>
            dsimp only at hg
            rcases List.mem_cons.mp hg with hg1 | hg2
            · exfalso
              rcases hgid with hh | hh
              · exact htA (by rw [hg1] at hh; exact hh)
              · exact htB (by rw [hg1] at hh; exact hh)
            · exact ih m' caps' hrest hm'.1 hm'.2 g hg2 hgid

theorem two_le_length_of_mem_ne {l : List Task} {A B : Task}
    (hA : A ∈ l) (hB : B ∈ l) (hne : A ≠ B) : 2 ≤ l.length := by
  match l with
  | [] => cases hA
  | [x] =>
    have h1 : A = x := by simpa using hA
    have h2 : B = x := by simpa using hB
    exact absurd (h1.trans h2.symm) hne
  | x :: y :: l' => simp only [List.length_cons]; omega

/-- C3 (amended): when two distinct-id tasks of a duplicate-free release
each list the other's id *first* in their blocker lists, both of their
output records carry unscheduledReason = cycle and no dates.  (With the
mutual ids listed later, an earlier blocker id can fail first and its
reason is reported instead; see cycle_pair_counterexample.) -/
theorem mutual_first_blockers_cycle (r : Release) (A B : Task)
    (restA restB : List String)
    (hnd : (idsOf r.tasks).Nodup)
    (hAmem : A ∈ r.tasks) (hBmem : B ∈ r.tasks) (hne : A.id ≠ B.id)
    (hAbl : A.blockerTaskIds = B.id :: restA)
    (hBbl : B.blockerTaskIds = A.id :: restB) :
    ∀ g ∈ (calculateGanttData r).tasks, g.id = A.id ∨ g.id = B.id →
      g.startDate = none ∧ g.endDate = none ∧
        g.unscheduledReason = some UnscheduledReason.cycle := by
  have hA := taskById_of_mem_nodup r.tasks hnd hAmem
  have hB := taskById_of_mem_nodup r.tasks hnd hBmem
  have hABne : A ≠ B := fun h => hne (h ▸ rfl)
  have hlen : 2 ≤ r.tasks.length := two_le_length_of_mem_ne hAmem hBmem hABne
  obtain ⟨f, hf⟩ : ∃ f, r.tasks.length + 1 = f + 3 :=
    ⟨r.tasks.length - 2, by omega⟩
  intro g hg hgid
  have h1 : (calculateGanttData r).tasks =
      (ganttLoop (r.tasks.length + 1) r.startDate r.customHolidays r.tasks
        r.employees (orderTasksByDependenciesAndPriority r.tasks) []
        (calculateEmployeeCapacities r.employees r.startDate
          r.customHolidays)).1 := rfl
  rw [h1, hf] at hg
  exact ganttLoop_mutual_cycle r.startDate r.customHolidays r.tasks
    r.employees A B restA restB hnd hA hB hAbl hBbl f
    (orderTasksByDependenciesAndPriority r.tasks) []
    (calculateEmployeeCapacities r.employees r.startDate r.customHolidays)
    (orderTasks_subset r.tasks) rfl rfl g hg hgid

/-- Witness: the amended cycle theorem at the plain mutual pair, whose
blocker lists consist exactly of each other's id. -/
theorem mutual_first_blockers_cycle_witness :
    (idsOf cyclePairRelease.tasks).Nodup ∧
    plainTask "a" 8 ["b"] 1 ∈ cyclePairRelease.tasks ∧
    plainTask "b" 8 ["a"] 2 ∈ cyclePairRelease.tasks ∧
    (plainTask "a" 8 ["b"] 1).id ≠ (plainTask "b" 8 ["a"] 2).id ∧
    (plainTask "a" 8 ["b"] 1).blockerTaskIds =
      (plainTask "b" 8 ["a"] 2).id :: [] ∧
    (plainTask "b" 8 ["a"] 2).blockerTaskIds =
      (plainTask "a" 8 ["b"] 1).id :: [] ∧
    (∀ g ∈ (calculateGanttData cyclePairRelease).tasks,
      g.id = (plainTask "a" 8 ["b"] 1).id ∨
        g.id = (plainTask "b" 8 ["a"] 2).id →
      g.startDate = none ∧ g.endDate = none ∧
        g.unscheduledReason = some UnscheduledReason.cycle) :=
  ⟨by decide, by decide, by decide, by decide, rfl, rfl,
   mutual_first_blockers_cycle cyclePairRelease
     (plainTask "a" 8 ["b"] 1) (plainTask "b" 8 ["a"] 2) [] []
     (by decide) (by decide) (by decide) (by decide) rfl rfl⟩

/-- The blocker loop only ever inserts keys that are ids of release
tasks, so a key unknown to the release stays absent from the map. -/
theorem resolveBlockers_preserves_keys (tasks : List Task) (calcF : CalcF)
    (hpres : ∀ t m caps visited r m' caps',
      (∀ k, taskById tasks k = none → getAssoc m k = none) →
      calcF t m caps visited = some (r, m', caps') →
      (∀ k, taskById tasks k = none → getAssoc m' k = none)) :
    ∀ (bs : List String) (latest : Option Int)
      (m : List (String × (Int × Int)))
      (caps : List (String × List EmployeeCapacity)) (visited : List String)
      (out : Except UnscheduledReason (Option Int) ×
        List (String × (Int × Int)) × List (String × List EmployeeCapacity)),
      (∀ k, taskById tasks k = none → getAssoc m k = none) →
      resolveBlockers calcF tasks bs latest m caps visited = some out →
      (∀ k, taskById tasks k = none → getAssoc out.2.1 k = none) := by
  intro bs
  induction bs with
  | nil =>
    intro latest m caps visited out hinv hout
    unfold resolveBlockers at hout
    rw [Option.some.injEq] at hout
    rw [← hout]
    exact hinv
  | cons b bs ih =>
    intro latest m caps visited out hinv hout
    unfold resolveBlockers at hout
    cases hg : getAssoc m b with
    | some se =>
      rw [hg] at hout
      dsimp only at hout
      unfold blockerOutcome at hout
      dsimp only at hout
      exact ih (someMax latest se.2) m caps visited out hinv hout
    | none =>
      rw [hg] at hout
      cases ht : taskById tasks b with
      | none =>
        rw [ht] at hout
        dsimp only at hout
        unfold blockerOutcome at hout
        rw [ht] at hout
        simp only [Option.isSome_none, Bool.false_eq_true, if_false] at hout
        rw [Option.some.injEq] at hout
        rw [← hout]
        exact hinv
      | some bt =>
        rw [ht] at hout
        dsimp only at hout
        cases hc : calcF bt m caps visited with
        | none => rw [hc] at hout; cases hout
        | some res =>
          rw [hc] at hout
          obtain ⟨rr, m', caps'⟩ := res
          have hm' := hpres bt m caps visited rr m' caps' hinv hc
          cases rr with
          | fail r =>
            dsimp only at hout
            rw [Option.some.injEq] at hout
            rw [← hout]
            exact hm'
          | ok s e =>
            have hset : ∀ k, taskById tasks k = none →
                getAssoc (setAssoc m' b (s, e)) k = none := by
              intro k hk
              have hkb : k ≠ b := by
                intro hkb
                rw [hkb, ht] at hk
                cases hk
              rw [getAssoc_setAssoc_ne m' b k (s, e) hkb]
              exact hm' k hk
            dsimp only at hout
            unfold blockerOutcome at hout
            dsimp only at hout
            exact ih (someMax latest e) (setAssoc m' b (s, e)) caps' visited
              out hset hout

/-- Scheduling any task keeps keys unknown to the release absent from
the map. -/
theorem calc_preserves_keys (relStart : Int) (H : List Int)
    (tasks : List Task) :
    ∀ (fuel : Nat) (t : Task) (m : List (String × (Int × Int)))
      (caps : List (String × List EmployeeCapacity)) (visited : List String)
      (r : SchedResult) (m' : List (String × (Int × Int)))
      (caps' : List (String × List EmployeeCapacity)),
      (∀ k, taskById tasks k = none → getAssoc m k = none) →
      calcTaskSchedule fuel relStart H tasks t m caps visited =
        some (r, m', caps') →
      (∀ k, taskById tasks k = none → getAssoc m' k = none) := by
  intro fuel
  induction fuel with
  | zero => intro t m caps visited r m' caps' _ h; cases h
  | succ fuel ih =>
    intro t m caps visited r m' caps' hinv h
    unfold calcTaskSchedule at h
    by_cases hv : t.id ∈ visited
    · rw [if_pos hv] at h
      simp only [Option.some.injEq, Prod.mk.injEq] at h
      rw [← h.2.1]
      exact hinv
    · rw [if_neg hv] at h
      dsimp only at h
      cases hrb : resolveBlockers (calcTaskSchedule fuel relStart H tasks)
          tasks t.blockerTaskIds none m caps (t.id :: visited) with
      | none => rw [hrb] at h; cases h
      | some out =>
        rw [hrb] at h
        have hlacks := resolveBlockers_preserves_keys tasks
          (calcTaskSchedule fuel relStart H tasks) ih
          t.blockerTaskIds none m caps (t.id :: visited) out hinv hrb
        obtain ⟨res, m2, caps2⟩ := out
        cases res with
        | error r' =>
          dsimp only at h
          simp only [Option.some.injEq, Prod.mk.injEq] at h
          rw [← h.2.1]
          exact hlacks
        | ok latest =>
          dsimp only at h
          repeat' split at h
          all_goals
            simp only [Option.some.injEq, Prod.mk.injEq] at h
          all_goals rw [← h.2.1]
          all_goals exact hlacks

/-- If some id in the list has no task in the release, the blocker loop
can only end in a failure (the dangling id is reached unless an earlier
blocker already failed). -/
theorem resolveBlockers_external_fail (tasks : List Task) (calcF : CalcF)
    (hpres : ∀ t m caps visited r m' caps',
      (∀ k, taskById tasks k = none → getAssoc m k = none) →
      calcF t m caps visited = some (r, m', caps') →
      (∀ k, taskById tasks k = none → getAssoc m' k = none))
    (b : String) (hext : taskById tasks b = none) :
    ∀ (bs : List String) (latest : Option Int)
      (m : List (String × (Int × Int)))
      (caps : List (String × List EmployeeCapacity)) (visited : List String)
      (out : Except UnscheduledReason (Option Int) ×
        List (String × (Int × Int)) × List (String × List EmployeeCapacity)),
      (∀ k, taskById tasks k = none → getAssoc m k = none) →
      b ∈ bs →
      resolveBlockers calcF tasks bs latest m caps visited = some out →
      ∃ r', out.1 = .error r' := by
  intro bs
  induction bs with
  | nil => intro latest m caps visited out _ hb; cases hb
  | cons b' bs ih =>
    intro latest m caps visited out hinv hb hout
    unfold resolveBlockers at hout
    cases hg : getAssoc m b' with
    | some se =>
      have hbne : b ≠ b' := by
        intro hbeq
        rw [← hbeq, hinv b hext] at hg
        cases hg
      rw [hg] at hout
      dsimp only at hout
      unfold blockerOutcome at hout
      dsimp only at hout
      exact ih (someMax latest se.2) m caps visited out hinv
        ((List.mem_cons.mp hb).resolve_left hbne) hout
    | none =>
      rw [hg] at hout
      cases ht : taskById tasks b' with
      | none =>
        rw [ht] at hout
        dsimp only at hout
        unfold blockerOutcome at hout
        rw [ht] at hout
        simp only [Option.isSome_none, Bool.false_eq_true, if_false] at hout
        rw [Option.some.injEq] at hout
        rw [← hout]
        exact ⟨.external_blocker, rfl⟩
      | some bt =>
        have hbne : b ≠ b' := by
          intro hbeq
          rw [← hbeq, hext] at ht
          cases ht
        rw [ht] at hout
        dsimp only at hout
        cases hc : calcF bt m caps visited with
        | none => rw [hc] at hout; cases hout
        | some res =>
          rw [hc] at hout
          obtain ⟨rr, m', caps'⟩ := res
          have hm' := hpres bt m caps visited rr m' caps' hinv hc
          cases rr with
          | fail r =>
            dsimp only at hout
            rw [Option.some.injEq] at hout
            rw [← hout]
            exact ⟨r, rfl⟩
          | ok s e =>
            have hset : ∀ k, taskById tasks k = none →
                getAssoc (setAssoc m' b' (s, e)) k = none := by
              intro k hk
              have hkb : k ≠ b' := by
                intro hkb
                rw [hkb, ht] at hk
                cases hk
              rw [getAssoc_setAssoc_ne m' b' k (s, e) hkb]
              exact hm' k hk
            dsimp only at hout
            unfold blockerOutcome at hout
            dsimp only at hout
            exact ih (someMax latest e) (setAssoc m' b' (s, e)) caps' visited
              out hset ((List.mem_cons.mp hb).resolve_left hbne) hout

/-- A task listing a dangling blocker id can only resolve to a failure
while the map holds no key unknown to the release. -/
theorem calc_external_fail (relStart : Int) (H : List Int)
    (tasks : List Task) (b : String) (hext : taskById tasks b = none) :
    ∀ (fuel : Nat) (t : Task) (m : List (String × (Int × Int)))
      (caps : List (String × List EmployeeCapacity)) (visited : List String)
      (res : SchedResult) (m' : List (String × (Int × Int)))
      (caps' : List (String × List EmployeeCapacity)),
      (∀ k, taskById tasks k = none → getAssoc m k = none) →
      b ∈ t.blockerTaskIds →
      calcTaskSchedule fuel relStart H tasks t m caps visited =
        some (res, m', caps') →
      ∃ r', res = .fail r' := by
  intro fuel t m caps visited res m' caps' hinv hb h
  cases fuel with
  | zero => cases h
  | succ fuel =>
    unfold calcTaskSchedule at h
    by_cases hv : t.id ∈ visited
    · rw [if_pos hv] at h
      simp only [Option.some.injEq, Prod.mk.injEq] at h
      exact ⟨.cycle, h.1.symm⟩
    · rw [if_neg hv] at h
      dsimp only at h
      cases hrb : resolveBlockers (calcTaskSchedule fuel relStart H tasks)
          tasks t.blockerTaskIds none m caps (t.id :: visited) with
      | none => rw [hrb] at h; cases h
      | some out =>
        rw [hrb] at h
        obtain ⟨r', hr'⟩ := resolveBlockers_external_fail tasks
          (calcTaskSchedule fuel relStart H tasks)
          (calc_preserves_keys relStart H tasks fuel) b hext
          t.blockerTaskIds none m caps (t.id :: visited) out hinv hb hrb
        obtain ⟨eres, m2, caps2⟩ := out
        have hr2 : eres = Except.error r' := hr'
        rw [hr2] at h
        dsimp only at h
        simp only [Option.some.injEq, Prod.mk.injEq] at h
        exact ⟨r', h.1.symm⟩

/-- When the dangling id comes first in the blocker list, the failure is
precisely external_blocker, with map and capacities untouched. -/
theorem calc_external_first (fuel : Nat) (relStart : Int) (H : List Int)
    (tasks : List Task) (t : Task) (b : String) (bs : List String)
    (m : List (String × (Int × Int)))
    (caps : List (String × List EmployeeCapacity)) (visited : List String)
    (hv : t.id ∉ visited) (hbl : t.blockerTaskIds = b :: bs)
    (hm : getAssoc m b = none) (hext : taskById tasks b = none) :
    calcTaskSchedule (fuel + 1) relStart H tasks t m caps visited =
      some (.fail .external_blocker, m, caps) := by
  unfold calcTaskSchedule
  rw [if_neg hv]
  dsimp only
  rw [hbl]
  unfold resolveBlockers
  rw [hm, hext]
  dsimp only
  unfold blockerOutcome
  rw [hext]
  simp only [Option.isSome_none, Bool.false_eq_true, if_false]

/-- C8 (amended): in a release with duplicate-free task ids, a task
listing a blocker id that matches no task of the release never receives
start/end dates — its record always carries some unscheduledReason — and
when the dangling id is the FIRST entry of its blocker list the reason is
exactly external_blocker.  (With the dangling id listed later, an earlier
blocker can fail first and its reason is propagated instead; see
external_blocker_counterexample.) -/
theorem external_blocker_unschedulable (r : Release) (T : Task) (b : String)
    (hnd : (idsOf r.tasks).Nodup) (hTmem : T ∈ r.tasks)
    (hb : b ∈ T.blockerTaskIds) (hext : taskById r.tasks b = none) :
    ∀ g ∈ (calculateGanttData r).tasks, g.id = T.id →
      g.startDate = none ∧ g.endDate = none ∧
        (∃ rr, g.unscheduledReason = some rr) ∧
        (T.blockerTaskIds.head? = some b →
          g.unscheduledReason = some UnscheduledReason.external_blocker) := by
  have hmain : ∀ (input : List Task) m caps,
      (∀ t ∈ input, t ∈ r.tasks) →
      (∀ k, taskById r.tasks k = none → getAssoc m k = none) →
      ∀ g ∈ (ganttLoop (r.tasks.length + 1) r.startDate r.customHolidays
          r.tasks r.employees input m caps).1, g.id = T.id →
        g.startDate = none ∧ g.endDate = none ∧
          (∃ rr, g.unscheduledReason = some rr) ∧
          (T.blockerTaskIds.head? = some b →
            g.unscheduledReason = some UnscheduledReason.external_blocker) := by
    intro input
    induction input with
    | nil => intro m caps _ _ g hg; cases hg
    | cons t rest ih =>
      intro m caps hsub hinv g hg hgid
      have htmem : t ∈ r.tasks := hsub t (List.mem_cons_self t rest)
      have hrest : ∀ u ∈ rest, u ∈ r.tasks :=
        fun u hu => hsub u (List.mem_cons_of_mem t hu)
      have hisSome : (calcTaskSchedule (r.tasks.length + 1) r.startDate
          r.customHolidays r.tasks t m caps []).isSome = true := by
        apply calc_isSome
        · exact List.mem_toFinset.mpr
            (List.mem_map.mpr ⟨t, htmem, rfl⟩)
        · have h2 : (taskIdsF r.tasks).card ≤ r.tasks.length := by
            unfold taskIdsF
            calc (r.tasks.map (fun t => t.id)).toFinset.card
                ≤ (r.tasks.map (fun t => t.id)).length :=
                  List.toFinset_card_le _
              _ = r.tasks.length := List.length_map _ _
          have h1 : (taskIdsF r.tasks \ ([] : List String).toFinset).card ≤
              r.tasks.length :=
            le_trans (Finset.card_le_card Finset.sdiff_subset) h2
          omega
      unfold ganttLoop at hg
      cases hc : calcTaskSchedule (r.tasks.length + 1) r.startDate
          r.customHolidays r.tasks t m caps [] with
      | none => rw [hc] at hisSome; cases hisSome
      | some out =>
        obtain ⟨res, m', caps'⟩ := out
        rw [hc] at hg
        dsimp only at hg
        have hinv' : ∀ k, taskById r.tasks k = none → getAssoc m' k = none :=
          calc_preserves_keys r.startDate r.customHolidays r.tasks
            (r.tasks.length + 1) t m caps [] res m' caps' hinv hc
        cases res with
        | ok s e =>
          rcases List.mem_cons.mp hg with rfl | hg2
          · exfalso
            have hgid' : t.id = T.id := hgid
            have ht : t = T := id_inj_of_nodup r.tasks hnd htmem hTmem hgid'
            rw [ht] at hc
            obtain ⟨r', hr'⟩ := calc_external_fail r.startDate
              r.customHolidays r.tasks b hext (r.tasks.length + 1) T m caps
              [] (.ok s e) m' caps' hinv hb hc
            cases hr'
          · refine ih (setAssoc m' t.id (s, e)) caps' hrest ?_ g hg2 hgid
            intro k hk
            have hkt : k ≠ t.id := by
              intro hke
              have hsome : (taskById r.tasks t.id).isSome = true := by
                rw [taskById_isSome_iff]
                exact List.mem_toFinset.mpr (List.mem_map.mpr ⟨t, htmem, rfl⟩)
              rw [← hke] at hsome
              rw [hk] at hsome
              cases hsome
            rw [getAssoc_setAssoc_ne m' t.id k (s, e) hkt]
            exact hinv' k hk
        | fail reason =>
          rcases List.mem_cons.mp hg with rfl | hg2
          · have hgid' : t.id = T.id := hgid
            have ht : t = T := id_inj_of_nodup r.tasks hnd htmem hTmem hgid'
            refine ⟨rfl, rfl, ⟨reason, rfl⟩, ?_⟩
            intro hhead
            cases hbl : T.blockerTaskIds with
            | nil => rw [hbl] at hhead; cases hhead
            | cons b0 bs0 =>
              rw [hbl] at hhead
              have hb0 : b0 = b := by
                simp only [List.head?_cons, Option.some.injEq] at hhead
                exact hhead
              rw [hb0] at hbl
              have hcf := calc_external_first r.tasks.length r.startDate
                r.customHolidays r.tasks T b bs0 m caps []
                (List.not_mem_nil _) hbl (hinv b hext) hext
              rw [ht] at hc
              rw [hcf] at hc
              simp only [Option.some.injEq, Prod.mk.injEq] at hc
              have hreason : reason = UnscheduledReason.external_blocker := by
                have := hc.1
                cases this
                rfl
              rw [hreason]
              rfl
          · exact ih m' caps' hrest hinv' g hg2 hgid
  intro g hg hgid
  exact hmain (orderTasksByDependenciesAndPriority r.tasks) []
    (calculateEmployeeCapacities r.employees r.startDate r.customHolidays)
    (orderTasks_subset r.tasks) (fun k _ => rfl) g hg hgid

/-- Witness: the amended external-blocker theorem at a single task whose
only blocker id is dangling. -/
theorem external_blocker_unschedulable_witness :
    (idsOf singleExternalRelease.tasks).Nodup ∧
    plainTask "t" 8 ["zz"] 1 ∈ singleExternalRelease.tasks ∧
    "zz" ∈ (plainTask "t" 8 ["zz"] 1).blockerTaskIds ∧
    taskById singleExternalRelease.tasks "zz" = none ∧
    (∀ g ∈ (calculateGanttData singleExternalRelease).tasks,
      g.id = (plainTask "t" 8 ["zz"] 1).id →
      g.startDate = none ∧ g.endDate = none ∧
        (∃ rr, g.unscheduledReason = some rr) ∧
        ((plainTask "t" 8 ["zz"] 1).blockerTaskIds.head? = some "zz" →
          g.unscheduledReason = some UnscheduledReason.external_blocker)) :=
  ⟨by decide, by decide, by decide, by decide,
   external_blocker_unschedulable singleExternalRelease
     (plainTask "t" 8 ["zz"] 1) "zz" (by decide) (by decide) (by decide)
     (by decide)⟩

/-- When every listed blocker already has a schedule-map entry, the
blocker loop succeeds without recursing, leaving map and capacities
unchanged, and accumulates exactly the someMax-fold of the entries'
end dates. -/
theorem resolveBlockers_resolved (calcF : CalcF) (tasks : List Task) :
    ∀ (bs : List String) (latest : Option Int)
      (m : List (String × (Int × Int)))
      (caps : List (String × List EmployeeCapacity)) (visited : List String),
      (∀ b ∈ bs, ∃ se, getAssoc m b = some se) →
      resolveBlockers calcF tasks bs latest m caps visited =
        some (.ok (bs.foldl (fun acc b =>
          match getAssoc m b with
          | some se => someMax acc se.2
          | none => acc) latest), m, caps) := by
  intro bs
  induction bs with
  | nil => intro latest m caps visited _; rfl
  | cons b bs ih =>
    intro latest m caps visited hres
    obtain ⟨se, hse⟩ := hres b (List.mem_cons_self b bs)
    unfold resolveBlockers
    rw [hse]
    dsimp only
    unfold blockerOutcome
    dsimp only
    rw [List.foldl_cons, hse]
    dsimp only
    exact ih (someMax latest se.2) m caps visited
      (fun b' hb' => hres b' (List.mem_cons_of_mem b hb'))

theorem foldl_someMax_filterMap (m : List (String × (Int × Int))) :
    ∀ (bs : List String) (latest : Option Int),
      bs.foldl (fun acc b =>
        match getAssoc m b with
        | some se => someMax acc se.2
        | none => acc) latest =
      (bs.filterMap (fun b => (getAssoc m b).map (fun se => se.2))).foldl
        someMax latest := by
  intro bs
  induction bs with
  | nil => intro latest; rfl
  | cons b bs ih =>
    intro latest
    rw [List.foldl_cons, List.filterMap_cons]
    cases hg : getAssoc m b with
    | none => dsimp only; exact ih latest
    | some se =>
      simp only [Option.map_some']
      rw [List.foldl_cons]
      exact ih (someMax latest se.2)

theorem foldl_someMax_some (es : List Int) :
    ∀ a, es.foldl someMax (some a) = some (es.foldl max a) := by
  induction es with
  | nil => intro a; rfl
  | cons e es ih => intro a; rw [List.foldl_cons, List.foldl_cons]; exact ih (max a e)

theorem foldl_someMax_none (es : List Int) :
    es.foldl someMax none = (match es with
      | [] => none
      | e :: es' => some (es'.foldl max e)) := by
  cases es with
  | nil => rfl
  | cons e es' => rw [List.foldl_cons]; exact foldl_someMax_some es' e

/-- C4 (amended): for an unassigned task whose listed blockers are all
resolved in the schedule map, the scheduler starts it at the next working
day after the latest blocker end date, or — when no blocker entry exists —
at the next working day from the task's own calculatedStartDate when one
is stored, only falling back to the release start date without one; the
start is a working day and strictly later than every resolved blocker's
end.  (The unconditional release-start fallback of the claim fails: line
169 reads task.calculatedStartDate || releaseStartDate, see
earliest_start_counterexample.) -/
theorem earliest_start_characterization (relStart : Int) (H : List Int)
    (tasks : List Task) (t : Task) (fuel : Nat)
    (m : List (String × (Int × Int)))
    (caps : List (String × List EmployeeCapacity)) (visited : List String)
    (hass : t.assignedEmployeeId = none) (hv : t.id ∉ visited)
    (hres : ∀ b ∈ t.blockerTaskIds, ∃ se, getAssoc m b = some se) :
    ∃ s e', calcTaskSchedule (fuel + 1) relStart H tasks t m caps visited =
        some (.ok s e', m, caps) ∧
      s = (match t.blockerTaskIds.filterMap
            (fun b => (getAssoc m b).map (fun se => se.2)) with
          | [] => nextWorkingDay (t.calculatedStartDate.getD relStart) H
          | e :: es => nextWorkingDay (es.foldl max e + 1) H) ∧
      isWorkingDay s H = true ∧
      (∀ b se, b ∈ t.blockerTaskIds → getAssoc m b = some se → se.2 < s) := by
  have hrb := resolveBlockers_resolved (calcTaskSchedule fuel relStart H tasks)
    tasks t.blockerTaskIds none m caps (t.id :: visited) hres
  rw [foldl_someMax_filterMap m t.blockerTaskIds none] at hrb
  rw [foldl_someMax_none] at hrb
  cases hE : t.blockerTaskIds.filterMap
      (fun b => (getAssoc m b).map (fun se => se.2)) with
  | nil =>
    rw [hE] at hrb
    dsimp only at hrb
    refine ⟨nextWorkingDay (t.calculatedStartDate.getD relStart) H,
      nextWorkingDay (addWorkingDays
        (nextWorkingDay (t.calculatedStartDate.getD relStart) H)
        (ceilDiv8 t.estimatedHours).toNat H) H, ?_, ?_, ?_, ?_⟩
    · unfold calcTaskSchedule
      rw [if_neg hv]
      dsimp only
      rw [hrb]
      dsimp only
      rw [hass]
    · rfl
    · exact nextWorkingDay_isWorking _ H
    · intro b se hb hse
      exfalso
      have hmem : se.2 ∈ t.blockerTaskIds.filterMap
          (fun b => (getAssoc m b).map (fun se => se.2)) :=
        List.mem_filterMap.mpr ⟨b, hb, by rw [hse]; rfl⟩
      rw [hE] at hmem
      cases hmem
  | cons e0 es0 =>
    rw [hE] at hrb
    dsimp only at hrb
    refine ⟨nextWorkingDay (es0.foldl max e0 + 1) H,
      nextWorkingDay (addWorkingDays
        (nextWorkingDay (es0.foldl max e0 + 1) H)
        (ceilDiv8 t.estimatedHours).toNat H) H, ?_, ?_, ?_, ?_⟩
    · unfold calcTaskSchedule
      rw [if_neg hv]
      dsimp only
      rw [hrb]
      dsimp only
      rw [hass]
    · rfl
    · exact nextWorkingDay_isWorking _ H
    · intro b se hb hse
      have hmem : se.2 ∈ t.blockerTaskIds.filterMap
          (fun b => (getAssoc m b).map (fun se => se.2)) :=
        List.mem_filterMap.mpr ⟨b, hb, by rw [hse]; rfl⟩
      rw [hE] at hmem
      have hle : se.2 ≤ es0.foldl max e0 := by
        rcases List.mem_cons.mp hmem with rfl | hmem'
        · exact le_foldl_max es0 se.2
        · exact mem_le_foldl_max es0 e0 se.2 hmem'
      have hnext := le_nextWorkingDay (es0.foldl max e0 + 1) H
      omega

/-- Witness: the earliest-start characterization at an unassigned task
with one blocker resolved in the map as (start 1, end 2). -/
theorem earliest_start_characterization_witness :
    (plainTask "t" 8 ["x"] 1).assignedEmployeeId = none ∧
    (plainTask "t" 8 ["x"] 1).id ∉ ([] : List String) ∧
    (∀ b ∈ (plainTask "t" 8 ["x"] 1).blockerTaskIds,
      ∃ se, getAssoc [("x", ((1 : Int), (2 : Int)))] b = some se) ∧
    (∃ s e', calcTaskSchedule (0 + 1) 1 [] [] (plainTask "t" 8 ["x"] 1)
        [("x", ((1 : Int), (2 : Int)))] [] [] =
        some (.ok s e', [("x", ((1 : Int), (2 : Int)))], []) ∧
      s = (match (plainTask "t" 8 ["x"] 1).blockerTaskIds.filterMap
            (fun b => (getAssoc [("x", ((1 : Int), (2 : Int)))] b).map
              (fun se => se.2)) with
          | [] => nextWorkingDay
              ((plainTask "t" 8 ["x"] 1).calculatedStartDate.getD 1) []
          | e :: es => nextWorkingDay (es.foldl max e + 1) []) ∧
      isWorkingDay s [] = true ∧
      (∀ b se, b ∈ (plainTask "t" 8 ["x"] 1).blockerTaskIds →
        getAssoc [("x", ((1 : Int), (2 : Int)))] b = some se →
        se.2 < s)) := by
  have hres : ∀ b ∈ (plainTask "t" 8 ["x"] 1).blockerTaskIds,
      ∃ se, getAssoc [("x", ((1 : Int), (2 : Int)))] b = some se := by
    intro b hb
    have hb' : b = "x" := by
      have hmem : b ∈ ["x"] := hb
      simpa using hmem
    rw [hb']
    exact ⟨(1, 2), by decide⟩
  exact ⟨rfl, by decide, hres,
    earliest_start_characterization 1 [] [] (plainTask "t" 8 ["x"] 1) 0
      [("x", ((1 : Int), (2 : Int)))] [] [] rfl (by decide) hres⟩

/-- Well-formedness of the capacity store: every employee's entry list is
strictly sorted by date and contains only working days.  Established by
the capacity builder and preserved by allocation, which never changes
dates. -/
def CapsGood (H : List Int) (caps : List (String × List EmployeeCapacity)) :
    Prop :=
  ∀ emp l, getAssoc caps emp = some l →
    l.Pairwise (fun a b => a.date < b.date) ∧
    ∀ c ∈ l, isWorkingDay c.date H = true

theorem allocate_dates (cs : List EmployeeCapacity) (r : ℚ) :
    ((allocate cs r).1).map (fun c => c.date) = cs.map (fun c => c.date) := by
  induction cs generalizing r with
  | nil => rfl
  | cons c cs ih =>
    unfold allocate
    by_cases h1 : 0 < r
    · rw [if_pos h1]
      by_cases h2 : 0 < qSub c.hoursAvailable c.hoursAllocated
      · rw [if_pos h2]
        dsimp only
        rw [List.map_cons, List.map_cons, ih]
      · rw [if_neg h2]
        dsimp only
        rw [List.map_cons, List.map_cons, ih]
    · rw [if_neg h1]

theorem allocate_found_mem (cs : List EmployeeCapacity) (r : ℚ) (d : Int)
    (h : (allocate cs r).2.2.1 = some d) : d ∈ cs.map (fun c => c.date) := by
  induction cs generalizing r with
  | nil => cases h
  | cons c cs ih =>
    unfold allocate at h
    by_cases h1 : 0 < r
    · rw [if_pos h1] at h
      by_cases h2 : 0 < qSub c.hoursAvailable c.hoursAllocated
      · rw [if_pos h2] at h
        dsimp only at h
        injection h with h
        rw [← h]
        exact List.mem_cons_self _ _
      · rw [if_neg h2] at h
        dsimp only at h
        exact List.mem_cons_of_mem _ (ih r h)
    · rw [if_neg h1] at h
      cases h

theorem allocate_found_none (cs : List EmployeeCapacity) (r : ℚ)
    (h : (allocate cs r).2.2.1 = none) : (allocate cs r).2.2.2 = none := by
  induction cs generalizing r with
  | nil => rfl
  | cons c cs ih =>
    unfold allocate at h ⊢
    by_cases h1 : 0 < r
    · rw [if_pos h1] at h ⊢
      by_cases h2 : 0 < qSub c.hoursAvailable c.hoursAllocated
      · rw [if_pos h2] at h
        dsimp only at h
        cases h
      · rw [if_neg h2] at h ⊢
        dsimp only at h ⊢
        exact ih r h
    · rw [if_neg h1]

theorem findIdx_ge_start {α : Type} (p : α → Bool) :
    ∀ (l : List α) (j i : Nat), l.findIdx? p j = some i → j ≤ i := by
  intro l
  induction l with
  | nil => intro j i h; cases h
  | cons a l ih =>
    intro j i h
    rw [List.findIdx?_cons] at h
    by_cases hp : p a = true
    · rw [if_pos hp] at h
      injection h with h
      omega
    · rw [if_neg hp] at h
      have := ih (j + 1) i h
      omega

theorem findIdx_drop_le {α : Type} (p : α → Bool) (f : α → Int) (D : Int)
    (hp : ∀ x, p x = true → D ≤ f x) :
    ∀ (l : List α) (j i : Nat),
      l.Pairwise (fun a b => f a < f b) →
      l.findIdx? p j = some i →
      ∀ c ∈ l.drop (i - j), D ≤ f c := by
  intro l
  induction l with
  | nil => intro j i _ h; cases h
  | cons a l ih =>
    intro j i hsort h c hc
    rw [List.findIdx?_cons] at h
    rw [List.pairwise_cons] at hsort
    by_cases hp' : p a = true
    · rw [if_pos hp'] at h
      injection h with h
      have hij : i - j = 0 := by omega
      rw [hij, List.drop_zero] at hc
      rcases List.mem_cons.mp hc with rfl | hc'
      · exact hp c hp'
      · exact le_of_lt (lt_of_le_of_lt (hp a hp') (hsort.1 c hc'))
    · rw [if_neg hp'] at h
      have hji := findIdx_ge_start p l (j + 1) i h
      have hidx : i - j = (i - (j + 1)) + 1 := by omega
      rw [hidx, List.drop_succ_cons] at hc
      exact ih (j + 1) i hsort.2 h c hc

theorem capsEntry_transfer (H : List Int) (l l' : List EmployeeCapacity)
    (hd : l'.map (fun c => c.date) = l.map (fun c => c.date))
    (h1 : l.Pairwise (fun a b => a.date < b.date))
    (h2 : ∀ c ∈ l, isWorkingDay c.date H = true) :
    l'.Pairwise (fun a b => a.date < b.date) ∧
      ∀ c ∈ l', isWorkingDay c.date H = true := by
  constructor
  · have hm : (l.map (fun c => c.date)).Pairwise (· < ·) :=
      List.pairwise_map.mpr h1
    rw [← hd] at hm
    exact List.pairwise_map.mp hm
  · intro c hc
    have hcd : c.date ∈ l'.map (fun c => c.date) := List.mem_map_of_mem _ hc
    rw [hd] at hcd
    obtain ⟨c0, hc0, hc0d⟩ := List.mem_map.mp hcd
    rw [← hc0d]
    exact h2 c0 hc0

theorem capsGood_setAssoc (H : List Int)
    (caps : List (String × List EmployeeCapacity)) (emp : String)
    (l l' : List EmployeeCapacity)
    (hg : CapsGood H caps) (hlook : getAssoc caps emp = some l)
    (hd : l'.map (fun c => c.date) = l.map (fun c => c.date)) :
    CapsGood H (setAssoc caps emp l') := by
  intro e le hle
  by_cases he : e = emp
  · subst he
    rw [getAssoc_setAssoc_self] at hle
    injection hle with hle
    obtain ⟨h1, h2⟩ := hg e l hlook
    rw [← hle]
    exact capsEntry_transfer H l l' hd h1 h2
  · rw [getAssoc_setAssoc_ne caps emp e l' he] at hle
    exact hg e le hle

theorem capsGood_init (employees : List Employee) (start : Int)
    (H : List Int) :
    CapsGood H (calculateEmployeeCapacities employees start H) := by
  intro emp l hl
  rw [calculateEmployeeCapacities_getAssoc] at hl
  cases hf : employees.reverse.find? (fun e => e.id == emp) with
  | none => rw [hf] at hl; cases hl
  | some e =>
    rw [hf] at hl
    injection hl with hl
    rw [← hl]
    refine ⟨capacityRange_sorted e H start horizonDays, ?_⟩
    intro c hc
    exact ((mem_capacityRange e H start horizonDays c).mp hc).1

/-- A schedule-map binding survives the blocker loop: inserts only
happen at keys that were unbound when examined. -/
theorem resolveBlockers_preserves_entry (tasks : List Task) (K : String)
    (V : Int × Int) (calcF : CalcF)
    (hpres : ∀ t m caps visited r m' caps',
      getAssoc m K = some V →
      calcF t m caps visited = some (r, m', caps') →
      getAssoc m' K = some V) :
    ∀ (bs : List String) (latest : Option Int)
      (m : List (String × (Int × Int)))
      (caps : List (String × List EmployeeCapacity)) (visited : List String)
      (out : Except UnscheduledReason (Option Int) ×
        List (String × (Int × Int)) × List (String × List EmployeeCapacity)),
      getAssoc m K = some V →
      resolveBlockers calcF tasks bs latest m caps visited = some out →
      getAssoc out.2.1 K = some V := by
  intro bs
  induction bs with
  | nil =>
    intro latest m caps visited out hK hout
    unfold resolveBlockers at hout
    rw [Option.some.injEq] at hout
    rw [← hout]
    exact hK
  | cons b bs ih =>
    intro latest m caps visited out hK hout
    unfold resolveBlockers at hout
    cases hg : getAssoc m b with
    | some se =>
      rw [hg] at hout
      dsimp only at hout
      unfold blockerOutcome at hout
      dsimp only at hout
      exact ih (someMax latest se.2) m caps visited out hK hout
    | none =>
      rw [hg] at hout
      cases ht : taskById tasks b with
      | none =>
        rw [ht] at hout
        dsimp only at hout
        unfold blockerOutcome at hout
        rw [ht] at hout
        simp only [Option.isSome_none, Bool.false_eq_true, if_false] at hout
        rw [Option.some.injEq] at hout
        rw [← hout]
        exact hK
      | some bt =>
        rw [ht] at hout
        dsimp only at hout
        cases hc : calcF bt m caps visited with
        | none => rw [hc] at hout; cases hout
        | some res =>
          rw [hc] at hout
          obtain ⟨rr, m', caps'⟩ := res
          have hm' := hpres bt m caps visited rr m' caps' hK hc
          cases rr with
          | fail r =>
            dsimp only at hout
            rw [Option.some.injEq] at hout
            rw [← hout]
            exact hm'
          | ok s e =>
            have hbK : b ≠ K := by
              intro hbeq
              rw [hbeq, hK] at hg
              cases hg
            have hset : getAssoc (setAssoc m' b (s, e)) K = some V := by
              rw [getAssoc_setAssoc_ne m' b K (s, e) (fun hh => hbK hh.symm)]
              exact hm'
            dsimp only at hout
            unfold blockerOutcome at hout
            dsimp only at hout
            exact ih (someMax latest e) (setAssoc m' b (s, e)) caps' visited
              out hset hout

/-- A schedule-map binding survives a whole recursive scheduling call. -/
theorem calc_preserves_entry (relStart : Int) (H : List Int)
    (tasks : List Task) (K : String) (V : Int × Int) :
    ∀ (fuel : Nat) (t : Task) (m : List (String × (Int × Int)))
      (caps : List (String × List EmployeeCapacity)) (visited : List String)
      (r : SchedResult) (m' : List (String × (Int × Int)))
      (caps' : List (String × List EmployeeCapacity)),
      getAssoc m K = some V →
      calcTaskSchedule fuel relStart H tasks t m caps visited =
        some (r, m', caps') →
      getAssoc m' K = some V := by
  intro fuel
  induction fuel with
  | zero => intro t m caps visited r m' caps' _ h; cases h
  | succ fuel ih =>
    intro t m caps visited r m' caps' hK h
    unfold calcTaskSchedule at h
    by_cases hv : t.id ∈ visited
    · rw [if_pos hv] at h
      simp only [Option.some.injEq, Prod.mk.injEq] at h
      rw [← h.2.1]
      exact hK
    · rw [if_neg hv] at h
      dsimp only at h
      cases hrb : resolveBlockers (calcTaskSchedule fuel relStart H tasks)
          tasks t.blockerTaskIds none m caps (t.id :: visited) with
      | none => rw [hrb] at h; cases h
      | some out =>
        rw [hrb] at h
        have hlacks := resolveBlockers_preserves_entry tasks K V
          (calcTaskSchedule fuel relStart H tasks) ih
          t.blockerTaskIds none m caps (t.id :: visited) out hK hrb
        obtain ⟨res, m2, caps2⟩ := out
        cases res with
        | error r' =>
          dsimp only at h
          simp only [Option.some.injEq, Prod.mk.injEq] at h
          rw [← h.2.1]
          exact hlacks
        | ok latest =>
          dsimp only at h
          repeat' split at h
          all_goals
            simp only [Option.some.injEq, Prod.mk.injEq] at h
          all_goals rw [← h.2.1]
          all_goals exact hlacks

/-- The capacity store's well-formedness survives the blocker loop. -/
theorem resolveBlockers_preserves_caps (H : List Int) (tasks : List Task)
    (calcF : CalcF)
    (hpres : ∀ t m caps visited r m' caps',
      CapsGood H caps →
      calcF t m caps visited = some (r, m', caps') →
      CapsGood H caps') :
    ∀ (bs : List String) (latest : Option Int)
      (m : List (String × (Int × Int)))
      (caps : List (String × List EmployeeCapacity)) (visited : List String)
      (out : Except UnscheduledReason (Option Int) ×
        List (String × (Int × Int)) × List (String × List EmployeeCapacity)),
      CapsGood H caps →
      resolveBlockers calcF tasks bs latest m caps visited = some out →
      CapsGood H out.2.2 := by
  intro bs
  induction bs with
  | nil =>
    intro latest m caps visited out hcg hout
    unfold resolveBlockers at hout
    rw [Option.some.injEq] at hout
    rw [← hout]
    exact hcg
  | cons b bs ih =>
    intro latest m caps visited out hcg hout
    unfold resolveBlockers at hout
    cases hg : getAssoc m b with
    | some se =>
      rw [hg] at hout
      dsimp only at hout
      unfold blockerOutcome at hout
      dsimp only at hout
      exact ih (someMax latest se.2) m caps visited out hcg hout
    | none =>
      rw [hg] at hout
      cases ht : taskById tasks b with
      | none =>
        rw [ht] at hout
        dsimp only at hout
        unfold blockerOutcome at hout
        rw [ht] at hout
        simp only [Option.isSome_none, Bool.false_eq_true, if_false] at hout
        rw [Option.some.injEq] at hout
        rw [← hout]
        exact hcg
      | some bt =>
        rw [ht] at hout
        dsimp only at hout
        cases hc : calcF bt m caps visited with
        | none => rw [hc] at hout; cases hout
        | some res =>
          rw [hc] at hout
          obtain ⟨rr, m', caps'⟩ := res
          have hcg' := hpres bt m caps visited rr m' caps' hcg hc
          cases rr with
          | fail r =>
            dsimp only at hout
            rw [Option.some.injEq] at hout
            rw [← hout]
            exact hcg'
          | ok s e =>
            dsimp only at hout
            unfold blockerOutcome at hout
            dsimp only at hout
            exact ih (someMax latest e) (setAssoc m' b (s, e)) caps' visited
              out hcg' hout

/-- The capacity store's well-formedness survives a scheduling call:
allocation rewrites hour counters but never dates. -/
theorem calc_preserves_caps (relStart : Int) (H : List Int)
    (tasks : List Task) :
    ∀ (fuel : Nat) (t : Task) (m : List (String × (Int × Int)))
      (caps : List (String × List EmployeeCapacity)) (visited : List String)
      (r : SchedResult) (m' : List (String × (Int × Int)))
      (caps' : List (String × List EmployeeCapacity)),
      CapsGood H caps →
      calcTaskSchedule fuel relStart H tasks t m caps visited =
        some (r, m', caps') →
      CapsGood H caps' := by
  intro fuel
  induction fuel with
  | zero => intro t m caps visited r m' caps' _ h; cases h
  | succ fuel ih =>
    intro t m caps visited r m' caps' hcg h
    unfold calcTaskSchedule at h
    by_cases hv : t.id ∈ visited
    · rw [if_pos hv] at h
      simp only [Option.some.injEq, Prod.mk.injEq] at h
      rw [← h.2.2]
      exact hcg
    · rw [if_neg hv] at h
      dsimp only at h
      cases hrb : resolveBlockers (calcTaskSchedule fuel relStart H tasks)
          tasks t.blockerTaskIds none m caps (t.id :: visited) with
      | none => rw [hrb] at h; cases h
      | some out =>
        rw [hrb] at h
        have hcg2 : CapsGood H out.2.2 :=
          resolveBlockers_preserves_caps H tasks
            (calcTaskSchedule fuel relStart H tasks) ih
            t.blockerTaskIds none m caps (t.id :: visited) out hcg hrb
        obtain ⟨res, m2, caps2⟩ := out
        have hcg2' : CapsGood H caps2 := hcg2
        cases res with
        | error r' =>
          dsimp only at h
          simp only [Option.some.injEq, Prod.mk.injEq] at h
          rw [← h.2.2]
          exact hcg2'
        | ok latest =>
          dsimp only at h
          cases hass : t.assignedEmployeeId with
          | none =>
            rw [hass] at h
            dsimp only at h
            simp only [Option.some.injEq, Prod.mk.injEq] at h
            rw [← h.2.2]
            exact hcg2'
          | some empId =>
            rw [hass] at h
            dsimp only at h
            by_cases hemp : (((getAssoc caps2 empId).getD []).isEmpty) = true
            · rw [if_pos hemp] at h
              simp only [Option.some.injEq, Prod.mk.injEq] at h
              rw [← h.2.2]
              exact hcg2'
            · rw [if_neg hemp] at h
              cases hlook : getAssoc caps2 empId with
              | none =>
                exfalso
                rw [hlook] at hemp
                exact hemp rfl
              | some entries =>
                rw [hlook] at h
                simp only [Option.getD_some] at h
                have hsetgood : ∀ idx : Nat, CapsGood H (setAssoc caps2 empId
                    (entries.take idx ++
                      (allocate (entries.drop idx) t.estimatedHours).1)) := by
                  intro idx
                  apply capsGood_setAssoc H caps2 empId entries _ hcg2' hlook
                  rw [List.map_append, allocate_dates, ← List.map_append,
                    List.take_append_drop]
                split at h
                · simp only [Option.some.injEq, Prod.mk.injEq] at h
                  rw [← h.2.2]
                  exact hcg2'
                · rename_i idx heq
                  by_cases hq :
                      (allocate (entries.drop idx) t.estimatedHours).2.1 ≤ 0
                  · rw [if_pos hq] at h
                    cases hlast :
                        (allocate (entries.drop idx) t.estimatedHours).2.2.2 with
                    | some lastD =>
                      rw [hlast] at h
                      dsimp only at h
                      simp only [Option.some.injEq, Prod.mk.injEq] at h
                      rw [← h.2.2]
                      exact hsetgood idx
                    | none =>
                      rw [hlast] at h
                      dsimp only at h
                      simp only [Option.some.injEq, Prod.mk.injEq] at h
                      rw [← h.2.2]
                      exact hsetgood idx
                  · rw [if_neg hq] at h
                    simp only [Option.some.injEq, Prod.mk.injEq] at h
                    rw [← h.2.2]
                    exact hsetgood idx

/-- The accumulated latest-blocker-end only grows along the loop. -/
theorem resolveBlockers_latest_mono (tasks : List Task) (calcF : CalcF) :
    ∀ (bs : List String) (latest : Option Int)
      (m : List (String × (Int × Int)))
      (caps : List (String × List EmployeeCapacity)) (visited : List String)
      (lat' : Option Int) (m' : List (String × (Int × Int)))
      (caps' : List (String × List EmployeeCapacity)),
      resolveBlockers calcF tasks bs latest m caps visited =
        some (.ok lat', m', caps') →
      ∀ l, latest = some l → ∃ l', lat' = some l' ∧ l ≤ l' := by
  intro bs
  induction bs with
  | nil =>
    intro latest m caps visited lat' m' caps' hout l hl
    unfold resolveBlockers at hout
    simp only [Option.some.injEq, Prod.mk.injEq, Except.ok.injEq] at hout
    refine ⟨l, ?_, le_refl l⟩
    rw [← hout.1, hl]
  | cons b bs ih =>
    intro latest m caps visited lat' m' caps' hout l hl
    unfold resolveBlockers at hout
    cases hg : getAssoc m b with
    | some se =>
      rw [hg] at hout
      dsimp only at hout
      unfold blockerOutcome at hout
      dsimp only at hout
      obtain ⟨l', hl', hle⟩ := ih (someMax latest se.2) m caps visited
        lat' m' caps' hout (max l se.2) (by rw [hl]; rfl)
      exact ⟨l', hl', le_trans (le_max_left l se.2) hle⟩
    | none =>
      rw [hg] at hout
      cases ht : taskById tasks b with
      | none =>
        rw [ht] at hout
        dsimp only at hout
        unfold blockerOutcome at hout
        rw [ht] at hout
        simp only [Option.isSome_none, Bool.false_eq_true, if_false] at hout
        simp only [Option.some.injEq, Prod.mk.injEq] at hout
        cases hout.1
      | some bt =>
        rw [ht] at hout
        dsimp only at hout
        cases hc : calcF bt m caps visited with
        | none => rw [hc] at hout; cases hout
        | some res =>
          rw [hc] at hout
          obtain ⟨rr, m2, caps2⟩ := res
          cases rr with
          | fail r =>
            dsimp only at hout
            simp only [Option.some.injEq, Prod.mk.injEq] at hout
            cases hout.1
          | ok s e =>
            dsimp only at hout
            unfold blockerOutcome at hout
            dsimp only at hout
            obtain ⟨l', hl', hle⟩ := ih (someMax latest e) (setAssoc m2 b (s, e))
              caps2 visited lat' m' caps' hout (max l e) (by rw [hl]; rfl)
            exact ⟨l', hl', le_trans (le_max_left l e) hle⟩

/-- A blocker already bound in the map contributes its end date: a
successful loop result dominates the bound entry's end. -/
theorem resolveBlockers_entry_le (tasks : List Task) (K : String)
    (V : Int × Int) (calcF : CalcF)
    (hpres : ∀ t m caps visited r m' caps',
      getAssoc m K = some V →
      calcF t m caps visited = some (r, m', caps') →
      getAssoc m' K = some V) :
    ∀ (bs : List String) (latest : Option Int)
      (m : List (String × (Int × Int)))
      (caps : List (String × List EmployeeCapacity)) (visited : List String)
      (lat' : Option Int) (m' : List (String × (Int × Int)))
      (caps' : List (String × List EmployeeCapacity)),
      getAssoc m K = some V → K ∈ bs →
      resolveBlockers calcF tasks bs latest m caps visited =
        some (.ok lat', m', caps') →
      ∃ l', lat' = some l' ∧ V.2 ≤ l' := by
  intro bs
  induction bs with
  | nil => intro latest m caps visited lat' m' caps' _ hK; cases hK
  | cons b bs ih =>
    intro latest m caps visited lat' m' caps' hKm hKbs hout
    unfold resolveBlockers at hout
    by_cases hbK : b = K
    · rw [hbK, hKm] at hout
      dsimp only at hout
      unfold blockerOutcome at hout
      dsimp only at hout
      cases hlat : latest with
      | none =>
        rw [hlat] at hout
        exact resolveBlockers_latest_mono tasks calcF bs (someMax none V.2)
          m caps visited lat' m' caps' hout V.2 rfl
      | some l0 =>
        rw [hlat] at hout
        obtain ⟨l', hl', hle⟩ := resolveBlockers_latest_mono tasks calcF bs
          (someMax (some l0) V.2) m caps visited lat' m' caps' hout
          (max l0 V.2) rfl
        exact ⟨l', hl', le_trans (le_max_right l0 V.2) hle⟩
    · have hKbs' : K ∈ bs := (List.mem_cons.mp hKbs).resolve_left
        (fun hh => hbK hh.symm)
      cases hg : getAssoc m b with
      | some se =>
        rw [hg] at hout
        dsimp only at hout
        unfold blockerOutcome at hout
        dsimp only at hout
        exact ih (someMax latest se.2) m caps visited lat' m' caps'
          hKm hKbs' hout
      | none =>
        rw [hg] at hout
        cases ht : taskById tasks b with
        | none =>
          rw [ht] at hout
          dsimp only at hout
          unfold blockerOutcome at hout
          rw [ht] at hout
          simp only [Option.isSome_none, Bool.false_eq_true, if_false] at hout
          simp only [Option.some.injEq, Prod.mk.injEq] at hout
          cases hout.1
        | some bt =>
          rw [ht] at hout
          dsimp only at hout
          cases hc : calcF bt m caps visited with
          | none => rw [hc] at hout; cases hout
          | some res =>
            rw [hc] at hout
            obtain ⟨rr, m2, caps2⟩ := res
            cases rr with
            | fail r =>
              dsimp only at hout
              simp only [Option.some.injEq, Prod.mk.injEq] at hout
              cases hout.1
            | ok s e =>
              have hK2 : getAssoc (setAssoc m2 b (s, e)) K = some V := by
                rw [getAssoc_setAssoc_ne m2 b K (s, e)
                  (fun hh => hbK hh.symm)]
                exact hpres bt m caps visited (.ok s e) m2 caps2 hKm hc
              dsimp only at hout
              unfold blockerOutcome at hout
              dsimp only at hout
              exact ih (someMax latest e) (setAssoc m2 b (s, e)) caps2
                visited lat' m' caps' hK2 hKbs' hout

/-- Core start-date bound: a successful scheduling of a task whose
blocker list contains a map-bound id starts strictly after that entry's
end date, on a working day.  Covers both the no-assignee path (start =
earliest) and the capacity path (start = first allocated capacity day,
which sits at or after earliest and is a working day). -/
theorem calc_start_after_entry (relStart : Int) (H : List Int)
    (tasks : List Task) (K : String) (V : Int × Int)
    (fuel : Nat) (T : Task) (m : List (String × (Int × Int)))
    (caps : List (String × List EmployeeCapacity)) (visited : List String)
    (sT eT : Int) (m' : List (String × (Int × Int)))
    (caps' : List (String × List EmployeeCapacity))
    (hK : getAssoc m K = some V) (hKT : K ∈ T.blockerTaskIds)
    (hcg : CapsGood H caps)
    (h : calcTaskSchedule fuel relStart H tasks T m caps visited =
      some (.ok sT eT, m', caps')) :
    V.2 < sT ∧ isWorkingDay sT H = true := by
  cases fuel with
  | zero => cases h
  | succ fuel =>
    unfold calcTaskSchedule at h
    by_cases hv : T.id ∈ visited
    · rw [if_pos hv] at h
      simp only [Option.some.injEq, Prod.mk.injEq] at h
      cases h.1
    · rw [if_neg hv] at h
      dsimp only at h
      cases hrb : resolveBlockers (calcTaskSchedule fuel relStart H tasks)
          tasks T.blockerTaskIds none m caps (T.id :: visited) with
      | none => rw [hrb] at h; cases h
      | some out =>
        rw [hrb] at h
        obtain ⟨eres, m2, caps2⟩ := out
        cases eres with
        | error r' =>
          dsimp only at h
          simp only [Option.some.injEq, Prod.mk.injEq] at h
          cases h.1
        | ok lat =>
          obtain ⟨l, hlat, hVle⟩ := resolveBlockers_entry_le tasks K V
            (calcTaskSchedule fuel relStart H tasks)
            (calc_preserves_entry relStart H tasks K V fuel)
            T.blockerTaskIds none m caps (T.id :: visited) lat m2 caps2
            hK hKT hrb
          subst hlat
          have hcg2 : CapsGood H caps2 :=
            resolveBlockers_preserves_caps H tasks
              (calcTaskSchedule fuel relStart H tasks)
              (calc_preserves_caps relStart H tasks fuel)
              T.blockerTaskIds none m caps (T.id :: visited)
              (Except.ok (some l), m2, caps2) hcg hrb
          dsimp only at h
          have hVE : V.2 < nextWorkingDay (l + 1) H := by
            have := le_nextWorkingDay (l + 1) H
            omega
          have hEwork : isWorkingDay (nextWorkingDay (l + 1) H) H = true :=
            nextWorkingDay_isWorking (l + 1) H
          cases hass : T.assignedEmployeeId with
          | none =>
            rw [hass] at h
            dsimp only at h
            simp only [Option.some.injEq, Prod.mk.injEq,
              SchedResult.ok.injEq] at h
            rw [← h.1.1]
            exact ⟨hVE, hEwork⟩
          | some empId =>
            rw [hass] at h
            dsimp only at h
            by_cases hemp : (((getAssoc caps2 empId).getD []).isEmpty) = true
            · rw [if_pos hemp] at h
              simp only [Option.some.injEq, Prod.mk.injEq] at h
              cases h.1
            · rw [if_neg hemp] at h
              cases hlook : getAssoc caps2 empId with
              | none =>
                exfalso
                rw [hlook] at hemp
                exact hemp rfl
              | some entries =>
                rw [hlook] at h
                simp only [Option.getD_some] at h
                obtain ⟨hsorted, hwork⟩ := hcg2 empId entries hlook
                split at h
                · simp only [Option.some.injEq, Prod.mk.injEq] at h
                  cases h.1
                · rename_i idx heq
                  have hge : ∀ c ∈ entries.drop idx,
                      nextWorkingDay (l + 1) H ≤ c.date := by
                    cases hf1 : entries.findIdx? (fun en =>
                        en.date == nextWorkingDay (l + 1) H) with
                    | some i =>
                      rw [hf1] at heq
                      have hidx : i = idx := by
                        dsimp only at heq
                        injection heq
                      subst hidx
                      have hd := findIdx_drop_le
                        (fun en => en.date == nextWorkingDay (l + 1) H)
                        (fun c => c.date) (nextWorkingDay (l + 1) H)
                        (fun x hx => le_of_eq (beq_iff_eq.mp hx).symm)
                        entries 0 i hsorted hf1
                      simpa using hd
                    | none =>
                      rw [hf1] at heq
                      dsimp only at heq
                      have hd := findIdx_drop_le
                        (fun en => decide
                          (nextWorkingDay (l + 1) H < en.date))
                        (fun c => c.date) (nextWorkingDay (l + 1) H)
                        (fun x hx => le_of_lt (of_decide_eq_true hx))
                        entries 0 idx hsorted heq
                      simpa using hd
                  by_cases hq : (allocate (entries.drop idx)
                      T.estimatedHours).2.1 ≤ 0
                  · rw [if_pos hq] at h
                    cases hlast : (allocate (entries.drop idx)
                        T.estimatedHours).2.2.2 with
                    | none =>
                      rw [hlast] at h
                      dsimp only at h
                      simp only [Option.some.injEq, Prod.mk.injEq] at h
                      cases h.1
                    | some lastD =>
                      rw [hlast] at h
                      dsimp only at h
                      cases hfs : (allocate (entries.drop idx)
                          T.estimatedHours).2.2.1 with
                      | none =>
                        exfalso
                        have hln := allocate_found_none (entries.drop idx)
                          T.estimatedHours hfs
                        rw [hlast] at hln
                        cases hln
                      | some d =>
                        rw [hfs] at h
                        simp only [Option.getD_some, Option.some.injEq,
                          Prod.mk.injEq, SchedResult.ok.injEq] at h
                        obtain ⟨c, hcmem, hcd⟩ := List.mem_map.mp
                          (allocate_found_mem (entries.drop idx)
                            T.estimatedHours d hfs)
                        have hdge : nextWorkingDay (l + 1) H ≤ d := by
                          rw [← hcd]
                          exact hge c hcmem
                        have hdwork : isWorkingDay d H = true := by
                          rw [← hcd]
                          exact hwork c (List.mem_of_mem_drop hcmem)
                        rw [← h.1.1]
                        exact ⟨lt_of_lt_of_le hVE hdge, hdwork⟩
                  · rw [if_neg hq] at h
                    simp only [Option.some.injEq, Prod.mk.injEq] at h
                    cases h.1

/-- The blocker loop keeps the ids of a doomed task set (tasks that can
never be scheduled while absent from the map) out of the map. -/
theorem resolveBlockers_preserves_R (tasks : List Task) (R : List Task)
    (hndR : ∀ u ∈ R, taskById tasks u.id = some u) (calcF : CalcF)
    (hpres : ∀ t m caps visited r m' caps',
      (∀ u ∈ R, getAssoc m u.id = none) →
      calcF t m caps visited = some (r, m', caps') →
      (∀ u ∈ R, getAssoc m' u.id = none))
    (hnoOk : ∀ u ∈ R, ∀ m caps visited s e m' caps',
      (∀ u' ∈ R, getAssoc m u'.id = none) →
      calcF u m caps visited ≠ some (.ok s e, m', caps')) :
    ∀ (bs : List String) (latest : Option Int)
      (m : List (String × (Int × Int)))
      (caps : List (String × List EmployeeCapacity)) (visited : List String)
      (out : Except UnscheduledReason (Option Int) ×
        List (String × (Int × Int)) × List (String × List EmployeeCapacity)),
      (∀ u ∈ R, getAssoc m u.id = none) →
      resolveBlockers calcF tasks bs latest m caps visited = some out →
      (∀ u ∈ R, getAssoc out.2.1 u.id = none) := by
  intro bs
  induction bs with
  | nil =>
    intro latest m caps visited out hinv hout
    unfold resolveBlockers at hout
    rw [Option.some.injEq] at hout
    rw [← hout]
    exact hinv
  | cons b bs ih =>
    intro latest m caps visited out hinv hout
    unfold resolveBlockers at hout
    cases hg : getAssoc m b with
    | some se =>
      rw [hg] at hout
      dsimp only at hout
      unfold blockerOutcome at hout
      dsimp only at hout
      exact ih (someMax latest se.2) m caps visited out hinv hout
    | none =>
      rw [hg] at hout
      cases ht : taskById tasks b with
      | none =>
        rw [ht] at hout
        dsimp only at hout
        unfold blockerOutcome at hout
        rw [ht] at hout
        simp only [Option.isSome_none, Bool.false_eq_true, if_false] at hout
        rw [Option.some.injEq] at hout
        rw [← hout]
        exact hinv
      | some bt =>
        rw [ht] at hout
        dsimp only at hout
        cases hc : calcF bt m caps visited with
        | none => rw [hc] at hout; cases hout
        | some res =>
          rw [hc] at hout
          obtain ⟨rr, m', caps'⟩ := res
          have hm' := hpres bt m caps visited rr m' caps' hinv hc
          cases rr with
          | fail r =>
            dsimp only at hout
            rw [Option.some.injEq] at hout
            rw [← hout]
            exact hm'
          | ok s e =>
            have hbR : ∀ u ∈ R, b ≠ u.id := by
              intro u hu hbeq
              rw [hbeq] at ht
              rw [hndR u hu, Option.some.injEq] at ht
              rw [← ht] at hc
              exact hnoOk u hu m caps visited s e m' caps' hinv hc
            have hset : ∀ u ∈ R, getAssoc (setAssoc m' b (s, e)) u.id = none := by
              intro u hu
              rw [getAssoc_setAssoc_ne m' b u.id (s, e)
                (fun hh => hbR u hu hh.symm)]
              exact hm' u hu
            dsimp only at hout
            unfold blockerOutcome at hout
            dsimp only at hout
            exact ih (someMax latest e) (setAssoc m' b (s, e)) caps' visited
              out hset hout

/-- If the blocker list mentions the id of a doomed task, the loop can
only fail. -/
theorem resolveBlockers_R_fail (tasks : List Task) (R : List Task)
    (hndR : ∀ u ∈ R, taskById tasks u.id = some u) (calcF : CalcF)
    (hpres : ∀ t m caps visited r m' caps',
      (∀ u ∈ R, getAssoc m u.id = none) →
      calcF t m caps visited = some (r, m', caps') →
      (∀ u ∈ R, getAssoc m' u.id = none))
    (hnoOk : ∀ u ∈ R, ∀ m caps visited s e m' caps',
      (∀ u' ∈ R, getAssoc m u'.id = none) →
      calcF u m caps visited ≠ some (.ok s e, m', caps')) :
    ∀ (bs : List String) (latest : Option Int)
      (m : List (String × (Int × Int)))
      (caps : List (String × List EmployeeCapacity)) (visited : List String)
      (out : Except UnscheduledReason (Option Int) ×
        List (String × (Int × Int)) × List (String × List EmployeeCapacity)),
      (∀ u ∈ R, getAssoc m u.id = none) →
      (∃ w ∈ R, w.id ∈ bs) →
      resolveBlockers calcF tasks bs latest m caps visited = some out →
      ∃ r', out.1 = .error r' := by
  intro bs
  induction bs with
  | nil =>
    intro latest m caps visited out _ hw
    obtain ⟨w, _, hwmem⟩ := hw
    cases hwmem
  | cons b bs ih =>
    intro latest m caps visited out hinv hw hout
    obtain ⟨w, hwR, hwmem⟩ := hw
    unfold resolveBlockers at hout
    by_cases hwb : b = w.id
    · rw [hwb, hinv w hwR, hndR w hwR] at hout
      dsimp only at hout
      cases hc : calcF w m caps visited with
      | none => rw [hc] at hout; cases hout
      | some res =>
        rw [hc] at hout
        obtain ⟨rr, m', caps'⟩ := res
        cases rr with
        | fail r =>
          dsimp only at hout
          rw [Option.some.injEq] at hout
          rw [← hout]
          exact ⟨r, rfl⟩
        | ok s e =>
          exact absurd hc (hnoOk w hwR m caps visited s e m' caps' hinv)
    · have hwmem' : w.id ∈ bs := by
        rcases List.mem_cons.mp hwmem with hh | hh
        · exact absurd hh.symm hwb
        · exact hh
      cases hg : getAssoc m b with
      | some se =>
        rw [hg] at hout
        dsimp only at hout
        unfold blockerOutcome at hout
        dsimp only at hout
        exact ih (someMax latest se.2) m caps visited out hinv
          ⟨w, hwR, hwmem'⟩ hout
      | none =>
        rw [hg] at hout
        cases ht : taskById tasks b with
        | none =>
          rw [ht] at hout
          dsimp only at hout
          unfold blockerOutcome at hout
          rw [ht] at hout
          simp only [Option.isSome_none, Bool.false_eq_true, if_false] at hout
          rw [Option.some.injEq] at hout
          rw [← hout]
          exact ⟨.external_blocker, rfl⟩
        | some bt =>
          rw [ht] at hout
          dsimp only at hout
          cases hc : calcF bt m caps visited with
          | none => rw [hc] at hout; cases hout
          | some res =>
            rw [hc] at hout
            obtain ⟨rr, m', caps'⟩ := res
            have hm' := hpres bt m caps visited rr m' caps' hinv hc
            cases rr with
            | fail r =>
              dsimp only at hout
              rw [Option.some.injEq] at hout
              rw [← hout]
              exact ⟨r, rfl⟩
            | ok s e =>
              have hbR : ∀ u ∈ R, b ≠ u.id := by
                intro u hu hbeq
                rw [hbeq] at ht
                rw [hndR u hu, Option.some.injEq] at ht
                rw [← ht] at hc
                exact hnoOk u hu m caps visited s e m' caps' hinv hc
              have hset : ∀ u ∈ R, getAssoc (setAssoc m' b (s, e)) u.id =
                  none := by
                intro u hu
                rw [getAssoc_setAssoc_ne m' b u.id (s, e)
                  (fun hh => hbR u hu hh.symm)]
                exact hm' u hu
              dsimp only at hout
              unfold blockerOutcome at hout
              dsimp only at hout
              exact ih (someMax latest e) (setAssoc m' b (s, e)) caps'
                visited out hset ⟨w, hwR, hwmem'⟩ hout

/-- Joint induction: scheduling keeps doomed ids out of the map, and a
doomed task (one whose blocker list mentions another doomed task) never
schedules. -/
theorem calc_R (relStart : Int) (H : List Int) (tasks : List Task)
    (R : List Task)
    (hndR : ∀ u ∈ R, taskById tasks u.id = some u)
    (hRblk : ∀ u ∈ R, ∃ w ∈ R, w.id ∈ u.blockerTaskIds) :
    ∀ fuel : Nat,
      (∀ t m caps visited r m' caps',
        (∀ u ∈ R, getAssoc m u.id = none) →
        calcTaskSchedule fuel relStart H tasks t m caps visited =
          some (r, m', caps') →
        (∀ u ∈ R, getAssoc m' u.id = none)) ∧
      (∀ u ∈ R, ∀ m caps visited s e m' caps',
        (∀ u' ∈ R, getAssoc m u'.id = none) →
        calcTaskSchedule fuel relStart H tasks u m caps visited ≠
          some (.ok s e, m', caps')) := by
  intro fuel
  induction fuel with
  | zero =>
    constructor
    · intro t m caps visited r m' caps' _ h; cases h
    · intro u _ m caps visited s e m' caps' _ h; cases h
  | succ fuel ih =>
    constructor
    · intro t m caps visited r m' caps' hinv h
      unfold calcTaskSchedule at h
      by_cases hv : t.id ∈ visited
      · rw [if_pos hv] at h
        simp only [Option.some.injEq, Prod.mk.injEq] at h
        rw [← h.2.1]
        exact hinv
      · rw [if_neg hv] at h
        dsimp only at h
        cases hrb : resolveBlockers (calcTaskSchedule fuel relStart H tasks)
            tasks t.blockerTaskIds none m caps (t.id :: visited) with
        | none => rw [hrb] at h; cases h
        | some out =>
          rw [hrb] at h
          have hlacks := resolveBlockers_preserves_R tasks R hndR
            (calcTaskSchedule fuel relStart H tasks) ih.1 ih.2
            t.blockerTaskIds none m caps (t.id :: visited) out hinv hrb
          obtain ⟨res, m2, caps2⟩ := out
          cases res with
          | error r' =>
            dsimp only at h
            simp only [Option.some.injEq, Prod.mk.injEq] at h
            rw [← h.2.1]
            exact hlacks
          | ok latest =>
            dsimp only at h
            repeat' split at h
            all_goals
              simp only [Option.some.injEq, Prod.mk.injEq] at h
            all_goals rw [← h.2.1]
            all_goals exact hlacks
    · intro u huR m caps visited s e m' caps' hinv hcontra
      unfold calcTaskSchedule at hcontra
      by_cases hv : u.id ∈ visited
      · rw [if_pos hv] at hcontra
        simp only [Option.some.injEq, Prod.mk.injEq] at hcontra
        cases hcontra.1
      · rw [if_neg hv] at hcontra
        dsimp only at hcontra
        cases hrb : resolveBlockers (calcTaskSchedule fuel relStart H tasks)
            tasks u.blockerTaskIds none m caps (u.id :: visited) with
        | none => rw [hrb] at hcontra; cases hcontra
        | some out =>
          rw [hrb] at hcontra
          obtain ⟨r', hr'⟩ := resolveBlockers_R_fail tasks R hndR
            (calcTaskSchedule fuel relStart H tasks) ih.1 ih.2
            u.blockerTaskIds none m caps (u.id :: visited) out hinv
            (hRblk u huR) hrb
          obtain ⟨eres, m2, caps2⟩ := out
          have hr2 : eres = Except.error r' := hr'
          rw [hr2] at hcontra
          dsimp only at hcontra
          simp only [Option.some.injEq, Prod.mk.injEq] at hcontra
          cases hcontra.1

/-- Records of remainder tasks (each blocked by another remainder task)
never carry dates. -/
theorem ganttLoop_R_no_dates (relStart : Int) (H : List Int)
    (tasks : List Task) (employees : List Employee) (R : List Task)
    (fuel : Nat)
    (hnd : (idsOf tasks).Nodup)
    (hRsub : ∀ u ∈ R, u ∈ tasks)
    (hndR : ∀ u ∈ R, taskById tasks u.id = some u)
    (hRblk : ∀ u ∈ R, ∃ w ∈ R, w.id ∈ u.blockerTaskIds) :
    ∀ (input : List Task) (m : List (String × (Int × Int)))
      (caps : List (String × List EmployeeCapacity)),
      (∀ t ∈ input, t ∈ tasks) →
      (∀ u ∈ R, getAssoc m u.id = none) →
      ∀ g ∈ (ganttLoop fuel relStart H tasks employees input m caps).1,
        (∃ u ∈ R, g.id = u.id) →
        g.startDate = none ∧ g.endDate = none := by
  intro input
  induction input with
  | nil => intro m caps _ _ g hg; cases hg
  | cons t rest ih =>
    intro m caps hsub hinv g hg hgid
    have htmem := hsub t (List.mem_cons_self t rest)
    have hrest : ∀ u ∈ rest, u ∈ tasks :=
      fun u hu => hsub u (List.mem_cons_of_mem t hu)
    unfold ganttLoop at hg
    cases hc : calcTaskSchedule fuel relStart H tasks t m caps [] with
    | none =>
      rw [hc] at hg
      dsimp only at hg
      rcases List.mem_cons.mp hg with rfl | hg2
      · exact ⟨rfl, rfl⟩
      · exact ih m caps hrest hinv g hg2 hgid
    | some out =>
      obtain ⟨res, m2, caps2⟩ := out
      rw [hc] at hg
      dsimp only at hg
      have hinv2 : ∀ u ∈ R, getAssoc m2 u.id = none :=
        (calc_R relStart H tasks R hndR hRblk fuel).1 t m caps [] res m2
          caps2 hinv hc
      cases res with
      | ok s e =>
        rcases List.mem_cons.mp hg with rfl | hg2
        · exfalso
          obtain ⟨u, huR, hgid'⟩ := hgid
          have hgid2 : t.id = u.id := hgid'
          have htu : t = u :=
            id_inj_of_nodup tasks hnd htmem (hRsub u huR) hgid2
          rw [htu] at hc
          exact (calc_R relStart H tasks R hndR hRblk fuel).2 u huR m caps
            [] s e m2 caps2 hinv hc
        · refine ih (setAssoc m2 t.id (s, e)) caps2 hrest ?_ g hg2 hgid
          intro u huR
          have htu : t.id ≠ u.id := by
            intro heq
            have htu2 : t = u :=
              id_inj_of_nodup tasks hnd htmem (hRsub u huR) heq
            rw [htu2] at hc
            exact (calc_R relStart H tasks R hndR hRblk fuel).2 u huR m caps
              [] s e m2 caps2 hinv hc
          rw [getAssoc_setAssoc_ne m2 t.id u.id (s, e)
            (fun hh => htu hh.symm)]
          exact hinv2 u huR
      | fail r =>
        rcases List.mem_cons.mp hg with rfl | hg2
        · exact ⟨rfl, rfl⟩
        · exact ih m2 caps2 hrest hinv2 g hg2 hgid

/-- After the blocker's entry is in the map, every later record of the
dependent task starts strictly after that entry's end, on a working
day. -/
theorem ganttLoop_pair_after (relStart : Int) (H : List Int)
    (tasks : List Task) (employees : List Employee) (T : Task) (K : String)
    (V : Int × Int) (fuel : Nat)
    (hnd : (idsOf tasks).Nodup) (hTmem : T ∈ tasks)
    (hKT : K ∈ T.blockerTaskIds) :
    ∀ (input : List Task) (m : List (String × (Int × Int)))
      (caps : List (String × List EmployeeCapacity)),
      (∀ t ∈ input, t ∈ tasks) →
      (∀ t ∈ input, t.id ≠ K) →
      getAssoc m K = some V →
      CapsGood H caps →
      ∀ g ∈ (ganttLoop fuel relStart H tasks employees input m caps).1,
        g.id = T.id → ∀ sT, g.startDate = some sT →
        V.2 < sT ∧ isWorkingDay sT H = true := by
  intro input
  induction input with
  | nil => intro m caps _ _ _ _ g hg; cases hg
  | cons t rest ih =>
    intro m caps hsub hnK hK hcg g hg hgid sT hsT
    have htmem := hsub t (List.mem_cons_self t rest)
    have hrest : ∀ u ∈ rest, u ∈ tasks :=
      fun u hu => hsub u (List.mem_cons_of_mem t hu)
    have hnKrest : ∀ u ∈ rest, u.id ≠ K :=
      fun u hu => hnK u (List.mem_cons_of_mem t hu)
    unfold ganttLoop at hg
    cases hc : calcTaskSchedule fuel relStart H tasks t m caps [] with
    | none =>
      rw [hc] at hg
      dsimp only at hg
      rcases List.mem_cons.mp hg with rfl | hg2
      · have hcon : (none : Option Int) = some sT := hsT
        cases hcon
      · exact ih m caps hrest hnKrest hK hcg g hg2 hgid sT hsT
    | some out =>
      obtain ⟨res, m2, caps2⟩ := out
      rw [hc] at hg
      dsimp only at hg
      have hK2 : getAssoc m2 K = some V :=
        calc_preserves_entry relStart H tasks K V fuel t m caps [] res m2
          caps2 hK hc
      have hcg2 : CapsGood H caps2 :=
        calc_preserves_caps relStart H tasks fuel t m caps [] res m2 caps2
          hcg hc
      cases res with
      | ok s e =>
        rcases List.mem_cons.mp hg with rfl | hg2
        · have hgid' : t.id = T.id := hgid
          have ht : t = T := id_inj_of_nodup tasks hnd htmem hTmem hgid'
          have hsT' : some s = some sT := hsT
          injection hsT' with hsT'
          rw [ht] at hc
          have hcore := calc_start_after_entry relStart H tasks K V fuel T
            m caps [] s e m2 caps2 hK hKT hcg hc
          rw [← hsT']
          exact hcore
        · refine ih (setAssoc m2 t.id (s, e)) caps2 hrest hnKrest ?_ hcg2
            g hg2 hgid sT hsT
          rw [getAssoc_setAssoc_ne m2 t.id K (s, e)
            (fun hh => (hnK t (List.mem_cons_self t rest)) hh.symm)]
          exact hK2
      | fail r =>
        rcases List.mem_cons.mp hg with rfl | hg2
        · have hcon : (none : Option Int) = some sT := hsT
          cases hcon
        · exact ih m2 caps2 hrest hnKrest hK2 hcg2 g hg2 hgid sT hsT

/-- Main loop property for a dependent/blocker pair: if the blocker B is
processed somewhere before T, then B's dated record ends strictly before
the start of T's dated record, which falls on a working day. -/
theorem ganttLoop_pair_main (relStart : Int) (H : List Int)
    (tasks : List Task) (employees : List Employee) (B T : Task)
    (fuel : Nat)
    (hnd : (idsOf tasks).Nodup) (hTmem : T ∈ tasks)
    (hKT : B.id ∈ T.blockerTaskIds) (hTBne : T.id ≠ B.id) :
    ∀ (input : List Task) (m : List (String × (Int × Int)))
      (caps : List (String × List EmployeeCapacity)),
      (∀ t ∈ input, t ∈ tasks) →
      (idsOf input).Nodup →
      CapsGood H caps →
      (∃ pre rest, input = pre ++ B :: rest ∧ T ∈ rest) →
      ∀ gB gT,
        gB ∈ (ganttLoop fuel relStart H tasks employees input m caps).1 →
        gT ∈ (ganttLoop fuel relStart H tasks employees input m caps).1 →
        gB.id = B.id → gT.id = T.id →
        ∀ eB sT, gB.endDate = some eB → gT.startDate = some sT →
        eB < sT ∧ isWorkingDay sT H = true := by
  intro input
  induction input with
  | nil =>
    intro m caps _ _ _ hdecomp gB gT hgB
    cases hgB
  | cons t input' ih =>
    intro m caps hsub hndin hcg hdecomp gB gT hgB hgT hidB hidT eB sT heB hsT
    obtain ⟨pre, rest, hdec, hTrest⟩ := hdecomp
    have htmem := hsub t (List.mem_cons_self t input')
    have hrest : ∀ u ∈ input', u ∈ tasks :=
      fun u hu => hsub u (List.mem_cons_of_mem t hu)
    have hndtail : (idsOf input').Nodup := by
      have h0 : (idsOf (t :: input')).Nodup := hndin
      rw [idsOf, List.map_cons] at h0
      exact (List.nodup_cons.mp h0).2
    have htnotin : t.id ∉ idsOf input' := by
      have h0 : (idsOf (t :: input')).Nodup := hndin
      rw [idsOf, List.map_cons] at h0
      exact (List.nodup_cons.mp h0).1
    cases pre with
    | nil =>
      rw [List.nil_append] at hdec
      injection hdec with h1 h2
      subst h1
      subst h2
      unfold ganttLoop at hgB hgT
      cases hc : calcTaskSchedule fuel relStart H tasks t m caps [] with
      | none =>
        rw [hc] at hgB hgT
        dsimp only at hgB hgT
        rcases List.mem_cons.mp hgB with rfl | hgB2
        · have hcon : (none : Option Int) = some eB := heB
          cases hcon
        · exfalso
          have hidmap := ganttLoop_map_id fuel relStart H tasks employees
            input' m caps
          have hmem : gB.id ∈ idsOf input' := by
            have hmm := List.mem_map_of_mem (fun g => g.id) hgB2
            rw [hidmap] at hmm
            exact hmm
          rw [hidB] at hmem
          exact htnotin hmem
      | some out =>
        obtain ⟨res, m2, caps2⟩ := out
        rw [hc] at hgB hgT
        dsimp only at hgB hgT
        have hcg2 : CapsGood H caps2 :=
          calc_preserves_caps relStart H tasks fuel t m caps [] res m2
            caps2 hcg hc
        cases res with
        | fail r =>
          rcases List.mem_cons.mp hgB with rfl | hgB2
          · have hcon : (none : Option Int) = some eB := heB
            cases hcon
          · exfalso
            have hidmap := ganttLoop_map_id fuel relStart H tasks employees
              input' m2 caps2
            have hmem : gB.id ∈ idsOf input' := by
              have hmm := List.mem_map_of_mem (fun g => g.id) hgB2
              rw [hidmap] at hmm
              exact hmm
            rw [hidB] at hmem
            exact htnotin hmem
        | ok sB eB0 =>
          rcases List.mem_cons.mp hgB with rfl | hgB2
          · have heB2 : some eB0 = some eB := heB
            injection heB2 with heB2
            rcases List.mem_cons.mp hgT with heq | hgT2
            · exfalso
              rw [heq] at hidT
              have hcon : t.id = T.id := hidT
              exact hTBne hcon.symm
            · have hafter := ganttLoop_pair_after relStart H tasks
                employees T t.id (sB, eB0) fuel hnd hTmem hKT input'
                (setAssoc m2 t.id (sB, eB0)) caps2 hrest
                (fun u hu heq2 => htnotin (by
                  rw [← heq2]
                  exact (mem_idsOf input' u.id).mpr ⟨u, hu, rfl⟩))
                (getAssoc_setAssoc_self m2 t.id (sB, eB0)) hcg2
                gT hgT2 hidT sT hsT
              rw [← heB2]
              exact hafter
          · exfalso
            have hidmap := ganttLoop_map_id fuel relStart H tasks employees
              input' (setAssoc m2 t.id (sB, eB0)) caps2
            have hmem : gB.id ∈ idsOf input' := by
              have hmm := List.mem_map_of_mem (fun g => g.id) hgB2
              rw [hidmap] at hmm
              exact hmm
            rw [hidB] at hmem
            exact htnotin hmem
    | cons p pre2 =>
      rw [List.cons_append] at hdec
      injection hdec with h1 h2
      subst h1
      have hBin : B ∈ input' := by
        rw [h2]
        exact List.mem_append.mpr (Or.inr (List.mem_cons_self B rest))
      have hTin : T ∈ input' := by
        rw [h2]
        exact List.mem_append.mpr (Or.inr (List.mem_cons_of_mem B hTrest))
      have htB : t.id ≠ B.id := fun heq =>
        htnotin (by rw [heq]; exact (mem_idsOf input' B.id).mpr ⟨B, hBin, rfl⟩)
      have htT : t.id ≠ T.id := fun heq =>
        htnotin (by rw [heq]; exact (mem_idsOf input' T.id).mpr ⟨T, hTin, rfl⟩)
      unfold ganttLoop at hgB hgT
      cases hc : calcTaskSchedule fuel relStart H tasks t m caps [] with
      | none =>
        rw [hc] at hgB hgT
        dsimp only at hgB hgT
        have hgB2 : gB ∈ (ganttLoop fuel relStart H tasks employees input'
            m caps).1 := by
          rcases List.mem_cons.mp hgB with rfl | hh
          · exact absurd (show t.id = B.id from hidB) htB
          · exact hh
        have hgT2 : gT ∈ (ganttLoop fuel relStart H tasks employees input'
            m caps).1 := by
          rcases List.mem_cons.mp hgT with rfl | hh
          · exact absurd (show t.id = T.id from hidT) htT
          · exact hh
        exact ih m caps hrest hndtail hcg ⟨pre2, rest, h2, hTrest⟩ gB gT
          hgB2 hgT2 hidB hidT eB sT heB hsT
      | some out =>
        obtain ⟨res, m2, caps2⟩ := out
        rw [hc] at hgB hgT
        dsimp only at hgB hgT
        have hcg2 : CapsGood H caps2 :=
          calc_preserves_caps relStart H tasks fuel t m caps [] res m2
            caps2 hcg hc
        cases res with
        | ok s e =>
          have hgB2 : gB ∈ (ganttLoop fuel relStart H tasks employees input'
              (setAssoc m2 t.id (s, e)) caps2).1 := by
            rcases List.mem_cons.mp hgB with rfl | hh
            · exact absurd (show t.id = B.id from hidB) htB
            · exact hh
          have hgT2 : gT ∈ (ganttLoop fuel relStart H tasks employees input'
              (setAssoc m2 t.id (s, e)) caps2).1 := by
            rcases List.mem_cons.mp hgT with rfl | hh
            · exact absurd (show t.id = T.id from hidT) htT
            · exact hh
          exact ih (setAssoc m2 t.id (s, e)) caps2 hrest hndtail hcg2
            ⟨pre2, rest, h2, hTrest⟩ gB gT hgB2 hgT2 hidB hidT eB sT heB hsT
        | fail r =>
          have hgB2 : gB ∈ (ganttLoop fuel relStart H tasks employees input'
              m2 caps2).1 := by
            rcases List.mem_cons.mp hgB with rfl | hh
            · exact absurd (show t.id = B.id from hidB) htB
            · exact hh
          have hgT2 : gT ∈ (ganttLoop fuel relStart H tasks employees input'
              m2 caps2).1 := by
            rcases List.mem_cons.mp hgT with rfl | hh
            · exact absurd (show t.id = T.id from hidT) htT
            · exact hh
          exact ih m2 caps2 hrest hndtail hcg2 ⟨pre2, rest, h2, hTrest⟩
            gB gT hgB2 hgT2 hidB hidT eB sT heB hsT

/-- A release with a two-task blocker chain: t depends on b. -/
def twoChainRelease : Release :=
  { startDate := 1, customHolidays := [], employees := [],
    tasks := [plainTask "b" 8 [] 1, plainTask "t" 8 ["b"] 2] }

/-- C2: in a release with duplicate-free task ids, whenever task B is
listed among task T's blockers and both records carry dates, T's start
date is strictly later than B's end date and falls on a working day. -/
theorem dependent_starts_after_blocker (r : Release)
    (hnd : (idsOf r.tasks).Nodup)
    (T B : Task) (hT : T ∈ r.tasks) (hB : B ∈ r.tasks)
    (hdep : B.id ∈ T.blockerTaskIds)
    (gT gB : GanttTask)
    (hgT : gT ∈ (calculateGanttData r).tasks)
    (hgB : gB ∈ (calculateGanttData r).tasks)
    (hidT : gT.id = T.id) (hidB : gB.id = B.id)
    (sT eB : Int) (hsT : gT.startDate = some sT)
    (heB : gB.endDate = some eB) :
    eB < sT ∧ isWorkingDay sT r.customHolidays = true := by
  obtain ⟨O, R, hOR, hperm, hnodids, hpos, hRblk, hRout⟩ :=
    orderTasks_spec r.tasks hnd
  have h1 : (calculateGanttData r).tasks =
      (ganttLoop (r.tasks.length + 1) r.startDate r.customHolidays r.tasks
        r.employees (orderTasksByDependenciesAndPriority r.tasks) []
        (calculateEmployeeCapacities r.employees r.startDate
          r.customHolidays)).1 := rfl
  rw [h1, hOR] at hgT hgB
  have hinputsub : ∀ t ∈ O ++ R, t ∈ r.tasks :=
    fun t ht => hperm.mem_iff.mp ht
  have hRsub : ∀ u ∈ R, u ∈ r.tasks :=
    fun u hu => hinputsub u (List.mem_append.mpr (Or.inr hu))
  have hOsub : ∀ u ∈ O, u ∈ r.tasks :=
    fun u hu => hinputsub u (List.mem_append.mpr (Or.inl hu))
  have hndR : ∀ u ∈ R, taskById r.tasks u.id = some u :=
    fun u hu => taskById_of_mem_nodup r.tasks hnd (hRsub u hu)
  have hcg0 : CapsGood r.customHolidays (calculateEmployeeCapacities
      r.employees r.startDate r.customHolidays) :=
    capsGood_init r.employees r.startDate r.customHolidays
  have hBnotR : B ∉ R := by
    intro hBR
    have hnod := ganttLoop_R_no_dates r.startDate r.customHolidays r.tasks
      r.employees R (r.tasks.length + 1) hnd hRsub hndR hRblk (O ++ R) []
      (calculateEmployeeCapacities r.employees r.startDate r.customHolidays)
      hinputsub (fun u _ => rfl) gB hgB ⟨B, hBR, hidB⟩
    rw [hnod.2] at heB
    cases heB
  have hTnotR : T ∉ R := by
    intro hTR
    have hnod := ganttLoop_R_no_dates r.startDate r.customHolidays r.tasks
      r.employees R (r.tasks.length + 1) hnd hRsub hndR hRblk (O ++ R) []
      (calculateEmployeeCapacities r.employees r.startDate r.customHolidays)
      hinputsub (fun u _ => rfl) gT hgT ⟨T, hTR, hidT⟩
    rw [hnod.1] at hsT
    cases hsT
  have hTO : T ∈ O :=
    (List.mem_append.mp (hperm.mem_iff.mpr hT)).resolve_right hTnotR
  have hBO : B ∈ O :=
    (List.mem_append.mp (hperm.mem_iff.mpr hB)).resolve_right hBnotR
  obtain ⟨o1, o2, hsplit⟩ := List.append_of_mem hTO
  have hBid_ids : B.id ∈ idsOf r.tasks :=
    (mem_idsOf r.tasks B.id).mpr ⟨B, hB, rfl⟩
  have hBo1ids : B.id ∈ idsOf o1 := hpos o1 T o2 hsplit B.id hdep hBid_ids
  obtain ⟨B', hB'o1, hB'id⟩ := (mem_idsOf o1 B.id).mp hBo1ids
  have hB'mem : B' ∈ r.tasks := hOsub B'
    (by rw [hsplit]; exact List.mem_append.mpr (Or.inl hB'o1))
  have hB'B : B' = B := id_inj_of_nodup r.tasks hnd hB'mem hB hB'id
  rw [hB'B] at hB'o1
  have hTBne : T.id ≠ B.id := by
    intro heq
    have hnods : (idsOf (O ++ R)).Nodup := hnodids
    rw [hsplit, List.append_assoc] at hnods
    rw [idsOf, List.map_append] at hnods
    obtain ⟨-, -, hdisj⟩ := List.nodup_append.mp hnods
    have h2 : B.id ∈ List.map (fun t => t.id) o1 := hBo1ids
    have h3 : B.id ∈ List.map (fun t => t.id) (T :: (o2 ++ R)) := by
      rw [List.map_cons]
      exact List.mem_cons.mpr (Or.inl heq.symm)
    exact hdisj h2 h3
  obtain ⟨p1, p2, hBsplit⟩ := List.append_of_mem hB'o1
  have hdeceq : O ++ R = p1 ++ B :: (p2 ++ T :: (o2 ++ R)) := by
    rw [hsplit, hBsplit]
    simp only [List.append_assoc, List.cons_append]
  exact ganttLoop_pair_main r.startDate r.customHolidays r.tasks
    r.employees B T (r.tasks.length + 1) hnd hT hdep hTBne (O ++ R) []
    (calculateEmployeeCapacities r.employees r.startDate r.customHolidays)
    hinputsub hnodids hcg0
    ⟨p1, p2 ++ T :: (o2 ++ R), hdeceq,
      List.mem_append.mpr (Or.inr (List.mem_cons_self T _))⟩
    gB gT hgB hgT hidB hidT eB sT heB hsT

/-- Witness: the topological property at a two-task chain scheduled on
consecutive working days. -/
theorem dependent_starts_after_blocker_witness :
    (idsOf twoChainRelease.tasks).Nodup ∧
    plainTask "t" 8 ["b"] 2 ∈ twoChainRelease.tasks ∧
    plainTask "b" 8 [] 1 ∈ twoChainRelease.tasks ∧
    (plainTask "b" 8 [] 1).id ∈ (plainTask "t" 8 ["b"] 2).blockerTaskIds ∧
    mkGanttTask (plainTask "t" 8 ["b"] 2) [] (SchedResult.ok 3 4) ∈
      (calculateGanttData twoChainRelease).tasks ∧
    mkGanttTask (plainTask "b" 8 [] 1) [] (SchedResult.ok 1 2) ∈
      (calculateGanttData twoChainRelease).tasks ∧
    ((2 : Int) < 3 ∧ isWorkingDay 3 twoChainRelease.customHolidays = true) :=
  ⟨by decide, by decide, by decide, by decide, by decide, by decide,
   dependent_starts_after_blocker twoChainRelease (by decide)
     (plainTask "t" 8 ["b"] 2) (plainTask "b" 8 [] 1) (by decide) (by decide)
     (by decide)
     (mkGanttTask (plainTask "t" 8 ["b"] 2) [] (SchedResult.ok 3 4))
     (mkGanttTask (plainTask "b" 8 [] 1) [] (SchedResult.ok 1 2))
     (by decide) (by decide) rfl rfl 3 2 rfl rfl⟩

end ReleaseFlow
